import Mathlib

/-!
Shallow embedding of the `bigz` fixed-width unsigned integer library
(packages `uint128` and `uint256`) and verification of its specification.

Modelling conventions:
* Go `uint64` values are `Nat`s; every Go operation that can wrap is
  reduced `% 2^64` exactly where the machine operation truncates.
  Go `x << n` on `uint64` is `x * 2^n % 2^64` (Go defines shifts by
  `n ≥ 64` to produce 0, which the modular form reproduces), and
  `x >> n` is `x / 2^n`.  Go `|` is `|||` (`Nat.lor`).
* A chain of wrapping `uint64` additions reduces to a single final
  `% 2^64`, which we use for compound expressions such as
  `hi + u.Hi*v.Lo + u.Lo*v.Hi`.
* `math/bits` primitives (`Add64`, `Sub64`, `Mul64`, `Div64`,
  `LeadingZeros64`, `Len64`) are modelled as the Nat functions below.
  `bits.Div64` panics on a zero or too-small divisor; the pure model
  `div64` is used where the library establishes the precondition, and
  `div64E` models the panic behaviour as an `Except`.
* Go `panic` in the library's own code (`uint128.Div`, `uint256.Div`)
  is modelled with `Except DivError`.
* The Go `for` correction loops inside `Div` are modelled as recursive
  functions with a fuel parameter (the loops are proved to exit within
  2 iterations under the functions' documented preconditions, so the
  fuel of 4 is never exhausted there); the functions also return the
  number of executed iterations so that the loop bound itself can be
  stated.
-/

/-! ### 64-bit primitives from `math/bits` -/

/-- Model of Go `bits.Add64`: sum with carry, `(sum, carryOut)`. -/
def add64 (x y c : Nat) : Nat × Nat :=
  ((x + y + c) % 2^64, (x + y + c) / 2^64)

/-- Model of Go `bits.Sub64`: difference with borrow, `(diff, borrowOut)`. -/
def sub64 (x y b : Nat) : Nat × Nat :=
  ((x + 2^64 - (y + b)) % 2^64, if x < y + b then 1 else 0)

/-- Model of Go `bits.Mul64`: full 64x64 product, `(hi, lo)`. -/
def mul64 (x y : Nat) : Nat × Nat :=
  (x * y / 2^64, x * y % 2^64)

/-- Model of Go `bits.Div64` on inputs satisfying its precondition
`hi < y`: quotient and remainder of the double-width dividend `(hi, lo)`
by `y`.  The panic cases are modelled by `div64E`. -/
def div64 (hi lo y : Nat) : Nat × Nat :=
  ((hi * 2^64 + lo) / y, (hi * 2^64 + lo) % y)

/-- The two failure kinds of the division entry points: Go
`runtime divide error` / `"integer divide by zero"` versus
`runtime overflow error` / `"integer overflow"`. -/
inductive DivError where
  | divideByZero
  | overflow
deriving DecidableEq, Repr

/-- Model of Go `bits.Div64` including its panic behaviour. -/
def div64E (hi lo y : Nat) : Except DivError (Nat × Nat) :=
  if y = 0 then .error .divideByZero
  else if y ≤ hi then .error .overflow
  else .ok (div64 hi lo y)

/-- Model of Go `bits.Len64` (bit length). -/
def len64 (x : Nat) : Nat := Nat.size x

/-- Model of Go `bits.LeadingZeros64` (`64 - Len64 x`). -/
def leadingZeros64 (x : Nat) : Nat := 64 - len64 x

/-! ### The `Uint128` type (`uint128/uint128.go`) -/

/-- Go type `uint128.Uint128`: an unsigned 128-bit number held as two
64-bit halves, representing `Hi * 2^64 + Lo`. -/
structure Uint128 where
  Lo : Nat
  Hi : Nat
deriving DecidableEq, Repr

namespace Uint128

/-- Well-formedness: both halves fit in a Go `uint64`. -/
def Wf (u : Uint128) : Prop := u.Lo < 2^64 ∧ u.Hi < 2^64

instance (u : Uint128) : Decidable u.Wf :=
  inferInstanceAs (Decidable (u.Lo < 2^64 ∧ u.Hi < 2^64))

/-- The unsigned integer value represented by a `Uint128`. -/
def toNat (u : Uint128) : Nat := u.Hi * 2^64 + u.Lo

/-- Go `uint128.From64`. -/
def From64 (v : Nat) : Uint128 := ⟨v, 0⟩

/-- Go `uint128.Zero`. -/
def Zero : Uint128 := From64 0

/-- Go `uint128.One`. -/
def One : Uint128 := From64 1

/-- Go `uint128.Max` (both halves `math.MaxUint64`). -/
def Max : Uint128 := ⟨2^64 - 1, 2^64 - 1⟩

/-- Go method `Uint128.IsZero`. -/
def IsZero (u : Uint128) : Bool := u.Lo == 0 && u.Hi == 0

/-- Go method `Uint128.Cmp` (-1, 0 or +1). -/
def Cmp (u v : Uint128) : Int :=
  if v.Hi < u.Hi then 1
  else if u.Hi < v.Hi then -1
  else if v.Lo < u.Lo then 1
  else if u.Lo < v.Lo then -1
  else 0

/-- Go method `Uint128.Or`. -/
def Or (u v : Uint128) : Uint128 := ⟨u.Lo ||| v.Lo, u.Hi ||| v.Hi⟩

/-- Go method `Uint128.LeadingZeros`. -/
def LeadingZeros (u : Uint128) : Nat :=
  if u.Hi ≠ 0 then leadingZeros64 u.Hi else 64 + leadingZeros64 u.Lo

end Uint128

namespace uint128

/-- Go free function `uint128.Add`: sum with carry of two 128-bit values. -/
def Add (x y : Uint128) (carry : Nat) : Uint128 × Nat :=
  let s0 := add64 x.Lo y.Lo carry
  let s1 := add64 x.Hi y.Hi s0.2
  (⟨s0.1, s1.1⟩, s1.2)

/-- Go free function `uint128.Sub`: difference with borrow of two 128-bit values. -/
def Sub (x y : Uint128) (borrow : Nat) : Uint128 × Nat :=
  let d0 := sub64 x.Lo y.Lo borrow
  let d1 := sub64 x.Hi y.Hi d0.2
  (⟨d0.1, d1.1⟩, d1.2)

/-- Go free function `uint128.Mul`: the full 256-bit product `(hi, lo)`
of two 128-bit values, via four 64x64 partial products. -/
def Mul (x y : Uint128) : Uint128 × Uint128 :=
  let p := mul64 x.Lo y.Lo      -- (lo.Hi, lo.Lo)
  let q := mul64 x.Hi y.Hi      -- (hi.Hi, hi.Lo)
  let t01 := mul64 x.Lo y.Hi    -- (t0, t1)
  let t23 := mul64 x.Hi y.Lo    -- (t2, t3)
  let a0 := add64 p.1 t01.2 0         -- lo.Hi += t1, carry c0
  let a1 := add64 a0.1 t23.2 0        -- lo.Hi += t3, carry c1
  let b0 := add64 q.2 t01.1 a0.2      -- hi.Lo += t0 + c0, carry c0
  let b1 := add64 b0.1 t23.1 a1.2     -- hi.Lo += t2 + c1, carry c1
  (⟨b1.1, (q.1 + b0.2 + b1.2) % 2^64⟩, ⟨p.2, a1.1⟩)

end uint128

namespace Uint128

/-- Go method `Uint128.Add` (wrap-around sum). -/
def Add (u v : Uint128) : Uint128 := (uint128.Add u v 0).1

/-- Go method `Uint128.Add64` (wrap-around sum with a 64-bit value). -/
def Add64 (u : Uint128) (v : Nat) : Uint128 :=
  let s := add64 u.Lo v 0
  ⟨s.1, (u.Hi + s.2) % 2^64⟩

/-- Go method `Uint128.Sub` (wrap-around difference). -/
def Sub (u v : Uint128) : Uint128 := (uint128.Sub u v 0).1

/-- Go method `Uint128.Sub64` (wrap-around difference with a 64-bit value). -/
def Sub64 (u : Uint128) (v : Nat) : Uint128 :=
  let d := sub64 u.Lo v 0
  ⟨d.1, (u.Hi + 2^64 - d.2) % 2^64⟩

/-- Go method `Uint128.Mul` (wrap-around product). -/
def Mul (u v : Uint128) : Uint128 :=
  let p := mul64 u.Lo v.Lo
  ⟨p.2, (p.1 + u.Hi * v.Lo + u.Lo * v.Hi) % 2^64⟩

/-- Go method `Uint128.Mul64` (wrap-around product with a 64-bit value). -/
def Mul64 (u : Uint128) (v : Nat) : Uint128 :=
  let p := mul64 u.Lo v
  ⟨p.2, (p.1 + u.Hi * v) % 2^64⟩

/-- Go method `Uint128.Lsh` (`u << n`). -/
def Lsh (u : Uint128) (n : Nat) : Uint128 :=
  if 64 < n then
    ⟨0, u.Lo * 2^(n-64) % 2^64⟩
  else
    ⟨u.Lo * 2^n % 2^64, (u.Hi * 2^n % 2^64) ||| u.Lo / 2^(64-n)⟩

/-- Go method `Uint128.Rsh` (`u >> n`). -/
def Rsh (u : Uint128) (n : Nat) : Uint128 :=
  if 64 < n then
    ⟨u.Hi / 2^(n-64), 0⟩
  else
    ⟨u.Lo / 2^n ||| (u.Hi * 2^(64-n) % 2^64), u.Hi / 2^n⟩

/-- Branch body of Go `Uint128.RotateLeft` for a reduced amount `n < 128`. -/
def rotl (u : Uint128) (n : Nat) : Uint128 :=
  if n < 64 then
    if n = 0 then u
    else ⟨(u.Lo * 2^n % 2^64) ||| u.Hi / 2^(64-n),
          (u.Hi * 2^n % 2^64) ||| u.Lo / 2^(64-n)⟩
  else
    let m := n - 64
    if m = 0 then ⟨u.Hi, u.Lo⟩
    else ⟨u.Lo / 2^(64-m) ||| (u.Hi * 2^m % 2^64),
          u.Hi / 2^(64-m) ||| (u.Lo * 2^m % 2^64)⟩

/-- Go method `Uint128.RotateLeft`: the amount is `uint(k) & 127`,
which for a 64-bit `int` argument equals `k mod 128`. -/
def RotateLeft (u : Uint128) (k : Int) : Uint128 := u.rotl (k % 128).toNat

/-- Go method `Uint128.RotateRight` (`RotateLeft (-k)`). -/
def RotateRight (u : Uint128) (k : Int) : Uint128 := u.RotateLeft (-k)

/-- Go method `Uint128.QuoRem64`: quotient and remainder by a 64-bit divisor. -/
def QuoRem64 (u : Uint128) (v : Nat) : Uint128 × Nat :=
  if u.Hi < v then
    let p := div64 u.Hi u.Lo v
    (⟨p.1, 0⟩, p.2)
  else
    let p := div64 0 u.Hi v
    let q := div64 p.2 u.Lo v
    (⟨q.1, p.1⟩, q.2)

/-- Go method `Uint128.QuoRem`: quotient and remainder of two 128-bit values. -/
def QuoRem (u v : Uint128) : Uint128 × Uint128 :=
  if v.Hi = 0 then
    let p := u.QuoRem64 v.Lo
    (p.1, From64 p.2)
  else
    let n := leadingZeros64 v.Hi
    let u1 := u.Rsh 1
    let v1 := v.Lsh n
    let tq0 := (div64 u1.Hi u1.Lo v1.Hi).1
    let tq1 := tq0 / 2^(63 - n)
    let tq := if tq1 ≠ 0 then tq1 - 1 else tq1
    let q := From64 tq
    let r := u.Sub (v.Mul64 tq)
    if 0 ≤ r.Cmp v then (q.Add64 1, r.Sub v) else (q, r)

end Uint128

namespace uint128

/-- Correction loop of `uint128.Div` (the two `for` loops at source lines
387-393 and 399-405 are instances of this body).  `yHi`/`yLo` are the
halves of the normalized divisor and `uDig` the next 64-bit dividend
digit.  Returns the corrected quotient digit, the running `rhat`, and
the number of executed iterations. -/
def divLoop (yHi yLo uDig : Nat) : Nat → Uint128 → Uint128 → Uint128 × Uint128 × Nat
  | 0, q1, r1 => (q1, r1, 0)
  | fuel+1, q1, r1 =>
    if q1.Hi ≠ 0 ∨ 0 < (q1.Mul64 yLo).Cmp ⟨uDig, r1.Lo⟩ then
      let q2 := q1.Sub64 1
      let r2 := r1.Add64 yHi
      if r2.Hi ≠ 0 then (q2, r2, 1)
      else
        let t := divLoop yHi yLo uDig fuel q2 r2
        (t.1, t.2.1, t.2.2 + 1)
    else (q1, r1, 0)

/-- Body of the Go free function `uint128.Div` after its two explicit
checks (source lines 379-410), with the iteration counts of the two
correction loops also returned. -/
def divCore (hi lo y0 : Uint128) : (Uint128 × Uint128) × Nat × Nat :=
  let s := y0.LeadingZeros
  let y := y0.Lsh s
  let un32 := (hi.Lsh s).Or (lo.Rsh (128 - s))
  let un10 := lo.Lsh s
  let p1 := un32.QuoRem64 y.Hi
  let t1 := divLoop y.Hi y.Lo un10.Hi 4 p1.1 (Uint128.From64 p1.2)
  let q1 := t1.1
  let un21 := (Uint128.mk un10.Hi un32.Lo).Sub (q1.Mul y)
  let p0 := un21.QuoRem64 y.Hi
  let t0 := divLoop y.Hi y.Lo un10.Lo 4 p0.1 (Uint128.From64 p0.2)
  let q0 := t0.1
  ((⟨q0.Lo, q1.Lo⟩, ((Uint128.mk un10.Lo un21.Lo).Sub (q0.Mul y)).Rsh s),
   t1.2.2, t0.2.2)

/-- Go free function `uint128.Div`: 256-by-128-bit division of the
dividend `(hi, lo)` by `y`.  The two Go panics are modelled as errors. -/
def Div (hi lo y : Uint128) : Except DivError (Uint128 × Uint128) :=
  if y.IsZero then .error .divideByZero
  else if y.Cmp hi ≤ 0 then .error .overflow
  else .ok (divCore hi lo y).1

end uint128

namespace Uint128

/-- Go method `Uint128.QuoRem64` with the panic of `bits.Div64`
made explicit (`v = 0` reaches a zero divisor inside `bits.Div64`). -/
def QuoRem64E (u : Uint128) (v : Nat) : Except DivError (Uint128 × Nat) := do
  if u.Hi < v then
    let p ← div64E u.Hi u.Lo v
    return (⟨p.1, 0⟩, p.2)
  else
    let p ← div64E 0 u.Hi v
    let q ← div64E p.2 u.Lo v
    return (⟨q.1, p.1⟩, q.2)

/-- Go method `Uint128.QuoRem` with the panic of `bits.Div64`
made explicit. -/
def QuoRemE (u v : Uint128) : Except DivError (Uint128 × Uint128) := do
  if v.Hi = 0 then
    let p ← u.QuoRem64E v.Lo
    return (p.1, From64 p.2)
  else
    let n := leadingZeros64 v.Hi
    let u1 := u.Rsh 1
    let v1 := v.Lsh n
    let t ← div64E u1.Hi u1.Lo v1.Hi
    let tq1 := t.1 / 2^(63 - n)
    let tq := if tq1 ≠ 0 then tq1 - 1 else tq1
    let q := From64 tq
    let r := u.Sub (v.Mul64 tq)
    if 0 ≤ r.Cmp v then return (q.Add64 1, r.Sub v) else return (q, r)

end Uint128

/-! ### The `Uint256` type (`uint256/uint256.go`) -/

/-- Go type `uint256.Uint256`: an unsigned 256-bit number held as two
128-bit halves, representing `Hi * 2^128 + Lo`. -/
structure Uint256 where
  Lo : Uint128
  Hi : Uint128
deriving DecidableEq, Repr

namespace Uint256

/-- Well-formedness: both 128-bit halves are well-formed. -/
def Wf (u : Uint256) : Prop := u.Lo.Wf ∧ u.Hi.Wf

instance (u : Uint256) : Decidable u.Wf :=
  inferInstanceAs (Decidable (u.Lo.Wf ∧ u.Hi.Wf))

/-- The unsigned integer value represented by a `Uint256`. -/
def toNat (u : Uint256) : Nat := u.Hi.toNat * 2^128 + u.Lo.toNat

/-- Go `uint256.From128`. -/
def From128 (v : Uint128) : Uint256 := ⟨v, Uint128.Zero⟩

/-- Go `uint256.From64`. -/
def From64 (v : Nat) : Uint256 := From128 (Uint128.From64 v)

/-- Go `uint256.Zero`. -/
def Zero : Uint256 := From64 0

/-- Go `uint256.One`. -/
def One : Uint256 := From64 1

/-- Go `uint256.Max`. -/
def Max : Uint256 := ⟨Uint128.Max, Uint128.Max⟩

/-- Go method `Uint256.IsZero`. -/
def IsZero (u : Uint256) : Bool := u.Lo.IsZero && u.Hi.IsZero

/-- Go method `Uint256.Cmp`. -/
def Cmp (u v : Uint256) : Int :=
  if u.Hi.Cmp v.Hi ≠ 0 then u.Hi.Cmp v.Hi else u.Lo.Cmp v.Lo

/-- Go method `Uint256.Or`. -/
def Or (u v : Uint256) : Uint256 := ⟨u.Lo.Or v.Lo, u.Hi.Or v.Hi⟩

/-- Go method `Uint256.LeadingZeros`. -/
def LeadingZeros (u : Uint256) : Nat :=
  if u.Hi.IsZero = false then u.Hi.LeadingZeros else 128 + u.Lo.LeadingZeros

end Uint256

namespace uint256

/-- Go free function `uint256.Add`: sum with carry of two 256-bit values. -/
def Add (x y : Uint256) (carry : Nat) : Uint256 × Nat :=
  let s0 := uint128.Add x.Lo y.Lo carry
  let s1 := uint128.Add x.Hi y.Hi s0.2
  (⟨s0.1, s1.1⟩, s1.2)

/-- Go free function `uint256.Sub`: difference with borrow of two 256-bit values. -/
def Sub (x y : Uint256) (borrow : Nat) : Uint256 × Nat :=
  let d0 := uint128.Sub x.Lo y.Lo borrow
  let d1 := uint128.Sub x.Hi y.Hi d0.2
  (⟨d0.1, d1.1⟩, d1.2)

/-- Go free function `uint256.Mul`: the full 512-bit product `(hi, lo)`
of two 256-bit values, via four 128x128 partial products. -/
def Mul (x y : Uint256) : Uint256 × Uint256 :=
  let p := uint128.Mul x.Lo y.Lo
  let q := uint128.Mul x.Hi y.Hi
  let t01 := uint128.Mul x.Lo y.Hi
  let t23 := uint128.Mul x.Hi y.Lo
  let a0 := uint128.Add p.1 t01.2 0
  let a1 := uint128.Add a0.1 t23.2 0
  let b0 := uint128.Add q.2 t01.1 a0.2
  let b1 := uint128.Add b0.1 t23.1 a1.2
  (⟨b1.1, q.1.Add64 (b0.2 + b1.2)⟩, ⟨p.2, a1.1⟩)

end uint256

namespace Uint256

/-- Go method `Uint256.Add` (wrap-around sum). -/
def Add (u v : Uint256) : Uint256 := (uint256.Add u v 0).1

/-- Go method `Uint256.Add128` (wrap-around sum with a 128-bit value). -/
def Add128 (u : Uint256) (v : Uint128) : Uint256 :=
  let s := uint128.Add u.Lo v 0
  ⟨s.1, u.Hi.Add64 s.2⟩

/-- Go method `Uint256.Sub` (wrap-around difference). -/
def Sub (u v : Uint256) : Uint256 := (uint256.Sub u v 0).1

/-- Go method `Uint256.Sub128` (wrap-around difference with a 128-bit value). -/
def Sub128 (u : Uint256) (v : Uint128) : Uint256 :=
  let d := uint128.Sub u.Lo v 0
  ⟨d.1, u.Hi.Sub64 d.2⟩

/-- Go method `Uint256.Mul` (wrap-around product). -/
def Mul (u v : Uint256) : Uint256 :=
  let p := uint128.Mul u.Lo v.Lo
  ⟨p.2, (p.1.Add (u.Hi.Mul v.Lo)).Add (u.Lo.Mul v.Hi)⟩

/-- Go method `Uint256.Mul128` (wrap-around product with a 128-bit value). -/
def Mul128 (u : Uint256) (v : Uint128) : Uint256 :=
  let p := uint128.Mul u.Lo v
  ⟨p.2, p.1.Add (u.Hi.Mul v)⟩

/-- Go method `Uint256.Lsh` (`u << n`). -/
def Lsh (u : Uint256) (n : Nat) : Uint256 :=
  if 128 < n then
    ⟨Uint128.Zero, u.Lo.Lsh (n - 128)⟩
  else if 64 < n then
    let m := n - 64
    ⟨⟨0, u.Lo.Lo * 2^m % 2^64⟩,
     ⟨(u.Lo.Hi * 2^m % 2^64) ||| u.Lo.Lo / 2^(64-m),
      (u.Hi.Lo * 2^m % 2^64) ||| u.Lo.Hi / 2^(64-m)⟩⟩
  else
    ⟨⟨u.Lo.Lo * 2^n % 2^64, (u.Lo.Hi * 2^n % 2^64) ||| u.Lo.Lo / 2^(64-n)⟩,
     ⟨(u.Hi.Lo * 2^n % 2^64) ||| u.Lo.Hi / 2^(64-n),
      (u.Hi.Hi * 2^n % 2^64) ||| u.Hi.Lo / 2^(64-n)⟩⟩

/-- Go method `Uint256.Rsh` (`u >> n`). -/
def Rsh (u : Uint256) (n : Nat) : Uint256 :=
  if 128 < n then
    ⟨u.Hi.Rsh (n - 128), Uint128.Zero⟩
  else if 64 < n then
    let m := n - 64
    ⟨⟨u.Lo.Hi / 2^m ||| (u.Hi.Lo * 2^(64-m) % 2^64),
      u.Hi.Lo / 2^m ||| (u.Hi.Hi * 2^(64-m) % 2^64)⟩,
     ⟨u.Hi.Hi / 2^m, 0⟩⟩
  else
    ⟨⟨u.Lo.Lo / 2^n ||| (u.Lo.Hi * 2^(64-n) % 2^64),
      u.Lo.Hi / 2^n ||| (u.Hi.Lo * 2^(64-n) % 2^64)⟩,
     ⟨u.Hi.Lo / 2^n ||| (u.Hi.Hi * 2^(64-n) % 2^64), u.Hi.Hi / 2^n⟩⟩

/-- Branch body of Go `Uint256.RotateLeft` for a reduced amount `n < 256`. -/
def rotl (u : Uint256) (n : Nat) : Uint256 :=
  if n < 64 then
    if n = 0 then u
    else
      ⟨⟨(u.Lo.Lo * 2^n % 2^64) ||| u.Hi.Hi / 2^(64-n),
        (u.Lo.Hi * 2^n % 2^64) ||| u.Lo.Lo / 2^(64-n)⟩,
       ⟨(u.Hi.Lo * 2^n % 2^64) ||| u.Lo.Hi / 2^(64-n),
        (u.Hi.Hi * 2^n % 2^64) ||| u.Hi.Lo / 2^(64-n)⟩⟩
  else if n < 128 then
    let m := n - 64
    if m = 0 then ⟨⟨u.Hi.Hi, u.Lo.Lo⟩, ⟨u.Lo.Hi, u.Hi.Lo⟩⟩
    else
      ⟨⟨(u.Hi.Hi * 2^m % 2^64) ||| u.Hi.Lo / 2^(64-m),
        (u.Lo.Lo * 2^m % 2^64) ||| u.Hi.Hi / 2^(64-m)⟩,
       ⟨(u.Lo.Hi * 2^m % 2^64) ||| u.Lo.Lo / 2^(64-m),
        (u.Hi.Lo * 2^m % 2^64) ||| u.Lo.Hi / 2^(64-m)⟩⟩
  else if n < 192 then
    let m := n - 128
    if m = 0 then ⟨u.Hi, u.Lo⟩
    else
      ⟨⟨(u.Hi.Lo * 2^m % 2^64) ||| u.Lo.Hi / 2^(64-m),
        (u.Hi.Hi * 2^m % 2^64) ||| u.Hi.Lo / 2^(64-m)⟩,
       ⟨(u.Lo.Lo * 2^m % 2^64) ||| u.Hi.Hi / 2^(64-m),
        (u.Lo.Hi * 2^m % 2^64) ||| u.Lo.Lo / 2^(64-m)⟩⟩
  else
    let m := n - 192
    if m = 0 then ⟨⟨u.Lo.Hi, u.Hi.Lo⟩, ⟨u.Hi.Hi, u.Lo.Lo⟩⟩
    else
      ⟨⟨(u.Lo.Hi * 2^m % 2^64) ||| u.Lo.Lo / 2^(64-m),
        (u.Hi.Lo * 2^m % 2^64) ||| u.Lo.Hi / 2^(64-m)⟩,
       ⟨(u.Hi.Hi * 2^m % 2^64) ||| u.Hi.Lo / 2^(64-m),
        (u.Lo.Lo * 2^m % 2^64) ||| u.Hi.Hi / 2^(64-m)⟩⟩

/-- Go method `Uint256.RotateLeft`: the amount is `uint(k) & 255`,
which for a 64-bit `int` argument equals `k mod 256`. -/
def RotateLeft (u : Uint256) (k : Int) : Uint256 := u.rotl (k % 256).toNat

/-- Go method `Uint256.RotateRight` (`RotateLeft (-k)`). -/
def RotateRight (u : Uint256) (k : Int) : Uint256 := u.RotateLeft (-k)

/-- Go method `Uint256.QuoRem64`. -/
def QuoRem64 (u : Uint256) (v : Nat) : Uint256 × Nat :=
  let p := u.Hi.QuoRem64 v
  let a := div64 p.2 u.Lo.Hi v
  let b := div64 a.2 u.Lo.Lo v
  (⟨⟨b.1, a.1⟩, p.1⟩, b.2)

/-- Go method `Uint256.QuoRem128`.  The source calls the panicking free
function `uint128.Div`; under a nonzero divisor those calls satisfy the
checks of `uint128.Div`, so the pure body `uint128.divCore` is used here
(the panic path is modelled by `Uint256.QuoRem128E`). -/
def QuoRem128 (u : Uint256) (v : Uint128) : Uint256 × Uint128 :=
  if u.Hi.Cmp v < 0 then
    let p := (uint128.divCore u.Hi u.Lo v).1
    (⟨p.1, Uint128.Zero⟩, p.2)
  else
    let p := (uint128.divCore Uint128.Zero u.Hi v).1
    let q := (uint128.divCore p.2 u.Lo v).1
    (⟨q.1, p.1⟩, q.2)

/-- Go method `Uint256.QuoRem`. -/
def QuoRem (u v : Uint256) : Uint256 × Uint256 :=
  if v.Hi.IsZero then
    let p := u.QuoRem128 v.Lo
    (p.1, From128 p.2)
  else
    let n := v.Hi.LeadingZeros
    let u1 := u.Rsh 1
    let v1 := v.Lsh n
    let tq0 := (uint128.divCore u1.Hi u1.Lo v1.Hi).1.1
    let tq1 := tq0.Rsh (127 - n)
    let tq := if tq1.IsZero = false then tq1.Sub64 1 else tq1
    let q := From128 tq
    let r := u.Sub (v.Mul128 tq)
    if 0 ≤ r.Cmp v then (q.Add128 Uint128.One, r.Sub v) else (q, r)

/-- Go method `Uint256.QuoRem128` with the panics of `uint128.Div`
made explicit. -/
def QuoRem128E (u : Uint256) (v : Uint128) : Except DivError (Uint256 × Uint128) := do
  if u.Hi.Cmp v < 0 then
    let p ← uint128.Div u.Hi u.Lo v
    return (⟨p.1, Uint128.Zero⟩, p.2)
  else
    let p ← uint128.Div Uint128.Zero u.Hi v
    let q ← uint128.Div p.2 u.Lo v
    return (⟨q.1, p.1⟩, q.2)

/-- Go method `Uint256.QuoRem` with the panics of `uint128.Div`
made explicit. -/
def QuoRemE (u v : Uint256) : Except DivError (Uint256 × Uint256) := do
  if v.Hi.IsZero then
    let p ← u.QuoRem128E v.Lo
    return (p.1, From128 p.2)
  else
    let n := v.Hi.LeadingZeros
    let u1 := u.Rsh 1
    let v1 := v.Lsh n
    let t ← uint128.Div u1.Hi u1.Lo v1.Hi
    let tq1 := t.1.Rsh (127 - n)
    let tq := if tq1.IsZero = false then tq1.Sub64 1 else tq1
    let q := From128 tq
    let r := u.Sub (v.Mul128 tq)
    if 0 ≤ r.Cmp v then return (q.Add128 Uint128.One, r.Sub v)
    else return (q, r)

end Uint256

namespace uint256

/-- Correction loop of `uint256.Div` (source lines 410-416 and 422-428). -/
def divLoop (yHi yLo uDig : Uint128) :
    Nat → Uint256 → Uint256 → Uint256 × Uint256 × Nat
  | 0, q1, r1 => (q1, r1, 0)
  | fuel+1, q1, r1 =>
    if q1.Hi.IsZero = false ∨ 0 < (q1.Mul128 yLo).Cmp ⟨uDig, r1.Lo⟩ then
      let q2 := q1.Sub128 Uint128.One
      let r2 := r1.Add128 yHi
      if r2.Hi.IsZero = false then (q2, r2, 1)
      else
        let t := divLoop yHi yLo uDig fuel q2 r2
        (t.1, t.2.1, t.2.2 + 1)
    else (q1, r1, 0)

/-- Body of the Go free function `uint256.Div` after its two explicit
checks (source lines 402-433), with the iteration counts of the two
correction loops also returned. -/
def divCore (hi lo y0 : Uint256) : (Uint256 × Uint256) × Nat × Nat :=
  let s := y0.LeadingZeros
  let y := y0.Lsh s
  let un32 := (hi.Lsh s).Or (lo.Rsh (256 - s))
  let un10 := lo.Lsh s
  let p1 := un32.QuoRem128 y.Hi
  let t1 := divLoop y.Hi y.Lo un10.Hi 4 p1.1 (Uint256.From128 p1.2)
  let q1 := t1.1
  let un21 := (Uint256.mk un10.Hi un32.Lo).Sub (q1.Mul y)
  let p0 := un21.QuoRem128 y.Hi
  let t0 := divLoop y.Hi y.Lo un10.Lo 4 p0.1 (Uint256.From128 p0.2)
  let q0 := t0.1
  ((⟨q0.Lo, q1.Lo⟩, ((Uint256.mk un10.Lo un21.Lo).Sub (q0.Mul y)).Rsh s),
   t1.2.2, t0.2.2)

/-- Go free function `uint256.Div`: 512-by-256-bit division of the
dividend `(hi, lo)` by `y`.  The two Go panics are modelled as errors. -/
def Div (hi lo y : Uint256) : Except DivError (Uint256 × Uint256) :=
  if y.IsZero then .error .divideByZero
  else if y.Cmp hi ≤ 0 then .error .overflow
  else .ok (divCore hi lo y).1

end uint256

/-! ### Conversion from `*big.Int` (`FromBig`, `FromBigX`).
A Go `*big.Int` argument is modelled as `Option Int`
(`none` is the nil pointer). -/

namespace uint128

/-- Go free function `uint128.FromBigX`: saturating conversion from an
unbounded integer with an exactness flag. -/
def FromBigX : Option Int → Uint128 × Bool
  | none => (Uint128.Zero, true)
  | some i =>
    if i < 0 then (Uint128.Zero, false)
    else if 128 < Nat.size i.toNat then (Uint128.Max, false)
    else (⟨i.toNat % 2^64, i.toNat / 2^64 % 2^64⟩, true)

/-- Go free function `uint128.FromBig`. -/
def FromBig (i : Option Int) : Uint128 := (FromBigX i).1

end uint128

namespace uint256

/-- Go free function `uint256.FromBigX`: saturating conversion from an
unbounded integer with an exactness flag. -/
def FromBigX : Option Int → Uint256 × Bool
  | none => (Uint256.Zero, true)
  | some i =>
    if i < 0 then (Uint256.Zero, false)
    else if 256 < Nat.size i.toNat then (Uint256.Max, false)
    else (⟨⟨i.toNat % 2^64, i.toNat / 2^64 % 2^64⟩,
           ⟨i.toNat / 2^128 % 2^64, i.toNat / 2^192 % 2^64⟩⟩, true)

/-- Go free function `uint256.FromBig`. -/
def FromBig (i : Option Int) : Uint256 := (FromBigX i).1

end uint256

/-! ### Basic lemmas -/

/-- Bitwise or of numbers with disjoint bit ranges is addition. -/
theorem lor_disjoint : ∀ (n a b : Nat), a % 2^n = 0 → b < 2^n → a ||| b = a + b := by
  intro n
  induction n with
  | zero =>
    intro a b _ hb
    interval_cases b
    simp
  | succ n ih =>
    intro a b ha hb
    obtain ⟨k, hk⟩ := Nat.dvd_of_mod_eq_zero ha
    have hbit : a = Nat.bit false (2^n * k) := by
      simp only [Nat.bit_val, hk, Nat.pow_succ, Bool.toNat, Bool.cond_false]
      ring
    have hbbit : b = Nat.bit b.bodd b.div2 := (Nat.bit_decomp b).symm
    have hd2 : b.div2 < 2^n := by
      rw [Nat.div2_val]
      rw [Nat.div_lt_iff_lt_mul (by norm_num)]
      calc b < 2^(n+1) := hb
        _ = 2^n * 2 := by rw [Nat.pow_succ]
    have hih := ih (2^n * k) b.div2 (by simp [Nat.mul_mod_right]) hd2
    rw [hbit, hbbit, Nat.lor_bit, hih]
    simp only [Nat.bit_val, Bool.false_or, Bool.toNat, Bool.cond_false]
    ring

/-- Uniqueness of Nat quotient and remainder. -/
theorem divmod_unique {v q r a : Nat} (hv : 0 < v) (h : a = v * q + r)
    (hr : r < v) : a / v = q ∧ a % v = r :=
  (Nat.div_mod_unique hv).2 ⟨by omega, hr⟩

namespace Uint128

theorem toNat_lt {u : Uint128} (h : u.Wf) : u.toNat < 2^128 := by
  obtain ⟨h1, h2⟩ := h
  simp only [toNat]
  omega

theorem lo_eq_toNat {u : Uint128} (h : u.Wf) :
    u.Lo = u.toNat % 2^64 ∧ u.Hi = u.toNat / 2^64 := by
  obtain ⟨h1, h2⟩ := h
  simp only [toNat]
  omega

theorem toNat_From64 (v : Nat) : (From64 v).toNat = v := by
  simp [From64, toNat]

theorem wf_From64 {v : Nat} (h : v < 2^64) : (From64 v).Wf :=
  ⟨h, by norm_num [From64]⟩

theorem toNat_eq_zero_iff {u : Uint128} : u.toNat = 0 ↔ u.Lo = 0 ∧ u.Hi = 0 := by
  simp only [toNat]
  omega

theorem isZero_iff {u : Uint128} : u.IsZero = true ↔ u.toNat = 0 := by
  simp only [IsZero, Bool.and_eq_true, beq_iff_eq, toNat_eq_zero_iff]

/-- Full specification of the carry-chain free function `uint128.Add`. -/
theorem addCarry_spec {x y : Uint128} {c : Nat} (hx : x.Wf) (hy : y.Wf)
    (hc : c ≤ 1) :
    (uint128.Add x y c).1.Wf ∧ (uint128.Add x y c).2 ≤ 1 ∧
    (uint128.Add x y c).1.toNat + 2^128 * (uint128.Add x y c).2
      = x.toNat + y.toNat + c := by
  obtain ⟨hx1, hx2⟩ := hx
  obtain ⟨hy1, hy2⟩ := hy
  simp only [uint128.Add, add64, toNat, Wf]
  refine ⟨⟨?_, ?_⟩, ?_, ?_⟩ <;> omega

/-- Full specification of the borrow-chain free function `uint128.Sub`. -/
theorem subBorrow_spec {x y : Uint128} {b : Nat} (hx : x.Wf) (hy : y.Wf)
    (hb : b ≤ 1) :
    (uint128.Sub x y b).1.Wf ∧
    (uint128.Sub x y b).2 = (if x.toNat < y.toNat + b then 1 else 0) ∧
    (uint128.Sub x y b).1.toNat + y.toNat + b
      = x.toNat + 2^128 * (uint128.Sub x y b).2 := by
  obtain ⟨hx1, hx2⟩ := hx
  obtain ⟨hy1, hy2⟩ := hy
  simp only [uint128.Sub, sub64, toNat, Wf]
  refine ⟨⟨?_, ?_⟩, ?_, ?_⟩ <;> (try split_ifs) <;> omega

theorem Add_spec {u v : Uint128} (hu : u.Wf) (hv : v.Wf) :
    (u.Add v).Wf ∧ (u.Add v).toNat = (u.toNat + v.toNat) % 2^128 := by
  have h := addCarry_spec hu hv (c := 0) (by norm_num)
  have hlt := toNat_lt h.1
  simp only [Add]
  refine ⟨h.1, ?_⟩
  omega

theorem Sub_spec {u v : Uint128} (hu : u.Wf) (hv : v.Wf) :
    (u.Sub v).Wf ∧ (u.Sub v).toNat = (u.toNat + 2^128 - v.toNat) % 2^128 := by
  have h := subBorrow_spec hu hv (b := 0) (by norm_num)
  have hlt := toNat_lt h.1
  have hu' := toNat_lt hu
  have hv' := toNat_lt hv
  simp only [Sub]
  refine ⟨h.1, ?_⟩
  obtain ⟨-, h2, h3⟩ := h
  split_ifs at h2 <;> omega

/-- Exact subtraction: when no borrow occurs `Sub` computes the difference. -/
theorem Sub_exact {u v : Uint128} (hu : u.Wf) (hv : v.Wf)
    (h : v.toNat ≤ u.toNat) : (u.Sub v).toNat = u.toNat - v.toNat := by
  have hs := Sub_spec hu hv
  have hu' := toNat_lt hu
  omega

theorem Add64_spec {u : Uint128} {v : Nat} (hu : u.Wf) (hv : v < 2^64) :
    (u.Add64 v).Wf ∧ (u.Add64 v).toNat = (u.toNat + v) % 2^128 := by
  obtain ⟨hu1, hu2⟩ := hu
  simp only [Add64, add64, toNat, Wf]
  refine ⟨⟨?_, ?_⟩, ?_⟩ <;> omega

theorem Sub64_spec {u : Uint128} {v : Nat} (hu : u.Wf) (hv : v < 2^64) :
    (u.Sub64 v).Wf ∧ (u.Sub64 v).toNat = (u.toNat + 2^128 - v) % 2^128 := by
  obtain ⟨hu1, hu2⟩ := hu
  simp only [Sub64, sub64, toNat, Wf]
  refine ⟨⟨?_, ?_⟩, ?_⟩ <;> (try split_ifs) <;> omega

theorem Mul_spec {u v : Uint128} (hu : u.Wf) (hv : v.Wf) :
    (u.Mul v).Wf ∧ (u.Mul v).toNat = u.toNat * v.toNat % 2^128 := by
  obtain ⟨hu1, hu2⟩ := hu
  obtain ⟨hv1, hv2⟩ := hv
  simp only [Mul, mul64, toNat, Wf]
  have hprod : (u.Hi * 2^64 + u.Lo) * (v.Hi * 2^64 + v.Lo)
      = 2^128 * (u.Hi * v.Hi) + 2^64 * (u.Hi * v.Lo) + 2^64 * (u.Lo * v.Hi)
        + u.Lo * v.Lo := by ring
  rw [hprod]
  refine ⟨⟨?_, ?_⟩, ?_⟩ <;> omega

theorem Mul64_spec {u : Uint128} {v : Nat} (hu : u.Wf) (hv : v < 2^64) :
    (u.Mul64 v).Wf ∧ (u.Mul64 v).toNat = u.toNat * v % 2^128 := by
  obtain ⟨hu1, hu2⟩ := hu
  simp only [Mul64, mul64, toNat, Wf]
  have hprod : (u.Hi * 2^64 + u.Lo) * v = 2^64 * (u.Hi * v) + u.Lo * v := by
    ring
  rw [hprod]
  refine ⟨⟨?_, ?_⟩, ?_⟩ <;> omega

/-- Exact `Mul64`: no wrap when the product fits in 128 bits. -/
theorem Mul64_exact {u : Uint128} {v : Nat} (hu : u.Wf) (hv : v < 2^64)
    (h : u.toNat * v < 2^128) : (u.Mul64 v).toNat = u.toNat * v := by
  rw [(Mul64_spec hu hv).2, Nat.mod_eq_of_lt h]

/-- Exact `Mul`: no wrap when the product fits in 128 bits. -/
theorem Mul_exact {u v : Uint128} (hu : u.Wf) (hv : v.Wf)
    (h : u.toNat * v.toNat < 2^128) : (u.Mul v).toNat = u.toNat * v.toNat := by
  rw [(Mul_spec hu hv).2, Nat.mod_eq_of_lt h]

/-- The free function `uint128.Mul` computes the exact 256-bit product. -/
theorem mulFull_spec {x y : Uint128} (hx : x.Wf) (hy : y.Wf) :
    (uint128.Mul x y).1.Wf ∧ (uint128.Mul x y).2.Wf ∧
    (uint128.Mul x y).1.toNat * 2^128 + (uint128.Mul x y).2.toNat
      = x.toNat * y.toNat := by
  obtain ⟨hx1, hx2⟩ := hx
  obtain ⟨hy1, hy2⟩ := hy
  simp only [uint128.Mul, mul64, add64, toNat, Wf]
  have hprod : (x.Hi * 2^64 + x.Lo) * (y.Hi * 2^64 + y.Lo)
      = 2^128 * (x.Hi * y.Hi) + 2^64 * (x.Lo * y.Hi) + 2^64 * (x.Hi * y.Lo)
        + x.Lo * y.Lo := by ring
  rw [hprod]
  have ha : x.Lo * y.Lo ≤ (2^64-1) * (2^64-1) :=
    Nat.mul_le_mul (by omega) (by omega)
  have hb : x.Lo * y.Hi ≤ (2^64-1) * (2^64-1) :=
    Nat.mul_le_mul (by omega) (by omega)
  have hc : x.Hi * y.Lo ≤ (2^64-1) * (2^64-1) :=
    Nat.mul_le_mul (by omega) (by omega)
  have hd : x.Hi * y.Hi ≤ (2^64-1) * (2^64-1) :=
    Nat.mul_le_mul (by omega) (by omega)
  refine ⟨⟨?_, ?_⟩, ⟨?_, ?_⟩, ?_⟩ <;> omega

end Uint128

/-! ### Nat-level shift algebra over a generic limb width -/

theorem powSplit {n M : Nat} (h : n ≤ M) : 2^(M-n) * 2^n = 2^M := by
  rw [← pow_add]
  congr 1
  omega

theorem mulPow_mod {n M : Nat} (a : Nat) (h : n ≤ M) :
    a * 2^n % 2^M = a % 2^(M-n) * 2^n := by
  rw [← powSplit h, Nat.mul_mod_mul_right]

theorem mulPow_div {n M : Nat} (a : Nat) (h : n ≤ M) :
    a * 2^n / 2^M = a / 2^(M-n) := by
  rw [← powSplit h, Nat.mul_div_mul_right _ _ (Nat.two_pow_pos n)]

theorem divPow_div (a n m : Nat) : a / 2^n / 2^m = a / 2^(n+m) := by
  rw [Nat.div_div_eq_div_mul, pow_add]

theorem shiftl_mod_zero {a n M : Nat} (h : n ≤ M) : (a * 2^n % 2^M) % 2^n = 0 := by
  rw [mulPow_mod a h]
  exact Nat.mul_mod_left _ _

theorem shiftr_lt {a n M : Nat} (ha : a < 2^M) (h : n ≤ M) : a / 2^(M-n) < 2^n := by
  rw [Nat.div_lt_iff_lt_mul (Nat.two_pow_pos _)]
  calc a < 2^M := ha
    _ = 2^n * 2^(M-n) := by rw [← pow_add]; congr 1; omega

theorem splitShift {a n M : Nat} (h : n ≤ M) :
    a * 2^n = a / 2^(M-n) * 2^M + a * 2^n % 2^M := by
  conv_lhs => rw [← Nat.div_add_mod (a * 2^n) (2^M)]
  rw [mulPow_div a h]
  ring

/-- Value and bound of the low-branch shifted-left limb pair: the two
result limbs of a cross-limb left shift by `n ≤ M`. -/
theorem lshPairLow {A B n M : Nat} (hB : B < 2^M) (hn : n ≤ M) :
    (A * 2^M + B) * 2^n % (2^M * 2^M)
      = (A * 2^n % 2^M + B / 2^(M-n)) * 2^M + B * 2^n % 2^M
    ∧ A * 2^n % 2^M + B / 2^(M-n) < 2^M := by
  have hd := shiftr_lt hB hn
  have hmod : A * 2^n % 2^M = A % 2^(M-n) * 2^n := mulPow_mod A hn
  have hlt : A * 2^n % 2^M + B / 2^(M-n) < 2^M := by
    rw [hmod]
    have h1 : A % 2^(M-n) * 2^n + 2^n ≤ 2^M := by
      have := Nat.mod_lt A (y := 2^(M-n)) (Nat.two_pow_pos _)
      calc A % 2^(M-n) * 2^n + 2^n = (A % 2^(M-n) + 1) * 2^n := by ring
        _ ≤ 2^(M-n) * 2^n := Nat.mul_le_mul_right _ (by omega)
        _ = 2^M := powSplit hn
    omega
  refine ⟨?_, hlt⟩
  have hsplitA : (A * 2^M + B) * 2^n
      = (2^M * 2^M) * (A / 2^(M-n)) + ((A * 2^n % 2^M + B / 2^(M-n)) * 2^M + B * 2^n % 2^M) := by
    have h1 : A * 2^n = A / 2^(M-n) * 2^M + A * 2^n % 2^M := splitShift hn
    have h2 : B * 2^n = B / 2^(M-n) * 2^M + B * 2^n % 2^M := splitShift hn
    calc (A * 2^M + B) * 2^n = (A * 2^n) * 2^M + B * 2^n := by ring
      _ = (A / 2^(M-n) * 2^M + A * 2^n % 2^M) * 2^M
          + (B / 2^(M-n) * 2^M + B * 2^n % 2^M) := by rw [← h1, ← h2]
      _ = (2^M * 2^M) * (A / 2^(M-n))
          + ((A * 2^n % 2^M + B / 2^(M-n)) * 2^M + B * 2^n % 2^M) := by ring
  rw [hsplitA, Nat.mul_add_mod]
  apply Nat.mod_eq_of_lt
  have hb2 : B * 2^n % 2^M < 2^M := Nat.mod_lt _ (Nat.two_pow_pos _)
  calc (A * 2^n % 2^M + B / 2^(M-n)) * 2^M + B * 2^n % 2^M
      < (A * 2^n % 2^M + B / 2^(M-n)) * 2^M + 2^M := by omega
    _ = (A * 2^n % 2^M + B / 2^(M-n) + 1) * 2^M := by ring
    _ ≤ 2^M * 2^M := Nat.mul_le_mul_right _ (by omega)

/-- Value of the high-branch shifted-left limb pair (`M < n`). -/
theorem lshPairHigh {A B n M : Nat} (hn : M < n) :
    (A * 2^M + B) * 2^n % (2^M * 2^M)
      = (B * 2^(n-M) % 2^M) * 2^M := by
  have hsplit : (A * 2^M + B) * 2^n
      = (2^M * 2^M) * (A * 2^(n-M)) + (B * 2^(n-M)) * 2^M := by
    have h : 2^n = 2^(n-M) * 2^M := by rw [← pow_add]; congr 1; omega
    rw [h]
    ring
  rw [hsplit, Nat.mul_add_mod, Nat.mul_mod_mul_right]

/-- Value and bound of the low-branch shifted-right limb pair (`n ≤ M`). -/
theorem rshPairLow {A B n M : Nat} (hA : A < 2^M) (hB : B < 2^M) (hn : n ≤ M) :
    (A * 2^M + B) / 2^n
      = (A / 2^n) * 2^M + (B / 2^n + A * 2^(M-n) % 2^M)
    ∧ B / 2^n + A * 2^(M-n) % 2^M < 2^M := by
  have hmn : M - n ≤ M := by omega
  have hmn2 : M - (M - n) = n := by omega
  have hmod : A * 2^(M-n) % 2^M = A % 2^n * 2^(M-n) := by
    rw [mulPow_mod A hmn, hmn2]
  have hBd : B / 2^n < 2^(M-n) := by
    rw [Nat.div_lt_iff_lt_mul (Nat.two_pow_pos _)]
    calc B < 2^M := hB
      _ = 2^(M-n) * 2^n := (powSplit hn).symm
  have hlt : B / 2^n + A * 2^(M-n) % 2^M < 2^M := by
    rw [hmod]
    have h1 : A % 2^n * 2^(M-n) + 2^(M-n) ≤ 2^M := by
      have := Nat.mod_lt A (y := 2^n) (Nat.two_pow_pos _)
      calc A % 2^n * 2^(M-n) + 2^(M-n) = (A % 2^n + 1) * 2^(M-n) := by ring
        _ ≤ 2^n * 2^(M-n) := Nat.mul_le_mul_right _ (by omega)
        _ = 2^M := by rw [mul_comm]; exact powSplit hn
    omega
  refine ⟨?_, hlt⟩
  have key : A * 2^M + B
      = 2^n * ((A / 2^n) * 2^M + (B / 2^n + A % 2^n * 2^(M-n))) + B % 2^n := by
    have h2 : 2^(M-n) * 2^n = 2^M := powSplit hn
    calc A * 2^M + B
        = (2^n * (A / 2^n) + A % 2^n) * 2^M + (2^n * (B / 2^n) + B % 2^n) := by
          rw [Nat.div_add_mod, Nat.div_add_mod]
      _ = (2^n * (A / 2^n) + A % 2^n) * (2^(M-n) * 2^n)
          + (2^n * (B / 2^n) + B % 2^n) := by rw [h2]
      _ = 2^n * ((A / 2^n) * (2^(M-n) * 2^n) + (B / 2^n + A % 2^n * 2^(M-n)))
          + B % 2^n := by ring
      _ = 2^n * ((A / 2^n) * 2^M + (B / 2^n + A % 2^n * 2^(M-n))) + B % 2^n := by
          rw [h2]
  rw [key, Nat.mul_add_div (Nat.two_pow_pos _),
    Nat.div_eq_of_lt (Nat.mod_lt _ (Nat.two_pow_pos _)), hmod, Nat.add_zero]

/-- Value of the high-branch shifted-right limb pair (`M < n`). -/
theorem rshPairHigh {A B n M : Nat} (hB : B < 2^M) (hn : M < n) :
    (A * 2^M + B) / 2^n = A / 2^(n-M) := by
  have h : 2^n = 2^M * 2^(n-M) := by rw [← pow_add]; congr 1; omega
  rw [h, ← Nat.div_div_eq_div_mul]
  congr 1
  rw [mul_comm, Nat.mul_add_div (Nat.two_pow_pos _), Nat.div_eq_of_lt hB,
    Nat.add_zero]

namespace Uint128

theorem Lsh_spec {u : Uint128} (n : Nat) (hu : u.Wf) :
    (u.Lsh n).Wf ∧ (u.Lsh n).toNat = u.toNat * 2^n % 2^128 := by
  obtain ⟨hu1, hu2⟩ := hu
  have h128 : (2:ℕ)^128 = 2^64 * 2^64 := by norm_num
  simp only [Lsh, toNat, Wf]
  split_ifs with h <;> dsimp only
  · rw [h128, lshPairHigh (A := u.Hi) (B := u.Lo) h]
    exact ⟨⟨by norm_num, Nat.mod_lt _ (by norm_num)⟩, by omega⟩
  · push_neg at h
    rw [lor_disjoint n _ _ (shiftl_mod_zero h) (shiftr_lt hu1 h)]
    have hp := lshPairLow (A := u.Hi) (B := u.Lo) hu1 h
    rw [h128, hp.1]
    exact ⟨⟨Nat.mod_lt _ (by norm_num), hp.2⟩, by omega⟩

theorem Rsh_spec {u : Uint128} (n : Nat) (hu : u.Wf) :
    (u.Rsh n).Wf ∧ (u.Rsh n).toNat = u.toNat / 2^n := by
  obtain ⟨hu1, hu2⟩ := hu
  simp only [Rsh, toNat, Wf]
  split_ifs with h <;> dsimp only
  · rw [rshPairHigh (A := u.Hi) (B := u.Lo) hu1 h]
    have : u.Hi / 2^(n-64) < 2^64 := lt_of_le_of_lt (Nat.div_le_self _ _) hu2
    exact ⟨⟨this, by norm_num⟩, by omega⟩
  · push_neg at h
    have hd : u.Lo / 2^n < 2^(64-n) := by
      have h2 := shiftr_lt (M := 64) hu1 (show 64-n ≤ 64 by omega)
      rwa [show 64-(64-n) = n by omega] at h2
    rw [Nat.lor_comm,
      lor_disjoint (64-n) _ _ (shiftl_mod_zero (by omega)) hd]
    have hp := rshPairLow (A := u.Hi) (B := u.Lo) hu2 hu1 h
    rw [hp.1]
    have hq : u.Hi / 2^n < 2^64 := lt_of_le_of_lt (Nat.div_le_self _ _) hu2
    exact ⟨⟨by omega, hq⟩, by omega⟩

end Uint128

/-- High cross-limb contribution of a left shift: the part of `A·2^(2M-n)`
that survives `% 2^(2M)` lies entirely in the upper limb. -/
theorem crossHigh {d c n : Nat} (hn : n ≤ 64) :
    ((d * 2^64 + c) * 2^(128-n)) % 2^128 = (c * 2^(64-n) % 2^64) * 2^64 := by
  have h1 : (d * 2^64 + c) * 2^(128-n) % 2^128
      = (d * 2^64 + c) % 2^n * 2^(128-n) := by
    have := mulPow_mod (M := 128) (d * 2^64 + c) (show 128-n ≤ 128 by omega)
    rwa [show 128-(128-n) = n from by omega] at this
  have h2 : (d * 2^64 + c) % 2^n = c % 2^n := by
    have hd : d * 2^64 = d * 2^(64-n) * 2^n := by
      rw [mul_assoc, powSplit hn]
    rw [hd, Nat.add_comm, Nat.add_mul_mod_self_right]
  have h3 : c * 2^(64-n) % 2^64 = c % 2^n * 2^(64-n) := by
    have := mulPow_mod (M := 64) c (show 64-n ≤ 64 by omega)
    rwa [show 64-(64-n) = n from by omega] at this
  rw [h1, h2, h3]
  have h4 : (2:ℕ)^(128-n) = 2^(64-n) * 2^64 := by
    rw [← pow_add]
    congr 1
    omega
  rw [h4]
  ring

/-- Cross-limb division: dividing a limb pair by `2^(128-n)` for `n ≤ 64`. -/
theorem crossDiv {b a n : Nat} (ha : a < 2^64) (hn : n ≤ 64) :
    (b * 2^64 + a) / 2^(128-n) = b / 2^(64-n) := by
  rw [show (128 - n) = 64 + (64 - n) from by omega, ← divPow_div]
  congr 1
  omega

namespace Uint256

theorem toNat_lt256 {u : Uint256} (h : u.Wf) : u.toNat < 2^256 := by
  obtain ⟨h1, h2⟩ := h
  have := Uint128.toNat_lt h1
  have := Uint128.toNat_lt h2
  simp only [toNat]
  omega

theorem toNat_From128 (v : Uint128) : (From128 v).toNat = v.toNat := by
  simp [From128, toNat, Uint128.Zero, Uint128.From64, Uint128.toNat]

theorem wf_From128 {v : Uint128} (h : v.Wf) : (From128 v).Wf :=
  ⟨h, by constructor <;> norm_num [From128, Uint128.Zero, Uint128.From64]⟩

theorem toNat_From64_256 (v : Nat) : (From64 v).toNat = v := by
  simp [From64, toNat_From128, Uint128.toNat_From64]

theorem isZero_iff256 {u : Uint256} : u.IsZero = true ↔ u.toNat = 0 := by
  simp only [IsZero, Bool.and_eq_true, Uint128.isZero_iff, toNat]
  omega

end Uint256

namespace Uint256

theorem Lsh_spec256 {u : Uint256} (n : Nat) (hu : u.Wf) :
    (u.Lsh n).Wf ∧ (u.Lsh n).toNat = u.toNat * 2^n % 2^256 := by
  obtain ⟨⟨ha, hb⟩, ⟨hc, hd⟩⟩ := hu
  have hBlt : u.Lo.Hi * 2^64 + u.Lo.Lo < 2^128 := by omega
  simp only [Lsh, toNat, Uint128.toNat, Wf, Uint128.Wf, Uint128.Zero,
    Uint128.From64]
  split_ifs with h1 h2 <;> dsimp only
  · -- 128 < n
    have hp := lshPairHigh (M := 128) (A := u.Hi.Hi * 2^64 + u.Hi.Lo)
      (B := u.Lo.Hi * 2^64 + u.Lo.Lo) (n := n) h1
    have hls := Uint128.Lsh_spec (u := u.Lo) (n - 128) ⟨ha, hb⟩
    obtain ⟨⟨hw1, hw2⟩, hv⟩ := hls
    simp only [Uint128.toNat] at hv
    refine ⟨⟨⟨by norm_num, by norm_num⟩, ⟨hw1, hw2⟩⟩, ?_⟩
    omega
  · -- 64 < n ≤ 128
    rw [show (64:Nat) - (n - 64) = 128 - n from by omega]
    have hsl1 : u.Lo.Lo / 2^(128-n) < 2^(n-64) := by
      have h3 := shiftr_lt (M := 64) ha (show n-64 ≤ 64 by omega)
      rwa [show 64-(n-64) = 128-n from by omega] at h3
    have hsl2 : u.Lo.Hi / 2^(128-n) < 2^(n-64) := by
      have h3 := shiftr_lt (M := 64) hb (show n-64 ≤ 64 by omega)
      rwa [show 64-(n-64) = 128-n from by omega] at h3
    rw [lor_disjoint (n-64) _ _ (shiftl_mod_zero (by omega)) hsl1,
      lor_disjoint (n-64) _ _ (shiftl_mod_zero (by omega)) hsl2]
    have hp := lshPairLow (M := 128) (A := u.Hi.Hi * 2^64 + u.Hi.Lo)
      (B := u.Lo.Hi * 2^64 + u.Lo.Lo) (n := n) hBlt (by omega)
    have hH := lshPairHigh (M := 64) (A := u.Hi.Hi) (B := u.Hi.Lo) (n := n) h2
    have hL := lshPairHigh (M := 64) (A := u.Lo.Hi) (B := u.Lo.Lo) (n := n) h2
    have hdiv := rshPairLow (M := 64) (A := u.Lo.Hi) (B := u.Lo.Lo)
      (n := 128-n) hb ha (by omega)
    rw [show (64:Nat)-(128-n) = n-64 from by omega] at hdiv
    have hw1 := (lshPairLow (M := 64) (A := u.Lo.Hi) (B := u.Lo.Lo)
      (n := n-64) ha (by omega)).2
    have hw2 := (lshPairLow (M := 64) (A := u.Hi.Lo) (B := u.Lo.Hi)
      (n := n-64) hb (by omega)).2
    rw [show (64:Nat)-(n-64) = 128-n from by omega] at hw1 hw2
    refine ⟨⟨⟨by norm_num, by omega⟩, ⟨by omega, by omega⟩⟩, ?_⟩
    omega
  · -- n ≤ 64
    push_neg at h1 h2
    have hsl1 : u.Lo.Lo / 2^(64-n) < 2^n := shiftr_lt ha h2
    have hsl2 : u.Lo.Hi / 2^(64-n) < 2^n := shiftr_lt hb h2
    have hsl3 : u.Hi.Lo / 2^(64-n) < 2^n := shiftr_lt hc h2
    rw [lor_disjoint n _ _ (shiftl_mod_zero h2) hsl1,
      lor_disjoint n _ _ (shiftl_mod_zero h2) hsl2,
      lor_disjoint n _ _ (shiftl_mod_zero h2) hsl3]
    have hp := lshPairLow (M := 128) (A := u.Hi.Hi * 2^64 + u.Hi.Lo)
      (B := u.Lo.Hi * 2^64 + u.Lo.Lo) (n := n) hBlt (by omega)
    have hHi := lshPairLow (M := 64) (A := u.Hi.Hi) (B := u.Hi.Lo)
      (n := n) hc h2
    have hLo := lshPairLow (M := 64) (A := u.Lo.Hi) (B := u.Lo.Lo)
      (n := n) ha h2
    have hMid := (lshPairLow (M := 64) (A := u.Hi.Lo) (B := u.Lo.Hi)
      (n := n) hb h2).2
    have hdiv := crossDiv (b := u.Lo.Hi) (a := u.Lo.Lo) ha h2
    refine ⟨⟨⟨by omega, by omega⟩, ⟨by omega, by omega⟩⟩, ?_⟩
    omega

theorem Rsh_spec256 {u : Uint256} (n : Nat) (hu : u.Wf) :
    (u.Rsh n).Wf ∧ (u.Rsh n).toNat = u.toNat / 2^n := by
  obtain ⟨⟨ha, hb⟩, ⟨hc, hd⟩⟩ := hu
  have hBlt : u.Lo.Hi * 2^64 + u.Lo.Lo < 2^128 := by omega
  have hAlt : u.Hi.Hi * 2^64 + u.Hi.Lo < 2^128 := by omega
  simp only [Rsh, toNat, Uint128.toNat, Wf, Uint128.Wf, Uint128.Zero,
    Uint128.From64]
  split_ifs with h1 h2 <;> dsimp only
  · -- 128 < n
    have hp := rshPairHigh (M := 128) (A := u.Hi.Hi * 2^64 + u.Hi.Lo)
      (B := u.Lo.Hi * 2^64 + u.Lo.Lo) hBlt h1
    have hrs := Uint128.Rsh_spec (u := u.Hi) (n - 128) ⟨hc, hd⟩
    obtain ⟨⟨hw1, hw2⟩, hv⟩ := hrs
    simp only [Uint128.toNat] at hv
    refine ⟨⟨⟨hw1, hw2⟩, ⟨by norm_num, by norm_num⟩⟩, ?_⟩
    omega
  · -- 64 < n ≤ 128
    rw [show (64:Nat) - (n - 64) = 128 - n from by omega]
    have hsr1 : u.Lo.Hi / 2^(n-64) < 2^(128-n) := by
      have h3 := shiftr_lt (M := 64) hb (show 128-n ≤ 64 by omega)
      rwa [show 64-(128-n) = n-64 from by omega] at h3
    have hsr2 : u.Hi.Lo / 2^(n-64) < 2^(128-n) := by
      have h3 := shiftr_lt (M := 64) hc (show 128-n ≤ 64 by omega)
      rwa [show 64-(128-n) = n-64 from by omega] at h3
    rw [Nat.lor_comm (u.Lo.Hi / 2^(n-64)) _,
      Nat.lor_comm (u.Hi.Lo / 2^(n-64)) _,
      lor_disjoint (128-n) _ _ (shiftl_mod_zero (by omega)) hsr1,
      lor_disjoint (128-n) _ _ (shiftl_mod_zero (by omega)) hsr2]
    have hp := rshPairLow (M := 128) (A := u.Hi.Hi * 2^64 + u.Hi.Lo)
      (B := u.Lo.Hi * 2^64 + u.Lo.Lo) (n := n) hAlt hBlt (by omega)
    have hH := rshPairHigh (M := 64) (A := u.Hi.Hi) (B := u.Hi.Lo) hc h2
    have hL := rshPairHigh (M := 64) (A := u.Lo.Hi) (B := u.Lo.Lo) ha h2
    have hcross := lshPairLow (M := 64) (A := u.Hi.Hi) (B := u.Hi.Lo)
      (n := 128-n) hc (by omega)
    rw [show (64:Nat)-(128-n) = n-64 from by omega] at hcross
    have hw1 := (rshPairLow (M := 64) (A := u.Hi.Lo) (B := u.Lo.Hi)
      (n := n-64) hc hb (by omega)).2
    have hw2 := (rshPairLow (M := 64) (A := u.Hi.Hi) (B := u.Hi.Lo)
      (n := n-64) hd hc (by omega)).2
    rw [show (64:Nat)-(n-64) = 128-n from by omega] at hw1 hw2
    have hq : u.Hi.Hi / 2^(n-64) < 2^64 :=
      lt_of_le_of_lt (Nat.div_le_self _ _) hd
    refine ⟨⟨⟨by omega, by omega⟩, ⟨hq, by norm_num⟩⟩, ?_⟩
    omega
  · -- n ≤ 64
    push_neg at h1 h2
    have hb1 : u.Lo.Lo / 2^n < 2^(64-n) := by
      have h3 := shiftr_lt (M := 64) ha (show 64-n ≤ 64 by omega)
      rwa [show 64-(64-n) = n from by omega] at h3
    have hb2 : u.Lo.Hi / 2^n < 2^(64-n) := by
      have h3 := shiftr_lt (M := 64) hb (show 64-n ≤ 64 by omega)
      rwa [show 64-(64-n) = n from by omega] at h3
    have hb3 : u.Hi.Lo / 2^n < 2^(64-n) := by
      have h3 := shiftr_lt (M := 64) hc (show 64-n ≤ 64 by omega)
      rwa [show 64-(64-n) = n from by omega] at h3
    rw [Nat.lor_comm (u.Lo.Lo / 2^n) _, Nat.lor_comm (u.Lo.Hi / 2^n) _,
      Nat.lor_comm (u.Hi.Lo / 2^n) _,
      lor_disjoint (64-n) _ _ (shiftl_mod_zero (by omega)) hb1,
      lor_disjoint (64-n) _ _ (shiftl_mod_zero (by omega)) hb2,
      lor_disjoint (64-n) _ _ (shiftl_mod_zero (by omega)) hb3]
    have hp := rshPairLow (M := 128) (A := u.Hi.Hi * 2^64 + u.Hi.Lo)
      (B := u.Lo.Hi * 2^64 + u.Lo.Lo) (n := n) hAlt hBlt (by omega)
    have hH := rshPairLow (M := 64) (A := u.Hi.Hi) (B := u.Hi.Lo)
      (n := n) hd hc h2
    have hL := rshPairLow (M := 64) (A := u.Lo.Hi) (B := u.Lo.Lo)
      (n := n) hb ha h2
    have hMid := (rshPairLow (M := 64) (A := u.Hi.Lo) (B := u.Lo.Hi)
      (n := n) hc hb h2).2
    have hcross := crossHigh (d := u.Hi.Hi) (c := u.Hi.Lo) h2
    have hq : u.Hi.Hi / 2^n < 2^64 :=
      lt_of_le_of_lt (Nat.div_le_self _ _) hd
    refine ⟨⟨⟨by omega, by omega⟩, ⟨by omega, hq⟩⟩, ?_⟩
    omega

end Uint256

namespace Uint128

theorem Cmp_spec {u v : Uint128} (hu : u.Wf) (hv : v.Wf) :
    u.Cmp v = if v.toNat < u.toNat then 1
      else if u.toNat < v.toNat then -1 else 0 := by
  obtain ⟨hu1, hu2⟩ := hu
  obtain ⟨hv1, hv2⟩ := hv
  simp only [Cmp, toNat]
  split_ifs <;> omega

theorem Cmp_pos_iff {u v : Uint128} (hu : u.Wf) (hv : v.Wf) :
    0 < u.Cmp v ↔ v.toNat < u.toNat := by
  rw [Cmp_spec hu hv]
  split_ifs <;> omega

theorem Cmp_nonneg_iff {u v : Uint128} (hu : u.Wf) (hv : v.Wf) :
    0 ≤ u.Cmp v ↔ v.toNat ≤ u.toNat := by
  rw [Cmp_spec hu hv]
  split_ifs <;> omega

theorem Cmp_le_zero_iff {u v : Uint128} (hu : u.Wf) (hv : v.Wf) :
    u.Cmp v ≤ 0 ↔ u.toNat ≤ v.toNat := by
  rw [Cmp_spec hu hv]
  split_ifs <;> omega

theorem Cmp_lt_zero_iff {u v : Uint128} (hu : u.Wf) (hv : v.Wf) :
    u.Cmp v < 0 ↔ u.toNat < v.toNat := by
  rw [Cmp_spec hu hv]
  split_ifs <;> omega

/-- Leading-zero count determines the dyadic bracket of the value. -/
theorem LeadingZeros_spec {u : Uint128} (hu : u.Wf) (h : u.toNat ≠ 0) :
    ∃ k, 1 ≤ k ∧ k ≤ 128 ∧ u.LeadingZeros = 128 - k ∧
      2^(k-1) ≤ u.toNat ∧ u.toNat < 2^k := by
  obtain ⟨hu1, hu2⟩ := hu
  simp only [LeadingZeros, leadingZeros64, len64, toNat] at *
  split_ifs with hh
  · refine ⟨Nat.size u.Hi + 64, by omega, ?_, by omega, ?_, ?_⟩
    · have := Nat.size_le.2 hu2
      omega
    · have h1 : Nat.size u.Hi - 1 < Nat.size u.Hi := by
        have := Nat.size_eq_zero (n := u.Hi)
        omega
      have h2 := Nat.lt_size.1 h1
      have h3 : 2^(Nat.size u.Hi + 64 - 1) = 2^(Nat.size u.Hi - 1) * 2^64 := by
        rw [← pow_add]
        congr 1
        have := Nat.size_eq_zero (n := u.Hi)
        omega
      rw [h3]
      have := Nat.mul_le_mul_right (2^64) h2
      omega
    · have h2 := Nat.lt_size_self u.Hi
      have h3 : 2^(Nat.size u.Hi + 64) = 2^(Nat.size u.Hi) * 2^64 := by
        rw [← pow_add]
      rw [h3]
      have : (u.Hi + 1) * 2^64 ≤ 2^(Nat.size u.Hi) * 2^64 :=
        Nat.mul_le_mul_right _ (by omega)
      omega
  · have hLo : u.Hi = 0 := by omega
    have hL0 : u.Lo ≠ 0 := by omega
    have hsz : Nat.size u.Lo ≤ 64 := Nat.size_le.2 hu1
    have hsz0 : Nat.size u.Lo ≠ 0 := by
      rw [Ne, Nat.size_eq_zero]
      exact hL0
    refine ⟨Nat.size u.Lo, by omega, by omega, by omega, ?_, ?_⟩
    · have h1 : Nat.size u.Lo - 1 < Nat.size u.Lo := by omega
      have h2 := Nat.lt_size.1 h1
      omega
    · have h2 := Nat.lt_size_self u.Lo
      omega

/-- Disjoint `Or` is addition on values. -/
theorem Or_disjoint {u v : Uint128} {k : Nat} (hu : u.Wf) (hv : v.Wf)
    (hk : k ≤ 128) (h1 : u.toNat % 2^k = 0) (h2 : v.toNat < 2^k) :
    (u.Or v).Wf ∧ (u.Or v).toNat = u.toNat + v.toNat := by
  obtain ⟨hu1, hu2⟩ := hu
  obtain ⟨hv1, hv2⟩ := hv
  simp only [Or, toNat, Wf] at *
  by_cases hk64 : k ≤ 64
  · obtain ⟨e, he⟩ : 2^k ∣ 2^64 := pow_dvd_pow 2 hk64
    have hLo : u.Lo % 2^k = 0 := by
      have h3 : (u.Hi * 2^64 + u.Lo) % 2^k = u.Lo % 2^k := by
        rw [he, show u.Hi * (2^k * e) + u.Lo = u.Lo + (u.Hi * e) * 2^k from by
          ring, Nat.add_mul_mod_self_right]
      omega
    have hvHi : v.Hi = 0 := by
      have : v.toNat < 2^64 := by
        simp only [toNat]
        calc v.Hi * 2^64 + v.Lo < 2^k := h2
          _ ≤ 2^64 := Nat.pow_le_pow_right (by norm_num) hk64
      simp only [toNat] at this
      omega
    have hvLo : v.Lo < 2^k := by omega
    rw [hvHi, lor_disjoint k u.Lo v.Lo hLo hvLo]
    have hzero : u.Hi ||| 0 = u.Hi + 0 :=
      lor_disjoint 0 u.Hi 0 (by simp [Nat.mod_one]) (by norm_num)
    rw [hzero]
    obtain ⟨f, hf⟩ := Nat.dvd_of_mod_eq_zero hLo
    have hsum : u.Lo + v.Lo < 2^64 := by
      rcases Nat.eq_zero_or_pos v.Lo with hz | hpos
      · omega
      · have hflt : f < e := by
          by_contra hcon
          push_neg at hcon
          have : 2^k * e ≤ 2^k * f := Nat.mul_le_mul_left _ hcon
          omega
        have h4 : 2^k * (f + 1) ≤ 2^k * e := Nat.mul_le_mul_left _ (by omega)
        have h4' : 2^k * (f + 1) = 2^k * f + 2^k := by ring
        have h5 : 2^k * f + 2^k ≤ 2^64 := by
          rw [he]
          omega
        omega
    refine ⟨⟨hsum, by omega⟩, by omega⟩
  · push_neg at hk64
    obtain ⟨e, he⟩ : 2^(k-64) ∣ 2^64 := pow_dvd_pow 2 (by omega)
    have hksplit : (2:ℕ)^k = 2^(k-64) * 2^64 := by
      rw [← pow_add]
      congr 1
      omega
    have hLo0 : u.Lo = 0 := by
      have h64 : (u.Hi * 2^64 + u.Lo) % 2^64 = 0 := by
        obtain ⟨g, hg⟩ := Nat.dvd_of_mod_eq_zero h1
        have : (2:ℕ)^64 ∣ 2^k := pow_dvd_pow 2 (by omega)
        obtain ⟨t, ht⟩ := this
        rw [hg, ht, mul_assoc]
        exact Nat.mul_mod_right _ _
      omega
    have hHiMod : u.Hi % 2^(k-64) = 0 := by
      obtain ⟨g, hg⟩ := Nat.dvd_of_mod_eq_zero h1
      rw [hLo0] at hg
      have h6 : u.Hi * 2^64 = (2^(k-64) * g) * 2^64 := by
        have h6' : (2:ℕ)^k * g = 2^(k-64) * g * 2^64 := by
          rw [hksplit]
          ring
        omega
      have h7 : u.Hi = 2^(k-64) * g :=
        Nat.eq_of_mul_eq_mul_right (by norm_num) h6
      rw [h7]
      exact Nat.mul_mod_right _ _
    have hvHi : v.Hi < 2^(k-64) := by
      have h8 : v.Hi * 2^64 < 2^(k-64) * 2^64 := by
        calc v.Hi * 2^64 ≤ v.Hi * 2^64 + v.Lo := by omega
          _ < 2^k := h2
          _ = 2^(k-64) * 2^64 := hksplit
      exact Nat.lt_of_mul_lt_mul_right h8
    have hz : (0:Nat) ||| v.Lo = 0 + v.Lo :=
      lor_disjoint 64 0 v.Lo (by simp) hv1
    rw [hLo0, hz, lor_disjoint (k-64) u.Hi v.Hi hHiMod hvHi]
    obtain ⟨f, hf⟩ := Nat.dvd_of_mod_eq_zero hHiMod
    have hsum : u.Hi + v.Hi < 2^64 := by
      rcases Nat.eq_zero_or_pos v.Hi with hzz | hpos
      · omega
      · have hflt : f < e := by
          by_contra hcon
          push_neg at hcon
          have : 2^(k-64) * e ≤ 2^(k-64) * f := Nat.mul_le_mul_left _ hcon
          omega
        have h4 : 2^(k-64) * (f + 1) ≤ 2^(k-64) * e := Nat.mul_le_mul_left _ (by omega)
        have h4' : 2^(k-64) * (f + 1) = 2^(k-64) * f + 2^(k-64) := by ring
        have h5 : 2^(k-64) * f + 2^(k-64) ≤ 2^64 := by
          rw [he]
          omega
        omega
    refine ⟨⟨by omega, hsum⟩, by omega⟩

end Uint128

/-- Division of a two-limb dividend by a single value, digit by digit. -/
theorem twoDigitDiv {H L v : Nat} (hv : 0 < v) :
    (H * 2^64 + L) / v = (H / v) * 2^64 + (H % v * 2^64 + L) / v ∧
    (H * 2^64 + L) % v = (H % v * 2^64 + L) % v ∧
    (L < 2^64 → (H % v * 2^64 + L) / v < 2^64) := by
  have e1 := Nat.div_add_mod H v
  have e2 := Nat.div_add_mod (H % v * 2^64 + L) v
  have hmlt : H % v < v := Nat.mod_lt _ hv
  have key : H * 2^64 + L
      = v * ((H / v) * 2^64 + (H % v * 2^64 + L) / v)
        + (H % v * 2^64 + L) % v := by
    calc H * 2^64 + L = (v * (H/v) + H%v) * 2^64 + L := by rw [e1]
      _ = v * ((H/v)*2^64) + (H%v * 2^64 + L) := by ring
      _ = v * ((H/v)*2^64) + (v * ((H%v*2^64+L)/v) + (H%v*2^64+L)%v) := by
          rw [e2]
      _ = v * ((H/v)*2^64 + (H%v*2^64+L)/v) + (H%v*2^64+L)%v := by ring
  obtain ⟨hq, hr⟩ := divmod_unique hv key (Nat.mod_lt _ hv)
  refine ⟨hq, hr, fun hL => ?_⟩
  rw [Nat.div_lt_iff_lt_mul hv]
  calc H % v * 2^64 + L < (H % v + 1) * 2^64 := by omega
    _ ≤ v * 2^64 := Nat.mul_le_mul_right _ (by omega)
    _ = 2^64 * v := by ring

namespace Uint128

theorem QuoRem64_spec {u : Uint128} {v : Nat} (hu : u.Wf) (hv0 : 0 < v)
    (hv : v < 2^64) :
    (u.QuoRem64 v).1.Wf ∧ (u.QuoRem64 v).1.toNat = u.toNat / v ∧
    (u.QuoRem64 v).2 = u.toNat % v ∧ (u.QuoRem64 v).2 < v := by
  obtain ⟨hu1, hu2⟩ := hu
  simp only [QuoRem64, div64, toNat]
  split_ifs with h <;> dsimp only
  · have hq : (u.Hi * 2^64 + u.Lo) / v < 2^64 := by
      rw [Nat.div_lt_iff_lt_mul hv0]
      calc u.Hi * 2^64 + u.Lo < (u.Hi + 1) * 2^64 := by omega
        _ ≤ v * 2^64 := Nat.mul_le_mul_right _ (by omega)
        _ = 2^64 * v := by ring
    exact ⟨⟨hq, by norm_num⟩, by omega, rfl, Nat.mod_lt _ hv0⟩
  · simp only [Nat.zero_mul, Nat.zero_add]
    obtain ⟨hq, hr, hb⟩ := twoDigitDiv (H := u.Hi) (L := u.Lo) hv0
    have hd : u.Hi / v < 2^64 := lt_of_le_of_lt (Nat.div_le_self _ _) hu2
    exact ⟨⟨hb hu1, hd⟩, by omega, by omega, Nat.mod_lt _ hv0⟩

end Uint128

/-- Knuth-style trial quotient bound: dividing the dividend by the
truncation of the normalized divisor to its top limb overestimates the
true quotient by at most one (and never underestimates it). -/
theorem trialQuotient {U V w n : Nat} (hn : n + 1 ≤ w)
    (hU : U < 2^w * 2^w)
    (hV1 : 2^(w-1) * 2^(w-n) ≤ V) (hV2 : V < 2^w * 2^(w-n)) :
    U / V ≤ U / (2^(w-n) * (V / 2^(w-n))) ∧
    U / (2^(w-n) * (V / 2^(w-n))) ≤ U / V + 1 := by
  have hGpos : 0 < 2^(w-n) := Nat.two_pow_pos _
  have hdm := Nat.div_add_mod V (2^(w-n))
  have hρlt : V % 2^(w-n) < 2^(w-n) := Nat.mod_lt _ hGpos
  have hdlb : 2^(w-1) ≤ V / 2^(w-n) := by
    rw [Nat.le_div_iff_mul_le hGpos]
    exact hV1
  have hDpos : 0 < 2^(w-n) * (V / 2^(w-n)) := by
    have := Nat.two_pow_pos (w-1)
    exact Nat.mul_pos hGpos (by omega)
  have hV0 : 0 < V := by omega
  have hDlb2 : 2^(w-1) * 2^(w-n) ≤ 2^(w-n) * (V / 2^(w-n)) := by
    have h9 := Nat.mul_le_mul_left (2^(w-n)) hdlb
    have h9' : 2^(w-n) * 2^(w-1) = 2^(w-1) * 2^(w-n) := by ring
    omega
  constructor
  · exact Nat.div_le_div_left (by omega) hDpos
  · have hQV := Nat.div_add_mod U V
    have hUmod : U % V < V := Nat.mod_lt _ hV0
    have hQlt : U / V < 2^(n+1) := by
      rw [Nat.div_lt_iff_lt_mul hV0]
      calc U < 2^w * 2^w := hU
        _ = 2^(n+1) * (2^(w-1) * 2^(w-n)) := by
            rw [← pow_add, ← pow_add, ← pow_add]
            congr 1
            omega
        _ ≤ 2^(n+1) * V := Nat.mul_le_mul_left _ hV1
    have key : (U / V + 2) * (V % 2^(w-n)) ≤ V := by
      rcases Nat.eq_zero_or_pos (V % 2^(w-n)) with hρ0 | hρpos
      · rw [hρ0, Nat.mul_zero]
        omega
      · have e1 : (U / V + 2) * (V % 2^(w-n)) ≤ (2^(n+1) + 1) * (V % 2^(w-n)) :=
          Nat.mul_le_mul_right _ (by omega)
        have e2 : (2^(n+1) + 1) * (V % 2^(w-n))
            = 2^(n+1) * (V % 2^(w-n)) + V % 2^(w-n) := by ring
        have e3 : 2^(n+1) * (V % 2^(w-n) + 1) ≤ 2^(n+1) * 2^(w-n) :=
          Nat.mul_le_mul_left _ (by omega)
        have e4 : 2^(n+1) * (V % 2^(w-n) + 1)
            = 2^(n+1) * (V % 2^(w-n)) + 2^(n+1) := by ring
        have e5 : 2^(n+1) * 2^(w-n) = 2 * 2^w := by
          rw [← pow_add, show n+1+(w-n) = w+1 from by omega, pow_succ]
          ring
        have e6 : 2^(n+1) * (V % 2^(w-n)) ≤ 2^(w-1) * 2^(w-n) := by
          rcases eq_or_lt_of_le hn with heq | hlt
          · have hwn : w - n = 1 := by omega
            have hρ1 : V % 2^(w-n) = 1 := by
              rw [hwn] at hρlt hρpos ⊢
              omega
            have q1 : (2:ℕ)^(n+1) = 2^w := by rw [heq]
            have q2 : 2^(w-1) * 2^(w-n) = 2^w := by
              rw [hwn, ← pow_add, show w-1+1 = w from by omega]
            rw [hρ1, q1, q2, Nat.mul_one]
          · have q3 : 2^(w-1) * 2^(w-n) = 2^(w-1+(w-n)) := by rw [← pow_add]
            have q4 : 2 * 2^w = 2^(w+1) := by rw [pow_succ]; ring
            have q5 : (2:ℕ)^(w+1) ≤ 2^(w-1+(w-n)) :=
              Nat.pow_le_pow_right (by norm_num) (by omega)
            have q6 : (2:ℕ)^1 ≤ 2^(n+1) := Nat.pow_le_pow_right (by norm_num) (by omega)
            norm_num at q6
            omega
        omega
    set Q := U / V with hQdef
    set R := U % V with hRdef
    set d' := V / 2^(w-n) with hddef
    set p' := V % 2^(w-n) with hpdef
    rw [show U / (2^(w-n) * d') ≤ Q + 1 ↔ U / (2^(w-n) * d') < Q + 2 from by
      omega]
    rw [Nat.div_lt_iff_lt_mul hDpos]
    have e7 : (Q + 2) * V = (Q + 2) * (2^(w-n) * d') + (Q + 2) * p' := by
      rw [← hdm]
      ring
    have e8 : (Q + 2) * V = V * Q + 2 * V := by ring
    omega

namespace Uint128

/-- Shared tail of the general-path `QuoRem` proof: given a trial digit
within one of the true quotient, the subtract-and-correct step produces
the exact quotient and remainder. -/
theorem quoRemStep {u v : Uint128} {t : Nat} (hu : u.Wf) (hv : v.Wf)
    (hVpos : 0 < v.toNat) (hV64 : 2^64 ≤ v.toNat)
    (ht1 : t ≤ u.toNat / v.toNat) (ht2 : u.toNat / v.toNat ≤ t + 1) :
    (if 0 ≤ ((u.Sub (v.Mul64 t)).Cmp v)
      then ((From64 t).Add64 1, (u.Sub (v.Mul64 t)).Sub v)
      else (From64 t, u.Sub (v.Mul64 t))).1.Wf ∧
    (if 0 ≤ ((u.Sub (v.Mul64 t)).Cmp v)
      then ((From64 t).Add64 1, (u.Sub (v.Mul64 t)).Sub v)
      else (From64 t, u.Sub (v.Mul64 t))).2.Wf ∧
    (if 0 ≤ ((u.Sub (v.Mul64 t)).Cmp v)
      then ((From64 t).Add64 1, (u.Sub (v.Mul64 t)).Sub v)
      else (From64 t, u.Sub (v.Mul64 t))).1.toNat = u.toNat / v.toNat ∧
    (if 0 ≤ ((u.Sub (v.Mul64 t)).Cmp v)
      then ((From64 t).Add64 1, (u.Sub (v.Mul64 t)).Sub v)
      else (From64 t, u.Sub (v.Mul64 t))).2.toNat = u.toNat % v.toNat := by
  have hU := toNat_lt hu
  have hdm := Nat.div_add_mod u.toNat v.toNat
  have hmod := Nat.mod_lt u.toNat hVpos
  have htqlt : t < 2^64 := by
    have hQlt : u.toNat / v.toNat < 2^64 := by
      rw [Nat.div_lt_iff_lt_mul hVpos]
      calc u.toNat < 2^128 := hU
        _ = 2^64 * 2^64 := by norm_num
        _ ≤ 2^64 * v.toNat := Nat.mul_le_mul_left _ hV64
    omega
  have hq64 := wf_From64 htqlt
  have hVtq : v.toNat * t ≤ u.toNat := by
    have h2 : v.toNat * t ≤ v.toNat * (u.toNat / v.toNat) :=
      Nat.mul_le_mul_left _ ht1
    omega
  have hMul := Mul64_exact hv htqlt (by omega)
  have hMulWf := (Mul64_spec hv htqlt).1
  have hSub := Sub_exact hu hMulWf (by omega)
  rw [hMul] at hSub
  have hSubWf := (Sub_spec hu hMulWf).1
  have hrlt : (u.Sub (v.Mul64 t)).toNat < 2 * v.toNat := by
    have h3 : v.toNat * (u.toNat / v.toNat) ≤ v.toNat * (t + 1) :=
      Nat.mul_le_mul_left _ ht2
    have h4 : v.toNat * (t + 1) = v.toNat * t + v.toNat := by ring
    omega
  split_ifs with hc
  · have hge : v.toNat ≤ (u.Sub (v.Mul64 t)).toNat :=
      (Cmp_nonneg_iff hSubWf hv).1 hc
    have hA := Add64_spec hq64 (show (1:Nat) < 2^64 by norm_num)
    have hAv : ((From64 t).Add64 1).toNat = t + 1 := by
      rw [hA.2, toNat_From64]
      apply Nat.mod_eq_of_lt
      omega
    have hS2 := Sub_exact hSubWf hv hge
    have hS2Wf := (Sub_spec hSubWf hv).1
    have h4 : v.toNat * (t + 1) = v.toNat * t + v.toNat := by ring
    have hkey : u.toNat = v.toNat * (t + 1)
        + (u.toNat - v.toNat * t - v.toNat) := by omega
    obtain ⟨hQeq, hReq⟩ := divmod_unique hVpos hkey (by omega)
    refine ⟨hA.1, hS2Wf, ?_, ?_⟩
    · rw [hAv]
      omega
    · rw [hS2, hSub]
      omega
  · push_neg at hc
    have hlt2 : (u.Sub (v.Mul64 t)).toNat < v.toNat :=
      (Cmp_lt_zero_iff hSubWf hv).1 (by omega)
    have hkey : u.toNat = v.toNat * t + (u.toNat - v.toNat * t) := by omega
    obtain ⟨hQeq, hReq⟩ := divmod_unique hVpos hkey (by omega)
    refine ⟨wf_From64 htqlt, hSubWf, ?_, ?_⟩
    · rw [toNat_From64]
      omega
    · rw [hSub]
      omega

theorem QuoRem_spec {u v : Uint128} (hu : u.Wf) (hv : v.Wf)
    (hv0 : v.toNat ≠ 0) :
    (u.QuoRem v).1.Wf ∧ (u.QuoRem v).2.Wf ∧
    (u.QuoRem v).1.toNat = u.toNat / v.toNat ∧
    (u.QuoRem v).2.toNat = u.toNat % v.toNat := by
  have hU := toNat_lt hu
  have hV := toNat_lt hv
  have hVpos : 0 < v.toNat := Nat.pos_of_ne_zero hv0
  by_cases hvh : v.Hi = 0
  · have hvLo : v.toNat = v.Lo := by simp [toNat, hvh]
    have hv1 := hv.1
    have h := QuoRem64_spec hu (by omega) hv1
    simp only [QuoRem, if_pos hvh]
    rw [hvLo]
    obtain ⟨hqWf, hqv, hrv, hrlt⟩ := h
    refine ⟨hqWf, wf_From64 (by omega), hqv, ?_⟩
    rw [toNat_From64]
    exact hrv
  · simp only [QuoRem, if_neg hvh]
    set n' := leadingZeros64 v.Hi with hn'def
    obtain ⟨k, hk1, hk2, hkLZ, hkl, hku⟩ := LeadingZeros_spec hv hv0
    have hLZeq : v.LeadingZeros = n' := by
      simp [LeadingZeros, hvh, hn'def]
    have hk65 : 65 ≤ k := by
      have h64 : 2^64 ≤ v.toNat := by
        simp only [toNat]
        have h1 : 1 ≤ v.Hi := Nat.pos_of_ne_zero hvh
        have h2 := Nat.mul_le_mul_right (2^64) h1
        omega
      by_contra hcon
      push_neg at hcon
      have : (2:ℕ)^k ≤ 2^64 := Nat.pow_le_pow_right (by norm_num) (by omega)
      omega
    have hn63 : n' = 128 - k := by omega
    have hn'le : n' + 1 ≤ 64 := by omega
    have hV64 : 2^64 ≤ v.toNat := by
      have h3 : (2:ℕ)^64 ≤ 2^(k-1) := Nat.pow_le_pow_right (by norm_num) (by omega)
      omega
    have hV1 : 2^(64-1) * 2^(64-n') ≤ v.toNat := by
      have e : (2:ℕ)^(64-1) * 2^(64-n') = 2^(k-1) := by
        rw [← pow_add]
        congr 1
        omega
      omega
    have hV2 : v.toNat < 2^64 * 2^(64-n') := by
      have e : (2:ℕ)^64 * 2^(64-n') = 2^k := by
        rw [← pow_add]
        congr 1
        omega
      omega
    have hTQ := trialQuotient (U := u.toNat) (V := v.toNat) (w := 64) (n := n')
      hn'le (by omega) hV1 hV2
    have hu1s := Rsh_spec (u := u) 1 hu
    have hv1s := Lsh_spec (u := v) n' hv
    have hv1exact : (v.Lsh n').toNat = v.toNat * 2^n' := by
      rw [hv1s.2]
      apply Nat.mod_eq_of_lt
      have e : (2:ℕ)^k * 2^n' = 2^128 := by
        rw [← pow_add]
        congr 1
        omega
      calc v.toNat * 2^n' < 2^k * 2^n' :=
          (Nat.mul_lt_mul_right (Nat.two_pow_pos _)).2 hku
        _ = 2^128 := e
    have htq0 : (div64 (u.Rsh 1).Hi (u.Rsh 1).Lo (v.Lsh n').Hi).1
        = (u.toNat / 2^1) / (v.toNat * 2^n' / 2^64) := by
      simp only [div64]
      have hl := lo_eq_toNat hu1s.1
      have hlv := lo_eq_toNat hv1s.1
      rw [hl.1, hl.2, hlv.2, hu1s.2, hv1exact]
      have hnum : u.toNat / 2^1 / 2^64 * 2^64 + u.toNat / 2^1 % 2^64
          = u.toNat / 2^1 := by omega
      rw [hnum]
    have htq1 : (div64 (u.Rsh 1).Hi (u.Rsh 1).Lo (v.Lsh n').Hi).1 / 2^(63-n')
        = u.toNat / (2^(64-n') * (v.toNat / 2^(64-n'))) := by
      rw [htq0, mulPow_div _ (show n' ≤ 64 by omega), Nat.div_div_eq_div_mul,
        Nat.div_div_eq_div_mul]
      congr 1
      rw [show (2:ℕ)^(64-n') = 2^1 * 2^(63-n') from by
        rw [← pow_add]; congr 1; omega]
      ring
    by_cases hz : (div64 (u.Rsh 1).Hi (u.Rsh 1).Lo (v.Lsh n').Hi).1 / 2^(63-n') ≠ 0
    · rw [if_pos hz]
      rw [htq1] at hz ⊢
      obtain ⟨hT1, hT2⟩ := hTQ
      have hb1 : u.toNat / (2^(64-n') * (v.toNat / 2^(64-n'))) - 1
          ≤ u.toNat / v.toNat := by
        rw [Nat.sub_le_iff_le_add]
        exact hT2
      have hb2 : u.toNat / v.toNat
          ≤ (u.toNat / (2^(64-n') * (v.toNat / 2^(64-n'))) - 1) + 1 := by
        rw [Nat.sub_add_cancel (Nat.one_le_iff_ne_zero.2 hz)]
        exact hT1
      revert hb1 hb2
      generalize u.toNat / (2^(64-n') * (v.toNat / 2^(64-n'))) - 1 = t'
      intro hb1 hb2
      exact quoRemStep hu hv hVpos hV64 hb1 hb2
    · rw [if_neg hz]
      push_neg at hz
      rw [htq1] at hz ⊢
      obtain ⟨hT1, hT2⟩ := hTQ
      have hb1 : u.toNat / (2^(64-n') * (v.toNat / 2^(64-n')))
          ≤ u.toNat / v.toNat := by
        rw [hz]
        exact Nat.zero_le _
      have hb2 : u.toNat / v.toNat
          ≤ u.toNat / (2^(64-n') * (v.toNat / 2^(64-n'))) + 1 :=
        Nat.le_succ_of_le hT1
      revert hb1 hb2
      generalize u.toNat / (2^(64-n') * (v.toNat / 2^(64-n'))) = t'
      intro hb1 hb2
      exact quoRemStep hu hv hVpos hV64 hb1 hb2

end Uint128

/-- Abstract value-level model of the quotient-digit correction loop in
the `Div` free functions (both widths instantiate `b` with their half
width).  Returns the corrected digit, the running remainder estimate and
the number of executed iterations. -/
def knuthLoop (b v1 v0 u0 : Nat) : Nat → Nat → Nat → Nat × Nat × Nat
  | 0, q, r => (q, r, 0)
  | fuel+1, q, r =>
    if b ≤ q ∨ r * b + u0 < q * v0 then
      if b ≤ r + v1 then (q - 1, r + v1, 1)
      else
        let t := knuthLoop b v1 v0 u0 fuel (q - 1) (r + v1)
        (t.1, t.2.1, t.2.2 + 1)
    else (q, r, 0)

/-- The correction loop, started at or above the true digit with enough
fuel, stops exactly at the true quotient digit, and its iteration count
is the distance travelled. -/
theorem knuthLoop_spec (b v1 v0 u0 a2 : Nat) (hv1 : 0 < v1) (hv0 : v0 < b)
    (hu0 : u0 < b) (ha2 : a2 < v1 * b + v0) :
    ∀ fuel q r, q * v1 + r = a2 →
      (a2 * b + u0) / (v1 * b + v0) ≤ q →
      q - (a2 * b + u0) / (v1 * b + v0) ≤ fuel →
      knuthLoop b v1 v0 u0 fuel q r
        = ((a2 * b + u0) / (v1 * b + v0),
           r + (q - (a2 * b + u0) / (v1 * b + v0)) * v1,
           q - (a2 * b + u0) / (v1 * b + v0)) := by
  have hb : 0 < b := by omega
  have hv'pos : 0 < v1 * b + v0 := by positivity
  have hdm3 := Nat.div_add_mod (a2 * b + u0) (v1 * b + v0)
  have hmod3 : (a2 * b + u0) % (v1 * b + v0) < v1 * b + v0 :=
    Nat.mod_lt _ hv'pos
  obtain ⟨qT, hqTdef⟩ : ∃ t, (a2 * b + u0) / (v1 * b + v0) = t := ⟨_, rfl⟩
  obtain ⟨rT, hrTdef⟩ : ∃ t, (a2 * b + u0) % (v1 * b + v0) = t := ⟨_, rfl⟩
  rw [hqTdef] at hdm3 ⊢
  rw [hrTdef] at hdm3 hmod3
  have hU3lt : a2 * b + u0 < (v1 * b + v0) * b := by
    have h1 : (a2+1) * b ≤ (v1 * b + v0) * b := Nat.mul_le_mul_right _ (by omega)
    have h2 : (a2+1) * b = a2 * b + b := by ring
    omega
  have hqTb : qT < b := by
    by_contra hcon
    push_neg at hcon
    have h3 : (v1 * b + v0) * b ≤ (v1 * b + v0) * qT := Nat.mul_le_mul_left _ hcon
    omega
  have hcond : ∀ q r, q * v1 + r = a2 →
      ((b ≤ q ∨ r * b + u0 < q * v0) ↔ qT < q) := by
    intro q r hinv
    have hqv' : q * (v1 * b + v0) = q * v1 * b + q * v0 := by ring
    have e1 : a2 * b = q * v1 * b + r * b := by
      rw [← hinv]
      ring
    constructor
    · intro h
      rcases h with h | h
      · omega
      · by_contra hcon
        push_neg at hcon
        have h4 : q * (v1 * b + v0) ≤ qT * (v1 * b + v0) :=
          Nat.mul_le_mul_right _ hcon
        have h5 : qT * (v1 * b + v0) = (v1 * b + v0) * qT := by ring
        omega
    · intro h
      by_cases hqb : b ≤ q
      · exact Or.inl hqb
      · refine Or.inr ?_
        push_neg at hqb
        have h4 : (qT + 1) * (v1 * b + v0) ≤ q * (v1 * b + v0) :=
          Nat.mul_le_mul_right _ (by omega)
        have h5 : (qT + 1) * (v1 * b + v0)
            = (v1 * b + v0) * qT + (v1 * b + v0) := by ring
        omega
  intro fuel
  induction fuel with
  | zero =>
    intro q r hinv hge hfuel
    have hqeq : q = qT := by omega
    simp only [knuthLoop, hqeq]
    simp
  | succ n ih =>
    intro q r hinv hge hfuel
    simp only [knuthLoop]
    by_cases hc : b ≤ q ∨ r * b + u0 < q * v0
    · rw [if_pos hc]
      have hqTlt : qT < q := (hcond q r hinv).1 hc
      have hq1 : 1 ≤ q := by omega
      have hinv' : (q-1) * v1 + (r + v1) = a2 := by
        have e : (q - 1 + 1) * v1 = (q-1) * v1 + v1 := by ring
        rw [Nat.sub_add_cancel hq1] at e
        omega
      by_cases hbr : b ≤ r + v1
      · rw [if_pos hbr]
        have hq1T : ¬ (qT < q - 1) := by
          intro hcon
          have hc2 := (hcond (q-1) (r+v1) hinv').2 hcon
          have hq1b : q - 1 < b := by
            have h3 : (q-1) * v1 < b * v1 := by
              have h4 : v1 * b = b * v1 := by ring
              omega
            exact Nat.lt_of_mul_lt_mul_right h3
          rcases hc2 with h | h
          · omega
          · have h5 : (q-1) * v0 ≤ (b-1) * (b-1) :=
              Nat.mul_le_mul (by omega) (by omega)
            have h6 : b * b ≤ (r+v1) * b := Nat.mul_le_mul_right _ hbr
            have h7 : (b-1) * (b-1) < b * b := by
              calc (b-1) * (b-1) ≤ (b-1) * b := Nat.mul_le_mul_left _ (by omega)
                _ < b * b := (Nat.mul_lt_mul_right hb).2 (by omega)
            omega
        have hqeq : q - 1 = qT := by omega
        have hone : q - qT = 1 := by omega
        rw [hqeq, hone]
        simp
      · rw [if_neg hbr]
        have hrec := ih (q-1) (r+v1) hinv' (by omega) (by omega)
        rw [hrec]
        have e1 : q - 1 - qT + 1 = q - qT := by omega
        have e2 : r + v1 + (q - 1 - qT) * v1 = r + (q - qT) * v1 := by
          have e3 : (q - 1 - qT + 1) * v1 = (q - 1 - qT) * v1 + v1 := by ring
          rw [e1] at e3
          omega
        dsimp only
        rw [e2, e1]
    · rw [if_neg hc]
      have h8 : ¬ (qT < q) := fun hcon => hc ((hcond q r hinv).2 hcon)
      have hqeq : q = qT := by omega
      rw [hqeq]
      simp

/-- For a normalized divisor the initial trial digit `a2 / v1` is at
most two above the true digit (Knuth's bound), and never below it. -/
theorem knuthInit_close (b v1 v0 u0 a2 : Nat) (hnorm : b ≤ 2 * v1)
    (hv1 : 0 < v1) (hv0 : v0 < b) (hu0 : u0 < b) (ha2 : a2 < v1 * b + v0) :
    (a2 * b + u0) / (v1 * b + v0) ≤ a2 / v1 ∧
    a2 / v1 ≤ (a2 * b + u0) / (v1 * b + v0) + 2 := by
  have hb : 0 < b := by omega
  have hv'pos : 0 < v1 * b + v0 := by positivity
  have hdm2 := Nat.div_add_mod (a2 * b + u0) (v1 * b + v0)
  have hmod2 : (a2 * b + u0) % (v1 * b + v0) < v1 * b + v0 :=
    Nat.mod_lt _ hv'pos
  have hdm1 := Nat.div_add_mod a2 v1
  have hmod1 : a2 % v1 < v1 := Nat.mod_lt _ hv1
  have hle : (a2 * b + u0) / (v1 * b + v0) ≤ a2 / v1 := by
    have h1 : (a2 * b + u0) / (v1 * b + v0) ≤ (a2 * b + u0) / (v1 * b) := by
      apply Nat.div_le_div_left (by omega) (by positivity)
    have h2 : (a2 * b + u0) / (v1 * b) = a2 / v1 := by
      have h3 : a2 * b + u0 = b * a2 + u0 := by ring
      rw [show v1 * b = b * v1 from by ring, ← Nat.div_div_eq_div_mul, h3,
        Nat.mul_add_div hb, Nat.div_eq_of_lt hu0, Nat.add_zero]
    omega
  refine ⟨hle, ?_⟩
  obtain ⟨qT, hqTdef⟩ : ∃ t, (a2 * b + u0) / (v1 * b + v0) = t := ⟨_, rfl⟩
  obtain ⟨rT, hrTdef⟩ : ∃ t, (a2 * b + u0) % (v1 * b + v0) = t := ⟨_, rfl⟩
  obtain ⟨q0, hq0def⟩ : ∃ t, a2 / v1 = t := ⟨_, rfl⟩
  rw [hqTdef] at hdm2 hle ⊢
  rw [hrTdef] at hdm2 hmod2
  rw [hq0def] at hdm1 hle ⊢
  have hqTb : qT < b := by
    have hU3lt : a2 * b + u0 < (v1 * b + v0) * b := by
      have h1 : (a2+1) * b ≤ (v1 * b + v0) * b := Nat.mul_le_mul_right _ (by omega)
      have h2 : (a2+1) * b = a2 * b + b := by ring
      omega
    by_contra hcon
    push_neg at hcon
    have h3 : (v1 * b + v0) * b ≤ (v1 * b + v0) * qT := Nat.mul_le_mul_left _ hcon
    omega
  by_contra hcon
  push_neg at hcon
  have hq0 : qT + 3 ≤ q0 := by omega
  have h4 : v1 * (qT + 3) ≤ v1 * q0 := Nat.mul_le_mul_left _ hq0
  have h5 : v1 * (qT + 3) = v1 * qT + 3 * v1 := by ring
  -- a2 ≥ v1 * qT + 3 * v1; multiply by b
  have h6 : (v1 * qT + 3 * v1) * b ≤ a2 * b :=
    Nat.mul_le_mul_right _ (by omega)
  have h7 : (v1 * qT + 3 * v1) * b = v1 * b * qT + 3 * (v1 * b) := by ring
  have h8 : (v1 * b + v0) * qT = v1 * b * qT + v0 * qT := by ring
  have h9 : v0 * qT + v0 < (b - 1) * b + b := by
    have h10 : v0 * qT ≤ (b-1) * (b-1) := Nat.mul_le_mul (by omega) (by omega)
    have h11 : (b-1) * (b-1) + b ≤ (b-1) * b + b := by
      have := Nat.mul_le_mul_left (b-1) (show b-1 ≤ b by omega)
      omega
    omega
  have h12 : (b-1) * b + b = b * b := by
    have h13 : (b - 1 + 1) * b = (b-1) * b + b := by ring
    rw [Nat.sub_add_cancel hb] at h13
    omega
  have h14 : 2 * (v1 * b) < b * b := by omega
  have h15 : 2 * (v1 * b) = (2 * v1) * b := by ring
  have h16 : b * b ≤ (2 * v1) * b := Nat.mul_le_mul_right _ hnorm
  omega

/-- The concrete correction loop of `uint128.Div` computes the abstract
correction loop on values (with digit base `2^64`), including the
iteration count. -/
theorem divLoop_bridge128 (yHi yLo uDig : Nat) (hyHi : yHi < 2^64)
    (hyLo : yLo < 2^64) (huDig : uDig < 2^64) :
    ∀ fuel (q1 r1 : Uint128), q1.Wf → r1.Hi = 0 → r1.Lo < 2^64 →
      (uint128.divLoop yHi yLo uDig fuel q1 r1).1.Wf ∧
      (uint128.divLoop yHi yLo uDig fuel q1 r1).1.toNat
        = (knuthLoop (2^64) yHi yLo uDig fuel q1.toNat r1.Lo).1 ∧
      (uint128.divLoop yHi yLo uDig fuel q1 r1).2.1.toNat
        = (knuthLoop (2^64) yHi yLo uDig fuel q1.toNat r1.Lo).2.1 ∧
      (uint128.divLoop yHi yLo uDig fuel q1 r1).2.2
        = (knuthLoop (2^64) yHi yLo uDig fuel q1.toNat r1.Lo).2.2 := by
  intro fuel
  induction fuel with
  | zero =>
    intro q1 r1 hq hr1 hr2
    simp only [uint128.divLoop, knuthLoop]
    refine ⟨hq, trivial, ?_, trivial⟩
    simp [Uint128.toNat, hr1]
  | succ n ih =>
    intro q1 r1 hq hr1 hr2
    have hwr : r1.Wf := ⟨hr2, by rw [hr1]; norm_num⟩
    have hrval : r1.toNat = r1.Lo := by simp [Uint128.toNat, hr1]
    have hqlt := Uint128.toNat_lt hq
    have hqHi : q1.Hi ≠ 0 ↔ 2^64 ≤ q1.toNat := by
      obtain ⟨h1, h2⟩ := hq
      simp only [Uint128.toNat]
      omega
    have hDWf : (Uint128.mk uDig r1.Lo).Wf := ⟨huDig, hr2⟩
    have hDval : (Uint128.mk uDig r1.Lo).toNat = r1.Lo * 2^64 + uDig := by
      simp [Uint128.toNat]
    have hcnd : (q1.Hi ≠ 0 ∨ 0 < (q1.Mul64 yLo).Cmp ⟨uDig, r1.Lo⟩)
        ↔ (2^64 ≤ q1.toNat ∨ r1.Lo * 2^64 + uDig < q1.toNat * yLo) := by
      by_cases hHi : q1.Hi = 0
      · have hqs : q1.toNat < 2^64 := by
          obtain ⟨h1, h2⟩ := hq
          simp only [Uint128.toNat]
          omega
        have hprod : q1.toNat * yLo < 2^128 := by
          calc q1.toNat * yLo ≤ (2^64-1) * (2^64-1) :=
                Nat.mul_le_mul (by omega) (by omega)
            _ < 2^128 := by norm_num
        have hMe := Uint128.Mul64_exact hq hyLo hprod
        have hMwf := (Uint128.Mul64_spec hq hyLo).1
        have hCmp := Uint128.Cmp_pos_iff hMwf hDWf
        rw [hMe, hDval] at hCmp
        constructor
        · intro h
          rcases h with h | h
          · exact absurd hHi h
          · exact Or.inr (hCmp.1 h)
        · intro h
          rcases h with h | h
          · exact absurd h (by omega)
          · exact Or.inr (hCmp.2 h)
      · constructor
        · intro _
          exact Or.inl (hqHi.1 hHi)
        · intro _
          exact Or.inl hHi
    simp only [uint128.divLoop, knuthLoop]
    by_cases hc : q1.Hi ≠ 0 ∨ 0 < (q1.Mul64 yLo).Cmp ⟨uDig, r1.Lo⟩
    · rw [if_pos hc, if_pos (hcnd.1 hc)]
      have hq1 : 1 ≤ q1.toNat := by
        rcases hcnd.1 hc with h | h
        · omega
        · by_contra hz
          push_neg at hz
          have hz0 : q1.toNat = 0 := by omega
          rw [hz0, Nat.zero_mul] at h
          omega
      have hSub := Uint128.Sub64_spec hq (v := 1) (by norm_num)
      have hq2 : (q1.Sub64 1).toNat = q1.toNat - 1 := by
        rw [hSub.2]
        omega
      have hAdd := Uint128.Add64_spec hwr hyHi
      have hr2v : (r1.Add64 yHi).toNat = r1.Lo + yHi := by
        rw [hAdd.2, hrval]
        omega
      have hr2Hi : (r1.Add64 yHi).Hi = (r1.Lo + yHi) / 2^64 := by
        have h := (Uint128.lo_eq_toNat hAdd.1).2
        rw [hr2v] at h
        exact h
      have hr2Lo : (r1.Add64 yHi).Lo = (r1.Lo + yHi) % 2^64 := by
        have h := (Uint128.lo_eq_toNat hAdd.1).1
        rw [hr2v] at h
        exact h
      by_cases hbr : (r1.Add64 yHi).Hi ≠ 0
      · rw [if_pos hbr]
        have habs : 2^64 ≤ r1.Lo + yHi := by
          rw [hr2Hi] at hbr
          omega
        rw [if_pos habs]
        exact ⟨hSub.1, hq2, hr2v, rfl⟩
      · rw [if_neg hbr]
        push_neg at hbr
        have hlt : r1.Lo + yHi < 2^64 := by
          rw [hr2Hi] at hbr
          omega
        rw [if_neg (by omega : ¬ 2^64 ≤ r1.Lo + yHi)]
        have hLoe : (r1.Add64 yHi).Lo = r1.Lo + yHi := by
          rw [hr2Lo]
          omega
        have hrec := ih (q1.Sub64 1) (r1.Add64 yHi) hSub.1
          (by rw [hr2Hi]; omega) (by rw [hLoe]; omega)
        rw [hq2, hLoe] at hrec
        exact ⟨hrec.1, hrec.2.1, hrec.2.2.1, by rw [hrec.2.2.2]⟩
    · rw [if_neg hc, if_neg (fun h => hc (hcnd.2 h))]
      refine ⟨hq, rfl, by rw [hrval], rfl⟩

/-- One Knuth digit step of `uint128.Div`: the trial division by the top
limb followed by the 4-fuel correction loop produces exactly the next
64-bit quotient digit, in at most two corrections. -/
theorem digitStep128 (yn u : Uint128) (dig : Nat) (hyn : yn.Wf) (hu : u.Wf)
    (hnorm : 2^127 ≤ yn.toNat) (hlt : u.toNat < yn.toNat) (hdig : dig < 2^64) :
    (uint128.divLoop yn.Hi yn.Lo dig 4 (u.QuoRem64 yn.Hi).1
      (Uint128.From64 (u.QuoRem64 yn.Hi).2)).1.Wf ∧
    (uint128.divLoop yn.Hi yn.Lo dig 4 (u.QuoRem64 yn.Hi).1
      (Uint128.From64 (u.QuoRem64 yn.Hi).2)).1.toNat
      = (u.toNat * 2^64 + dig) / yn.toNat ∧
    (u.toNat * 2^64 + dig) / yn.toNat < 2^64 ∧
    (uint128.divLoop yn.Hi yn.Lo dig 4 (u.QuoRem64 yn.Hi).1
      (Uint128.From64 (u.QuoRem64 yn.Hi).2)).2.2 ≤ 2 := by
  obtain ⟨hv0, hv1⟩ := hyn
  have hyval : yn.toNat = yn.Hi * 2^64 + yn.Lo := rfl
  have hv1pos : 2^63 ≤ yn.Hi := by
    by_contra hcon
    push_neg at hcon
    have h1 : yn.Hi * 2^64 ≤ (2^63 - 1) * 2^64 :=
      Nat.mul_le_mul_right _ (by omega)
    omega
  have hnorm' : 2^64 ≤ 2 * yn.Hi := by omega
  have hP := Uint128.QuoRem64_spec hu (v := yn.Hi) (by omega) hv1
  have hqT := knuthInit_close (2^64) yn.Hi yn.Lo dig u.toNat
    hnorm' (by omega) hv0 hdig (by omega)
  obtain ⟨qT, hqTdef⟩ :
      ∃ t, (u.toNat * 2^64 + dig) / (yn.Hi * 2^64 + yn.Lo) = t := ⟨_, rfl⟩
  obtain ⟨q0v, hq0def⟩ : ∃ t, u.toNat / yn.Hi = t := ⟨_, rfl⟩
  obtain ⟨r0v, hr0def⟩ : ∃ t, u.toNat % yn.Hi = t := ⟨_, rfl⟩
  rw [hqTdef, hq0def] at hqT
  have hdm := Nat.div_add_mod u.toNat yn.Hi
  rw [hq0def, hr0def] at hdm
  have hr0lt : r0v < yn.Hi := by
    rw [← hr0def]
    exact Nat.mod_lt _ (by omega)
  have hinv : q0v * yn.Hi + r0v = u.toNat := by
    rw [Nat.mul_comm]
    omega
  have hKL := knuthLoop_spec (2^64) yn.Hi yn.Lo dig u.toNat
    (by omega) hv0 hdig (by omega) 4 q0v r0v hinv (by omega) (by omega)
  rw [hqTdef] at hKL
  have hBR := divLoop_bridge128 yn.Hi yn.Lo dig
    hv1 hv0 hdig 4 (u.QuoRem64 yn.Hi).1 (Uint128.From64 (u.QuoRem64 yn.Hi).2)
    hP.1 rfl (by simpa [Uint128.From64] using lt_of_lt_of_le hP.2.2.2 hv1.le)
  have hLoF : (Uint128.From64 (u.QuoRem64 yn.Hi).2).Lo = r0v := by
    simp only [Uint128.From64]
    rw [hP.2.2.1, hr0def]
  have hq1N : (u.QuoRem64 yn.Hi).1.toNat = q0v := by
    rw [hP.2.1, hq0def]
  rw [hLoF, hq1N, hKL] at hBR
  have hqTb : qT < 2^64 := by
    rw [← hqTdef]
    have hpos : 0 < yn.Hi * 2^64 + yn.Lo := by omega
    rw [Nat.div_lt_iff_lt_mul hpos]
    calc u.toNat * 2^64 + dig < (u.toNat + 1) * 2^64 := by omega
      _ ≤ (yn.Hi * 2^64 + yn.Lo) * 2^64 := by
          apply Nat.mul_le_mul_right
          rw [hyval] at hlt
          omega
      _ = 2^64 * (yn.Hi * 2^64 + yn.Lo) := by ring
  have hval : (uint128.divLoop yn.Hi yn.Lo dig 4 (u.QuoRem64 yn.Hi).1
      (Uint128.From64 (u.QuoRem64 yn.Hi).2)).1.toNat = qT := hBR.2.1
  have hcnt : (uint128.divLoop yn.Hi yn.Lo dig 4 (u.QuoRem64 yn.Hi).1
      (Uint128.From64 (u.QuoRem64 yn.Hi).2)).2.2 = q0v - qT := hBR.2.2.2
  rw [hyval, hqTdef]
  exact ⟨hBR.1, hval, hqTb, by omega⟩

/-- Full correctness of the body of `uint128.Div`: exact quotient and
remainder of the 256-bit dividend, with both correction loops executing
at most two iterations. -/
theorem divCore_spec128 {hi lo y : Uint128} (hhi : hi.Wf) (hlo : lo.Wf)
    (hy : y.Wf) (hy0 : y.toNat ≠ 0) (hlt : hi.toNat < y.toNat) :
    (uint128.divCore hi lo y).1.1.Wf ∧
    (uint128.divCore hi lo y).1.2.Wf ∧
    (uint128.divCore hi lo y).1.1.toNat
      = (hi.toNat * 2^128 + lo.toNat) / y.toNat ∧
    (uint128.divCore hi lo y).1.2.toNat
      = (hi.toNat * 2^128 + lo.toNat) % y.toNat ∧
    (uint128.divCore hi lo y).2.1 ≤ 2 ∧
    (uint128.divCore hi lo y).2.2 ≤ 2 := by
  obtain ⟨k, hk1, hk2, hkLZ, hkl, hku⟩ := Uint128.LeadingZeros_spec hy hy0
  have hsplit : (2:ℕ)^k * 2^(128-k) = 2^128 := by
    rw [← pow_add]
    congr 1
    omega
  have hSpos : (0:ℕ) < 2^(128-k) := by positivity
  have hKpos : (0:ℕ) < 2^k := by positivity
  have hhiv := Uint128.toNat_lt hhi
  have hlov := Uint128.toNat_lt hlo
  have hyvlt := Uint128.toNat_lt hy
  simp only [uint128.divCore]
  rw [hkLZ, show 128 - (128 - k) = k from by omega]
  set yn := y.Lsh (128 - k) with hyndef
  set u32 := (hi.Lsh (128 - k)).Or (lo.Rsh k) with hu32def
  set u10 := lo.Lsh (128 - k) with hu10def
  set t1 := uint128.divLoop yn.Hi yn.Lo u10.Hi 4 (u32.QuoRem64 yn.Hi).1
    (Uint128.From64 (u32.QuoRem64 yn.Hi).2) with ht1
  set u21 := (Uint128.mk u10.Hi u32.Lo).Sub (t1.1.Mul yn) with hu21def
  set t0 := uint128.divLoop yn.Hi yn.Lo u10.Lo 4 (u21.QuoRem64 yn.Hi).1
    (Uint128.From64 (u21.QuoRem64 yn.Hi).2) with ht0
  set remi := (Uint128.mk u10.Lo u21.Lo).Sub (t0.1.Mul yn) with hremidef
  -- the normalized divisor
  have hynWf : yn.Wf := (Uint128.Lsh_spec _ hy).1
  have hynv : yn.toNat = y.toNat * 2^(128-k) := by
    rw [hyndef, (Uint128.Lsh_spec _ hy).2, Nat.mod_eq_of_lt]
    calc y.toNat * 2^(128-k) < 2^k * 2^(128-k) :=
          (Nat.mul_lt_mul_right hSpos).2 hku
      _ = 2^128 := hsplit
  have hynlo : 2^127 ≤ yn.toNat := by
    rw [hynv]
    calc (2:ℕ)^127 = 2^(k-1) * 2^(128-k) := by
          rw [← pow_add]
          congr 1
          omega
      _ ≤ y.toNat * 2^(128-k) := Nat.mul_le_mul_right _ hkl
  have hynpos : 0 < yn.toNat := by omega
  have hynlt := Uint128.toNat_lt hynWf
  -- the shifted dividend pieces
  have hhiLv : (hi.Lsh (128-k)).toNat = hi.toNat * 2^(128-k) := by
    rw [(Uint128.Lsh_spec _ hhi).2, Nat.mod_eq_of_lt]
    calc hi.toNat * 2^(128-k) < 2^k * 2^(128-k) :=
          (Nat.mul_lt_mul_right hSpos).2 (by omega)
      _ = 2^128 := hsplit
  obtain ⟨lq, hlq⟩ : ∃ t, lo.toNat / 2^k = t := ⟨_, rfl⟩
  have hloRv : (lo.Rsh k).toNat = lq := by
    rw [(Uint128.Rsh_spec _ hlo).2, hlq]
  have hloRlt : (lo.Rsh k).toNat < 2^(128-k) := by
    rw [(Uint128.Rsh_spec _ hlo).2, Nat.div_lt_iff_lt_mul hKpos]
    calc lo.toNat < 2^128 := hlov
      _ = 2^k * 2^(128-k) := hsplit.symm
      _ = 2^(128-k) * 2^k := by ring
  have hOr := Uint128.Or_disjoint (k := 128 - k) (Uint128.Lsh_spec _ hhi).1
    (Uint128.Rsh_spec _ hlo).1 (by omega)
    (by rw [hhiLv]; exact Nat.mul_mod_left _ _) hloRlt
  have hu32Wf : u32.Wf := hOr.1
  have hu32v : u32.toNat = hi.toNat * 2^(128-k) + lq := by
    rw [hu32def, hOr.2, hhiLv, hloRv]
  have hu32lt' := Uint128.toNat_lt hu32Wf
  have hu10Wf : u10.Wf := (Uint128.Lsh_spec _ hlo).1
  have hu10v : u10.toNat = lo.toNat * 2^(128-k) % 2^128 :=
    (Uint128.Lsh_spec _ hlo).2
  have hu10val : u10.toNat = u10.Hi * 2^64 + u10.Lo := rfl
  have ha1lt : u10.Hi < 2^64 := hu10Wf.2
  have ha0lt : u10.Lo < 2^64 := hu10Wf.1
  -- decomposition of the normalized dividend
  have hdivls : lo.toNat * 2^(128-k) / 2^128 = lq := by
    rw [← hsplit, Nat.mul_div_mul_right _ _ hSpos, hlq]
  have hdm10 := Nat.div_add_mod (lo.toNat * 2^(128-k)) (2^128)
  rw [hdivls] at hdm10
  have hN' : (hi.toNat * 2^128 + lo.toNat) * 2^(128-k)
      = (hi.toNat * 2^(128-k) + lq) * 2^128
        + lo.toNat * 2^(128-k) % 2^128 := by
    have e1 : (hi.toNat * 2^128 + lo.toNat) * 2^(128-k)
        = hi.toNat * 2^(128-k) * 2^128 + lo.toNat * 2^(128-k) := by ring
    have e2 : (hi.toNat * 2^(128-k) + lq) * 2^128
        = hi.toNat * 2^(128-k) * 2^128 + 2^128 * lq := by ring
    omega
  -- the top chunk is below the normalized divisor
  have hu32lt : u32.toNat < yn.toNat := by
    rw [hu32v, hynv]
    have h1 : hi.toNat * 2^128 + lo.toNat < y.toNat * 2^128 := by
      have h2 : (hi.toNat + 1) * 2^128 ≤ y.toNat * 2^128 :=
        Nat.mul_le_mul_right _ (by omega)
      have h3 : (hi.toNat + 1) * 2^128 = hi.toNat * 2^128 + 2^128 := by ring
      omega
    have h5 : (hi.toNat * 2^128 + lo.toNat) * 2^(128-k)
        < (y.toNat * 2^128) * 2^(128-k) :=
      (Nat.mul_lt_mul_right hSpos).2 h1
    have h6 : (y.toNat * 2^128) * 2^(128-k)
        = y.toNat * 2^(128-k) * 2^128 := by ring
    by_contra hcon
    push_neg at hcon
    have h7 : y.toNat * 2^(128-k) * 2^128
        ≤ (hi.toNat * 2^(128-k) + lq) * 2^128 :=
      Nat.mul_le_mul_right _ hcon
    have h8 : (hi.toNat * 2^(128-k) + lq) * 2^128
        = hi.toNat * 2^(128-k) * 2^128 + lq * 2^128 := by ring
    omega
  -- first quotient digit
  have hD1 := digitStep128 yn u32 u10.Hi hynWf hu32Wf hynlo hu32lt ha1lt
  rw [← ht1] at hD1
  obtain ⟨qT1, hqT1⟩ : ∃ t, (u32.toNat * 2^64 + u10.Hi) / yn.toNat = t :=
    ⟨_, rfl⟩
  rw [hqT1] at hD1
  have hdmD1 := Nat.div_add_mod (u32.toNat * 2^64 + u10.Hi) yn.toNat
  obtain ⟨R1, hR1⟩ : ∃ t, (u32.toNat * 2^64 + u10.Hi) % yn.toNat = t :=
    ⟨_, rfl⟩
  rw [hqT1, hR1] at hdmD1
  have hR1lt : R1 < yn.toNat := by
    rw [← hR1]
    exact Nat.mod_lt _ hynpos
  -- the middle remainder chunk
  have hSub1 := Uint128.Sub_spec (u := Uint128.mk u10.Hi u32.Lo)
    ⟨ha1lt, hu32Wf.1⟩ (Uint128.Mul_spec hD1.1 hynWf).1
  rw [← hu21def] at hSub1
  have hu21v : u21.toNat = R1 := by
    have hMul1v : (t1.1.Mul yn).toNat = qT1 * yn.toNat % 2^128 := by
      rw [(Uint128.Mul_spec hD1.1 hynWf).2, hD1.2.1]
    have hval := hSub1.2
    rw [hMul1v] at hval
    have hHv : (Uint128.mk u10.Hi u32.Lo).toNat = u32.Lo * 2^64 + u10.Hi :=
      rfl
    rw [hHv] at hval
    have hc1 : yn.toNat * qT1 = qT1 * yn.toNat := Nat.mul_comm _ _
    have hLo32 := (Uint128.lo_eq_toNat hu32Wf).1
    omega
  -- second quotient digit
  have hD0 := digitStep128 yn u21 u10.Lo hynWf hSub1.1 hynlo
    (by rw [hu21v]; exact hR1lt) ha0lt
  rw [← ht0] at hD0
  obtain ⟨qT0, hqT0⟩ : ∃ t, (u21.toNat * 2^64 + u10.Lo) / yn.toNat = t :=
    ⟨_, rfl⟩
  rw [hqT0] at hD0
  have hdmD0 := Nat.div_add_mod (u21.toNat * 2^64 + u10.Lo) yn.toNat
  obtain ⟨R0, hR0⟩ : ∃ t, (u21.toNat * 2^64 + u10.Lo) % yn.toNat = t :=
    ⟨_, rfl⟩
  rw [hqT0, hR0] at hdmD0
  have hR0lt : R0 < yn.toNat := by
    rw [← hR0]
    exact Nat.mod_lt _ hynpos
  rw [hu21v] at hdmD0
  -- the low remainder chunk
  have hSub0 := Uint128.Sub_spec (u := Uint128.mk u10.Lo u21.Lo)
    ⟨ha0lt, hSub1.1.1⟩ (Uint128.Mul_spec hD0.1 hynWf).1
  rw [← hremidef] at hSub0
  have hremv : remi.toNat = R0 := by
    have hMul0v : (t0.1.Mul yn).toNat = qT0 * yn.toNat % 2^128 := by
      rw [(Uint128.Mul_spec hD0.1 hynWf).2, hD0.2.1]
    have hval := hSub0.2
    rw [hMul0v] at hval
    have hHv : (Uint128.mk u10.Lo u21.Lo).toNat = u21.Lo * 2^64 + u10.Lo :=
      rfl
    rw [hHv] at hval
    have hc0 : yn.toNat * qT0 = qT0 * yn.toNat := Nat.mul_comm _ _
    have hLo21 := (Uint128.lo_eq_toNat hSub1.1).1
    have hu21lt := Uint128.toNat_lt hSub1.1
    omega
  -- global quotient/remainder identity for the normalized pair
  have hGlob : (hi.toNat * 2^128 + lo.toNat) * 2^(128-k)
      = yn.toNat * (qT1 * 2^64 + qT0) + R0 := by
    have e1 : yn.toNat * (qT1 * 2^64 + qT0)
        = yn.toNat * qT1 * 2^64 + yn.toNat * qT0 := by ring
    omega
  obtain ⟨hQdiv, hQmod⟩ := divmod_unique hynpos hGlob hR0lt
  have hdivfin : (hi.toNat * 2^128 + lo.toNat) * 2^(128-k) / yn.toNat
      = (hi.toNat * 2^128 + lo.toNat) / y.toNat := by
    rw [hynv]
    exact Nat.mul_div_mul_right _ _ hSpos
  have hmodfin : (hi.toNat * 2^128 + lo.toNat) * 2^(128-k) % yn.toNat
      = (hi.toNat * 2^128 + lo.toNat) % y.toNat * 2^(128-k) := by
    rw [hynv]
    exact Nat.mul_mod_mul_right _ _ _
  have hQ : qT1 * 2^64 + qT0 = (hi.toNat * 2^128 + lo.toNat) / y.toNat := by
    rw [← hdivfin, hQdiv]
  have hRfin : R0 = (hi.toNat * 2^128 + lo.toNat) % y.toNat * 2^(128-k) := by
    rw [← hmodfin, hQmod]
  -- assemble the six conclusions
  have hq1Lo : t1.1.Lo = qT1 := by
    have h := (Uint128.lo_eq_toNat hD1.1).1
    rw [hD1.2.1, Nat.mod_eq_of_lt hD1.2.2.1] at h
    exact h
  have hq0Lo : t0.1.Lo = qT0 := by
    have h := (Uint128.lo_eq_toNat hD0.1).1
    rw [hD0.2.1, Nat.mod_eq_of_lt hD0.2.2.1] at h
    exact h
  have hRsh := Uint128.Rsh_spec (128 - k) hSub0.1
  refine ⟨⟨?_, ?_⟩, hRsh.1, ?_, ?_, hD1.2.2.2, hD0.2.2.2⟩
  · rw [hq0Lo]
    exact hD0.2.2.1
  · rw [hq1Lo]
    exact hD1.2.2.1
  · show t1.1.Lo * 2^64 + t0.1.Lo = _
    rw [hq1Lo, hq0Lo, hQ]
  · rw [hRsh.2, hremv, hRfin, Nat.mul_div_cancel _ hSpos]

namespace Uint256

theorem lo_eq_toNat256 {u : Uint256} (h : u.Wf) :
    u.Lo.toNat = u.toNat % 2^128 ∧ u.Hi.toNat = u.toNat / 2^128 := by
  have h1 := Uint128.toNat_lt h.1
  have h2 := Uint128.toNat_lt h.2
  simp only [toNat]
  omega

theorem wf_Zero256 : Zero.Wf := by
  constructor <;> exact Uint128.wf_From64 (by norm_num)

theorem toNat_Zero256 : Zero.toNat = 0 := rfl

/-- Full specification of the carry-chain free function `uint256.Add`. -/
theorem addCarry_spec256 {x y : Uint256} {c : Nat} (hx : x.Wf) (hy : y.Wf)
    (hc : c ≤ 1) :
    (uint256.Add x y c).1.Wf ∧ (uint256.Add x y c).2 ≤ 1 ∧
    (uint256.Add x y c).1.toNat + 2^256 * (uint256.Add x y c).2
      = x.toNat + y.toNat + c := by
  have h0 := Uint128.addCarry_spec hx.1 hy.1 hc
  have h1 := Uint128.addCarry_spec hx.2 hy.2 h0.2.1
  simp only [uint256.Add, toNat]
  exact ⟨⟨h0.1, h1.1⟩, h1.2.1, by
    have e0 := h0.2.2
    have e1 := h1.2.2
    omega⟩

/-- Full specification of the borrow-chain free function `uint256.Sub`. -/
theorem subBorrow_spec256 {x y : Uint256} {b : Nat} (hx : x.Wf) (hy : y.Wf)
    (hb : b ≤ 1) :
    (uint256.Sub x y b).1.Wf ∧
    (uint256.Sub x y b).2 = (if x.toNat < y.toNat + b then 1 else 0) ∧
    (uint256.Sub x y b).1.toNat + y.toNat + b
      = x.toNat + 2^256 * (uint256.Sub x y b).2 := by
  have h0 := Uint128.subBorrow_spec hx.1 hy.1 hb
  have hb0 : (uint128.Sub x.Lo y.Lo b).2 ≤ 1 := by
    rw [h0.2.1]
    split_ifs <;> omega
  have h1 := Uint128.subBorrow_spec hx.2 hy.2 hb0
  have hxL := Uint128.toNat_lt hx.1
  have hxH := Uint128.toNat_lt hx.2
  have hyL := Uint128.toNat_lt hy.1
  have hyH := Uint128.toNat_lt hy.2
  have hdL := Uint128.toNat_lt h0.1
  have hdH := Uint128.toNat_lt h1.1
  simp only [uint256.Sub, toNat]
  refine ⟨⟨h0.1, h1.1⟩, ?_, ?_⟩
  · have e0 := h0.2.2
    have e1 := h1.2.2
    have c0 := h0.2.1
    have c1 := h1.2.1
    split_ifs at c0 c1 ⊢ <;> omega
  · have e0 := h0.2.2
    have e1 := h1.2.2
    have c0 := h0.2.1
    have c1 := h1.2.1
    split_ifs at c0 c1 <;> omega

theorem Add_spec256 {u v : Uint256} (hu : u.Wf) (hv : v.Wf) :
    (u.Add v).Wf ∧ (u.Add v).toNat = (u.toNat + v.toNat) % 2^256 := by
  have h := addCarry_spec256 hu hv (c := 0) (by norm_num)
  have hlt := toNat_lt256 h.1
  simp only [Add]
  exact ⟨h.1, by omega⟩

theorem Sub_spec256 {u v : Uint256} (hu : u.Wf) (hv : v.Wf) :
    (u.Sub v).Wf ∧ (u.Sub v).toNat = (u.toNat + 2^256 - v.toNat) % 2^256 := by
  have h := subBorrow_spec256 hu hv (b := 0) (by norm_num)
  have hlt := toNat_lt256 h.1
  have hu' := toNat_lt256 hu
  have hv' := toNat_lt256 hv
  simp only [Sub]
  refine ⟨h.1, ?_⟩
  obtain ⟨-, h2, h3⟩ := h
  split_ifs at h2 <;> omega

theorem Sub_exact256 {u v : Uint256} (hu : u.Wf) (hv : v.Wf)
    (h : v.toNat ≤ u.toNat) : (u.Sub v).toNat = u.toNat - v.toNat := by
  have hs := Sub_spec256 hu hv
  have hu' := toNat_lt256 hu
  omega

theorem Add128_spec {u : Uint256} {v : Uint128} (hu : u.Wf) (hv : v.Wf) :
    (u.Add128 v).Wf ∧ (u.Add128 v).toNat = (u.toNat + v.toNat) % 2^256 := by
  have h0 := Uint128.addCarry_spec hu.1 hv (c := 0) (by norm_num)
  have h1 := Uint128.Add64_spec hu.2 (v := (uint128.Add u.Lo v 0).2)
    (by have := h0.2.1; norm_num; omega)
  have hsL := Uint128.toNat_lt h0.1
  have hHi := Uint128.toNat_lt hu.2
  simp only [Add128, toNat]
  refine ⟨⟨h0.1, h1.1⟩, ?_⟩
  have e0 := h0.2.2
  have e1 := h1.2
  omega

theorem Sub128_spec {u : Uint256} {v : Uint128} (hu : u.Wf) (hv : v.Wf) :
    (u.Sub128 v).Wf ∧
    (u.Sub128 v).toNat = (u.toNat + 2^256 - v.toNat) % 2^256 := by
  have h0 := Uint128.subBorrow_spec hu.1 hv (b := 0) (by norm_num)
  have hb0 : (uint128.Sub u.Lo v 0).2 ≤ 1 := by
    rw [h0.2.1]
    split_ifs <;> omega
  have h1 := Uint128.Sub64_spec hu.2 (v := (uint128.Sub u.Lo v 0).2)
    (by omega)
  have hdL := Uint128.toNat_lt h0.1
  have hHi := Uint128.toNat_lt hu.2
  have hLo := Uint128.toNat_lt hu.1
  have hvv := Uint128.toNat_lt hv
  simp only [Sub128, toNat]
  refine ⟨⟨h0.1, h1.1⟩, ?_⟩
  have e0 := h0.2.2
  have c0 := h0.2.1
  have e1 := h1.2
  split_ifs at c0 <;> omega

/-- Go method `Uint256.Mul` wraps modulo `2^256`. -/
theorem Mul_spec256 {u v : Uint256} (hu : u.Wf) (hv : v.Wf) :
    (u.Mul v).Wf ∧ (u.Mul v).toNat = u.toNat * v.toNat % 2^256 := by
  have hp := Uint128.mulFull_spec hu.1 hv.1
  have hm1 := Uint128.Mul_spec hu.2 hv.1
  have hm2 := Uint128.Mul_spec hu.1 hv.2
  have ha1 := Uint128.Add_spec hp.1 hm1.1
  have ha2 := Uint128.Add_spec ha1.1 hm2.1
  have hLoLo := Uint128.toNat_lt hp.2.1
  have hexp : (u.Hi.toNat * 2^128 + u.Lo.toNat) * (v.Hi.toNat * 2^128 + v.Lo.toNat)
      = (u.Hi.toNat * v.Hi.toNat) * 2^256
        + (u.Hi.toNat * v.Lo.toNat) * 2^128
        + (u.Lo.toNat * v.Hi.toNat) * 2^128
        + u.Lo.toNat * v.Lo.toNat := by ring
  simp only [Mul, toNat]
  refine ⟨⟨hp.2.1, ha2.1⟩, ?_⟩
  rw [ha2.2, ha1.2, hm1.2, hm2.2]
  have hfull := hp.2.2
  have hlt1 := Uint128.toNat_lt hp.1
  omega

/-- Go method `Uint256.Mul128` wraps modulo `2^256`. -/
theorem Mul128_spec {u : Uint256} {v : Uint128} (hu : u.Wf) (hv : v.Wf) :
    (u.Mul128 v).Wf ∧ (u.Mul128 v).toNat = u.toNat * v.toNat % 2^256 := by
  have hp := Uint128.mulFull_spec hu.1 hv
  have hm1 := Uint128.Mul_spec hu.2 hv
  have ha1 := Uint128.Add_spec hp.1 hm1.1
  have hLoLo := Uint128.toNat_lt hp.2.1
  have hexp : (u.Hi.toNat * 2^128 + u.Lo.toNat) * v.toNat
      = (u.Hi.toNat * v.toNat) * 2^128 + u.Lo.toNat * v.toNat := by ring
  simp only [Mul128, toNat]
  refine ⟨⟨hp.2.1, ha1.1⟩, ?_⟩
  rw [ha1.2, hm1.2]
  have hfull := hp.2.2
  have hlt1 := Uint128.toNat_lt hp.1
  omega

theorem Mul128_exact {u : Uint256} {v : Uint128} (hu : u.Wf) (hv : v.Wf)
    (h : u.toNat * v.toNat < 2^256) :
    (u.Mul128 v).toNat = u.toNat * v.toNat := by
  rw [(Mul128_spec hu hv).2, Nat.mod_eq_of_lt h]

theorem Mul_exact256 {u v : Uint256} (hu : u.Wf) (hv : v.Wf)
    (h : u.toNat * v.toNat < 2^256) :
    (u.Mul v).toNat = u.toNat * v.toNat := by
  rw [(Mul_spec256 hu hv).2, Nat.mod_eq_of_lt h]

/-- The free function `uint256.Mul` computes the exact 512-bit product. -/
theorem mulFull_spec256 {x y : Uint256} (hx : x.Wf) (hy : y.Wf) :
    (uint256.Mul x y).1.Wf ∧ (uint256.Mul x y).2.Wf ∧
    (uint256.Mul x y).1.toNat * 2^256 + (uint256.Mul x y).2.toNat
      = x.toNat * y.toNat := by
  simp only [uint256.Mul, toNat]
  set p := uint128.Mul x.Lo y.Lo with hpdef
  set q := uint128.Mul x.Hi y.Hi with hqdef
  set t01 := uint128.Mul x.Lo y.Hi with ht01def
  set t23 := uint128.Mul x.Hi y.Lo with ht23def
  set a0 := uint128.Add p.1 t01.2 0 with ha0def
  set a1 := uint128.Add a0.1 t23.2 0 with ha1def
  set b0 := uint128.Add q.2 t01.1 a0.2 with hb0def
  set b1 := uint128.Add b0.1 t23.1 a1.2 with hb1def
  have hp := Uint128.mulFull_spec hx.1 hy.1
  rw [← hpdef] at hp
  have hq := Uint128.mulFull_spec hx.2 hy.2
  rw [← hqdef] at hq
  have ht01 := Uint128.mulFull_spec hx.1 hy.2
  rw [← ht01def] at ht01
  have ht23 := Uint128.mulFull_spec hx.2 hy.1
  rw [← ht23def] at ht23
  have ha0 := Uint128.addCarry_spec hp.1 ht01.2.1 (c := 0) (by norm_num)
  rw [← ha0def] at ha0
  have ha1 := Uint128.addCarry_spec ha0.1 ht23.2.1 (c := 0) (by norm_num)
  rw [← ha1def] at ha1
  have hb0 := Uint128.addCarry_spec hq.2.1 ht01.1 ha0.2.1
  rw [← hb0def] at hb0
  have hb1 := Uint128.addCarry_spec hb0.1 ht23.1 ha1.2.1
  rw [← hb1def] at hb1
  have hxL := Uint128.toNat_lt hx.1
  have hxH := Uint128.toNat_lt hx.2
  have hyL := Uint128.toNat_lt hy.1
  have hyH := Uint128.toNat_lt hy.2
  have hqb : x.Hi.toNat * y.Hi.toNat ≤ (2^128 - 1) * (2^128 - 1) :=
    Nat.mul_le_mul (by omega) (by omega)
  have hq1lt := Uint128.toNat_lt hq.1
  have hq2lt := Uint128.toNat_lt hq.2.1
  have hp1lt := Uint128.toNat_lt hp.1
  have hp2lt := Uint128.toNat_lt hp.2.1
  have ht011lt := Uint128.toNat_lt ht01.1
  have ht012lt := Uint128.toNat_lt ht01.2.1
  have ht231lt := Uint128.toNat_lt ht23.1
  have ht232lt := Uint128.toNat_lt ht23.2.1
  have ha0lt := Uint128.toNat_lt ha0.1
  have ha1lt := Uint128.toNat_lt ha1.1
  have hb0lt := Uint128.toNat_lt hb0.1
  have hb1lt := Uint128.toNat_lt hb1.1
  have hexp : (x.Hi.toNat * 2^128 + x.Lo.toNat) * (y.Hi.toNat * 2^128 + y.Lo.toNat)
      = (x.Hi.toNat * y.Hi.toNat) * 2^256
        + (x.Lo.toNat * y.Hi.toNat) * 2^128
        + (x.Hi.toNat * y.Lo.toNat) * 2^128
        + x.Lo.toNat * y.Lo.toNat := by ring
  have e1 := hp.2.2
  have e2 := hq.2.2
  have e3 := ht01.2.2
  have e4 := ht23.2.2
  have e5 := ha0.2.2
  have e6 := ha1.2.2
  have e7 := hb0.2.2
  have e8 := hb1.2.2
  have hT : (q.1.toNat + (b0.2 + b1.2)) * 2^384 + b1.1.toNat * 2^256
      + a1.1.toNat * 2^128 + p.2.toNat
      = (x.Hi.toNat * 2^128 + x.Lo.toNat)
        * (y.Hi.toNat * 2^128 + y.Lo.toNat) := by
    omega
  have hprodb : (x.Hi.toNat * 2^128 + x.Lo.toNat)
      * (y.Hi.toNat * 2^128 + y.Lo.toNat) ≤ (2^256 - 1) * (2^256 - 1) :=
    Nat.mul_le_mul (by omega) (by omega)
  have htopno : q.1.toNat + (b0.2 + b1.2) < 2^128 := by omega
  have htop := Uint128.Add64_spec hq.1 (v := b0.2 + b1.2)
    (by have := hb0.2.1; have := hb1.2.1; omega)
  have htopv : (q.1.Add64 (b0.2 + b1.2)).toNat = q.1.toNat + (b0.2 + b1.2) := by
    rw [htop.2, Nat.mod_eq_of_lt htopno]
  refine ⟨⟨hb1.1, htop.1⟩, ⟨hp.2.1, ha1.1⟩, ?_⟩
  rw [htopv]
  omega

end Uint256

namespace Uint256

theorem Cmp_spec256 {u v : Uint256} (hu : u.Wf) (hv : v.Wf) :
    u.Cmp v = if v.toNat < u.toNat then 1
      else if u.toNat < v.toNat then -1 else 0 := by
  have hH := Uint128.Cmp_spec hu.2 hv.2
  have hL := Uint128.Cmp_spec hu.1 hv.1
  have huL := Uint128.toNat_lt hu.1
  have hvL := Uint128.toNat_lt hv.1
  simp only [Cmp, toNat, hH, hL]
  split_ifs <;> omega

theorem Cmp_pos_iff256 {u v : Uint256} (hu : u.Wf) (hv : v.Wf) :
    0 < u.Cmp v ↔ v.toNat < u.toNat := by
  rw [Cmp_spec256 hu hv]
  split_ifs <;> omega

theorem Cmp_nonneg_iff256 {u v : Uint256} (hu : u.Wf) (hv : v.Wf) :
    0 ≤ u.Cmp v ↔ v.toNat ≤ u.toNat := by
  rw [Cmp_spec256 hu hv]
  split_ifs <;> omega

theorem Cmp_le_zero_iff256 {u v : Uint256} (hu : u.Wf) (hv : v.Wf) :
    u.Cmp v ≤ 0 ↔ u.toNat ≤ v.toNat := by
  rw [Cmp_spec256 hu hv]
  split_ifs <;> omega

theorem Cmp_lt_zero_iff256 {u v : Uint256} (hu : u.Wf) (hv : v.Wf) :
    u.Cmp v < 0 ↔ u.toNat < v.toNat := by
  rw [Cmp_spec256 hu hv]
  split_ifs <;> omega

/-- Leading-zero count determines the dyadic bracket of the value. -/
theorem LeadingZeros_spec256 {u : Uint256} (hu : u.Wf) (h : u.toNat ≠ 0) :
    ∃ k, 1 ≤ k ∧ k ≤ 256 ∧ u.LeadingZeros = 256 - k ∧
      2^(k-1) ≤ u.toNat ∧ u.toNat < 2^k := by
  have huL := Uint128.toNat_lt hu.1
  have huH := Uint128.toNat_lt hu.2
  by_cases hH : u.Hi.toNat = 0
  · have hL : u.Lo.toNat ≠ 0 := by
      simp only [toNat] at h
      omega
    obtain ⟨k, h1, h2, h3, h4, h5⟩ := Uint128.LeadingZeros_spec hu.1 hL
    refine ⟨k, h1, by omega, ?_, ?_, ?_⟩
    · have hz : u.Hi.IsZero = true := Uint128.isZero_iff.2 hH
      simp [LeadingZeros, hz, h3]
      omega
    · simp only [toNat]
      omega
    · simp only [toNat]
      have : u.toNat = u.Lo.toNat := by
        simp only [toNat]
        omega
      omega
  · obtain ⟨k, h1, h2, h3, h4, h5⟩ := Uint128.LeadingZeros_spec hu.2 hH
    refine ⟨k + 128, by omega, by omega, ?_, ?_, ?_⟩
    · have hnz : u.Hi.IsZero = false := by
        rcases hz : u.Hi.IsZero with _ | _
        · rfl
        · exact absurd (Uint128.isZero_iff.1 hz) hH
      simp [LeadingZeros, hnz, h3]
    · have e1 : (2:ℕ)^(k + 128 - 1) = 2^(k-1) * 2^128 := by
        rw [← pow_add]
        congr 1
        omega
      have e2 : 2^(k-1) * 2^128 ≤ u.Hi.toNat * 2^128 :=
        Nat.mul_le_mul_right _ h4
      simp only [toNat]
      omega
    · have e1 : (2:ℕ)^(k + 128) = 2^k * 2^128 := by
        rw [← pow_add]
      have e2 : (u.Hi.toNat + 1) * 2^128 ≤ 2^k * 2^128 :=
        Nat.mul_le_mul_right _ (by omega)
      have e3 : (u.Hi.toNat + 1) * 2^128 = u.Hi.toNat * 2^128 + 2^128 := by
        ring
      simp only [toNat]
      omega

/-- Disjoint `Or` is addition on values. -/
theorem Or_disjoint256 {u v : Uint256} {k : Nat} (hu : u.Wf) (hv : v.Wf)
    (hk : k ≤ 256) (h1 : u.toNat % 2^k = 0) (h2 : v.toNat < 2^k) :
    (u.Or v).Wf ∧ (u.Or v).toNat = u.toNat + v.toNat := by
  have huL := Uint128.toNat_lt hu.1
  have huH := Uint128.toNat_lt hu.2
  have hvL := Uint128.toNat_lt hv.1
  have hvH := Uint128.toNat_lt hv.2
  by_cases hk128 : k ≤ 128
  · obtain ⟨e, he⟩ : (2:ℕ)^k ∣ 2^128 := pow_dvd_pow 2 hk128
    have hLo : u.Lo.toNat % 2^k = 0 := by
      have h3 : u.toNat % 2^k = u.Lo.toNat % 2^k := by
        simp only [toNat]
        rw [he, show u.Hi.toNat * (2^k * e) + u.Lo.toNat
          = u.Lo.toNat + (u.Hi.toNat * e) * 2^k from by ring,
          Nat.add_mul_mod_self_right]
      omega
    have hvHi : v.Hi.toNat = 0 := by
      have h4 : v.toNat < 2^128 := by
        calc v.toNat < 2^k := h2
          _ ≤ 2^128 := Nat.pow_le_pow_right (by norm_num) hk128
      simp only [toNat] at h4
      omega
    have hvLo : v.Lo.toNat < 2^k := by
      simp only [toNat] at h2
      omega
    have hOL := Uint128.Or_disjoint (k := k) hu.1 hv.1 hk128 hLo hvLo
    have hOH := Uint128.Or_disjoint (k := 0) hu.2 hv.2 (by omega)
      (by simp [Nat.mod_one]) (by omega)
    simp only [Or, toNat]
    rw [hOL.2, hOH.2, hvHi]
    exact ⟨⟨hOL.1, hOH.1⟩, by ring⟩
  · push_neg at hk128
    obtain ⟨e, he⟩ : (2:ℕ)^128 ∣ 2^k := pow_dvd_pow 2 (by omega)
    have hLo0 : u.Lo.toNat = 0 := by
      have h3 : u.toNat % 2^128 = 0 := by
        obtain ⟨f, hf⟩ := Nat.dvd_of_mod_eq_zero h1
        rw [hf, he, show 2^128 * e * f = (e * f) * 2^128 from by ring]
        exact Nat.mul_mod_left _ _
      simp only [toNat] at h3
      omega
    have hsplit : (2:ℕ)^k = 2^(k-128) * 2^128 := by
      rw [← pow_add]
      congr 1
      omega
    have hHi : u.Hi.toNat % 2^(k-128) = 0 := by
      obtain ⟨f, hf⟩ := Nat.dvd_of_mod_eq_zero h1
      have h5 : u.Hi.toNat * 2^128 = 2^(k-128) * 2^128 * f := by
        simp only [toNat] at hf
        rw [← hsplit]
        omega
      have h6 : u.Hi.toNat = 2^(k-128) * f := by
        have h7 : u.Hi.toNat * 2^128 = 2^(k-128) * f * 2^128 := by
          rw [h5]
          ring
        exact Nat.eq_of_mul_eq_mul_right (by positivity) h7
      rw [h6, show 2^(k-128) * f = f * 2^(k-128) from by ring]
      exact Nat.mul_mod_left _ _
    have hvHi : v.Hi.toNat < 2^(k-128) := by
      by_contra hcon
      push_neg at hcon
      have h8 : 2^(k-128) * 2^128 ≤ v.Hi.toNat * 2^128 :=
        Nat.mul_le_mul_right _ hcon
      have h9 : v.toNat < 2^(k-128) * 2^128 := by rw [← hsplit]; exact h2
      simp only [toNat] at h9
      omega
    have hOL := Uint128.Or_disjoint (k := 128) hu.1 hv.1 (by omega)
      (by rw [hLo0]; simp) (Uint128.toNat_lt hv.1)
    have hOH := Uint128.Or_disjoint (k := k - 128) hu.2 hv.2 (by omega)
      hHi hvHi
    simp only [Or, toNat]
    rw [hOL.2, hOH.2, hLo0]
    exact ⟨⟨hOL.1, hOH.1⟩, by ring⟩

end Uint256

/-- Division of a two-limb dividend by a single value, digit by digit,
for an arbitrary limb base `B`. -/
theorem twoDigitDivB {B H L v : Nat} (hv : 0 < v) :
    (H * B + L) / v = (H / v) * B + (H % v * B + L) / v ∧
    (H * B + L) % v = (H % v * B + L) % v ∧
    (L < B → (H % v * B + L) / v < B) := by
  have e1 := Nat.div_add_mod H v
  have e2 := Nat.div_add_mod (H % v * B + L) v
  have hmlt : H % v < v := Nat.mod_lt _ hv
  have key : H * B + L
      = v * ((H / v) * B + (H % v * B + L) / v)
        + (H % v * B + L) % v := by
    calc H * B + L = (v * (H/v) + H%v) * B + L := by rw [e1]
      _ = v * ((H/v) * B) + (H%v * B + L) := by ring
      _ = v * ((H/v) * B) + (v * ((H%v*B+L)/v) + (H%v*B+L)%v) := by
          rw [e2]
      _ = v * ((H/v) * B + (H%v*B+L)/v) + (H%v*B+L)%v := by ring
  obtain ⟨hq, hr⟩ := divmod_unique hv key (Nat.mod_lt _ hv)
  refine ⟨hq, hr, fun hL => ?_⟩
  rw [Nat.div_lt_iff_lt_mul hv]
  have e3 : (H % v + 1) * B = H % v * B + B := by ring
  calc H % v * B + L < (H % v + 1) * B := by omega
    _ ≤ v * B := Nat.mul_le_mul_right _ (by omega)
    _ = B * v := by ring

namespace Uint256

/-- Go method `Uint256.QuoRem128` computes the exact quotient and
remainder for a nonzero 128-bit divisor. -/
theorem QuoRem128_spec {u : Uint256} {v : Uint128} (hu : u.Wf) (hv : v.Wf)
    (hv0 : v.toNat ≠ 0) :
    (u.QuoRem128 v).1.Wf ∧ (u.QuoRem128 v).2.Wf ∧
    (u.QuoRem128 v).1.toNat = u.toNat / v.toNat ∧
    (u.QuoRem128 v).2.toNat = u.toNat % v.toNat := by
  have hZWf : Uint128.Zero.Wf := Uint128.wf_From64 (by norm_num)
  have hZv : Uint128.Zero.toNat = 0 := rfl
  have hval : u.toNat = u.Hi.toNat * 2^128 + u.Lo.toNat := rfl
  simp only [QuoRem128]
  split_ifs with hc
  · have hlt : u.Hi.toNat < v.toNat := (Uint128.Cmp_lt_zero_iff hu.2 hv).1 hc
    have hD := divCore_spec128 hu.2 hu.1 hv hv0 hlt
    refine ⟨⟨hD.1, hZWf⟩, hD.2.1, ?_, ?_⟩
    · show Uint128.Zero.toNat * 2^128 + _ = _
      rw [hZv, hD.2.2.1, hval]
      omega
    · rw [hD.2.2.2.1, hval]
  · have hge : v.toNat ≤ u.Hi.toNat := by
      have h := (Uint128.Cmp_lt_zero_iff hu.2 hv)
      omega
    have hD1 := divCore_spec128 hZWf hu.2 hv hv0 (by omega)
    have hrlt : (uint128.divCore Uint128.Zero u.Hi v).1.2.toNat < v.toNat := by
      rw [hD1.2.2.2.1]
      exact Nat.mod_lt _ (by omega)
    have hD0 := divCore_spec128 hD1.2.1 hu.1 hv hv0 hrlt
    have hq1v : (uint128.divCore Uint128.Zero u.Hi v).1.1.toNat
        = u.Hi.toNat / v.toNat := by
      rw [hD1.2.2.1, hZv]
      norm_num
    have hr1v : (uint128.divCore Uint128.Zero u.Hi v).1.2.toNat
        = u.Hi.toNat % v.toNat := by
      rw [hD1.2.2.2.1, hZv]
      norm_num
    obtain ⟨hTq, hTr, hTb⟩ :=
      twoDigitDivB (B := 2^128) (H := u.Hi.toNat) (L := u.Lo.toNat)
        (v := v.toNat) (by omega)
    refine ⟨⟨hD0.1, hD1.1⟩, hD0.2.1, ?_, ?_⟩
    · show (uint128.divCore Uint128.Zero u.Hi v).1.1.toNat * 2^128
          + (uint128.divCore (uint128.divCore Uint128.Zero u.Hi v).1.2
              u.Lo v).1.1.toNat = _
      rw [hq1v, hD0.2.2.1, hr1v, hval, hTq]
    · rw [hD0.2.2.2.1, hr1v, hval, hTr]
end Uint256

namespace Uint256

/-- Shared tail of the general-path 256-bit `QuoRem` proof: given a trial
digit within one of the true quotient, the subtract-and-correct step
produces the exact quotient and remainder. -/
theorem quoRemStep256 {u v : Uint256} {tq : Uint128} (hu : u.Wf) (hv : v.Wf)
    (hVpos : 0 < v.toNat) (hV128 : 2^128 ≤ v.toNat) (htq : tq.Wf)
    (ht1 : tq.toNat ≤ u.toNat / v.toNat)
    (ht2 : u.toNat / v.toNat ≤ tq.toNat + 1) :
    (if 0 ≤ ((u.Sub (v.Mul128 tq)).Cmp v)
      then ((From128 tq).Add128 Uint128.One, (u.Sub (v.Mul128 tq)).Sub v)
      else (From128 tq, u.Sub (v.Mul128 tq))).1.Wf ∧
    (if 0 ≤ ((u.Sub (v.Mul128 tq)).Cmp v)
      then ((From128 tq).Add128 Uint128.One, (u.Sub (v.Mul128 tq)).Sub v)
      else (From128 tq, u.Sub (v.Mul128 tq))).2.Wf ∧
    (if 0 ≤ ((u.Sub (v.Mul128 tq)).Cmp v)
      then ((From128 tq).Add128 Uint128.One, (u.Sub (v.Mul128 tq)).Sub v)
      else (From128 tq, u.Sub (v.Mul128 tq))).1.toNat = u.toNat / v.toNat ∧
    (if 0 ≤ ((u.Sub (v.Mul128 tq)).Cmp v)
      then ((From128 tq).Add128 Uint128.One, (u.Sub (v.Mul128 tq)).Sub v)
      else (From128 tq, u.Sub (v.Mul128 tq))).2.toNat = u.toNat % v.toNat := by
  have hU := toNat_lt256 hu
  have hdm := Nat.div_add_mod u.toNat v.toNat
  have hmod := Nat.mod_lt u.toNat hVpos
  have htqlt := Uint128.toNat_lt htq
  have hQlt : u.toNat / v.toNat < 2^128 := by
    rw [Nat.div_lt_iff_lt_mul hVpos]
    calc u.toNat < 2^256 := hU
      _ = 2^128 * 2^128 := by norm_num
      _ ≤ 2^128 * v.toNat := Nat.mul_le_mul_left _ hV128
  have hVtq : v.toNat * tq.toNat ≤ u.toNat := by
    have h2 : v.toNat * tq.toNat ≤ v.toNat * (u.toNat / v.toNat) :=
      Nat.mul_le_mul_left _ ht1
    omega
  have hMul := Mul128_exact hv htq (by omega)
  have hMulWf := (Mul128_spec hv htq).1
  have hSub := Sub_exact256 hu hMulWf (by omega)
  rw [hMul] at hSub
  have hSubWf := (Sub_spec256 hu hMulWf).1
  have hrlt : (u.Sub (v.Mul128 tq)).toNat < 2 * v.toNat := by
    have h3 : v.toNat * (u.toNat / v.toNat) ≤ v.toNat * (tq.toNat + 1) :=
      Nat.mul_le_mul_left _ ht2
    have h4 : v.toNat * (tq.toNat + 1) = v.toNat * tq.toNat + v.toNat := by
      ring
    omega
  have hOneWf : Uint128.One.Wf := Uint128.wf_From64 (by norm_num)
  have hOnev : Uint128.One.toNat = 1 := rfl
  split_ifs with hc
  · have hge : v.toNat ≤ (u.Sub (v.Mul128 tq)).toNat :=
      (Cmp_nonneg_iff256 hSubWf hv).1 hc
    have hA := Add128_spec (wf_From128 htq) hOneWf
    have hAv : ((From128 tq).Add128 Uint128.One).toNat = tq.toNat + 1 := by
      rw [hA.2, toNat_From128, hOnev]
      apply Nat.mod_eq_of_lt
      omega
    have hS2 := Sub_exact256 hSubWf hv hge
    have hS2Wf := (Sub_spec256 hSubWf hv).1
    have h4 : v.toNat * (tq.toNat + 1) = v.toNat * tq.toNat + v.toNat := by
      ring
    have hkey : u.toNat = v.toNat * (tq.toNat + 1)
        + (u.toNat - v.toNat * tq.toNat - v.toNat) := by omega
    obtain ⟨hQeq, hReq⟩ := divmod_unique hVpos hkey (by omega)
    refine ⟨hA.1, hS2Wf, ?_, ?_⟩
    · rw [hAv]
      omega
    · rw [hS2, hSub]
      omega
  · push_neg at hc
    have hlt2 : (u.Sub (v.Mul128 tq)).toNat < v.toNat :=
      (Cmp_lt_zero_iff256 hSubWf hv).1 (by omega)
    have hkey : u.toNat = v.toNat * tq.toNat
        + (u.toNat - v.toNat * tq.toNat) := by omega
    obtain ⟨hQeq, hReq⟩ := divmod_unique hVpos hkey (by omega)
    refine ⟨wf_From128 htq, hSubWf, ?_, ?_⟩
    · rw [toNat_From128]
      omega
    · rw [hSub]
      omega

theorem QuoRem_spec256 {u v : Uint256} (hu : u.Wf) (hv : v.Wf)
    (hv0 : v.toNat ≠ 0) :
    (u.QuoRem v).1.Wf ∧ (u.QuoRem v).2.Wf ∧
    (u.QuoRem v).1.toNat = u.toNat / v.toNat ∧
    (u.QuoRem v).2.toNat = u.toNat % v.toNat := by
  have hU := toNat_lt256 hu
  have hV := toNat_lt256 hv
  have hVpos : 0 < v.toNat := Nat.pos_of_ne_zero hv0
  by_cases hvh : v.Hi.IsZero = true
  · have hvHi0 : v.Hi.toNat = 0 := Uint128.isZero_iff.1 hvh
    have hvLo : v.toNat = v.Lo.toNat := by
      simp only [toNat]
      omega
    have hvLo0 : v.Lo.toNat ≠ 0 := by omega
    have h := QuoRem128_spec hu hv.1 hvLo0
    simp only [QuoRem, if_pos hvh]
    refine ⟨h.1, wf_From128 h.2.1, ?_, ?_⟩
    · rw [h.2.2.1, hvLo]
    · rw [toNat_From128, h.2.2.2, hvLo]
  · simp only [QuoRem, if_neg hvh]
    have hviz : v.Hi.IsZero = false := by
      rcases hb : v.Hi.IsZero with _ | _
      · rfl
      · exact absurd hb hvh
    have hvh' : v.Hi.toNat ≠ 0 := fun h0 => by
      rw [Uint128.isZero_iff.2 h0] at hviz
      exact absurd hviz (by simp)
    set n' := v.Hi.LeadingZeros with hn'def
    obtain ⟨k, hk1, hk2, hkLZ, hkl, hku⟩ := LeadingZeros_spec256 hv hv0
    have hV128 : 2^128 ≤ v.toNat := by
      have h1 : 1 ≤ v.Hi.toNat := Nat.pos_of_ne_zero hvh'
      have h2 := Nat.mul_le_mul_right (2^128) h1
      simp only [toNat]
      omega
    have hk129 : 129 ≤ k := by
      by_contra hcon
      push_neg at hcon
      have : (2:ℕ)^k ≤ 2^128 := Nat.pow_le_pow_right (by norm_num) (by omega)
      omega
    have hLZeq : v.LeadingZeros = n' := by
      simp [LeadingZeros, hviz, hn'def]
    have hn127 : n' = 256 - k := by omega
    have hn'le : n' + 1 ≤ 128 := by omega
    have hV1 : 2^(128-1) * 2^(128-n') ≤ v.toNat := by
      have e : (2:ℕ)^(128-1) * 2^(128-n') = 2^(k-1) := by
        rw [← pow_add]
        congr 1
        omega
      omega
    have hV2 : v.toNat < 2^128 * 2^(128-n') := by
      have e : (2:ℕ)^128 * 2^(128-n') = 2^k := by
        rw [← pow_add]
        congr 1
        omega
      omega
    have hTQ := trialQuotient (U := u.toNat) (V := v.toNat) (w := 128)
      (n := n') hn'le
      (by have e : (2:ℕ)^128 * 2^128 = 2^256 := by norm_num
          omega) hV1 hV2
    have hu1s := Rsh_spec256 1 hu
    have hv1s := Lsh_spec256 n' hv
    have hv1exact : (v.Lsh n').toNat = v.toNat * 2^n' := by
      rw [hv1s.2]
      apply Nat.mod_eq_of_lt
      have e : (2:ℕ)^k * 2^n' = 2^256 := by
        rw [← pow_add]
        congr 1
        omega
      calc v.toNat * 2^n' < 2^k * 2^n' :=
          (Nat.mul_lt_mul_right (Nat.two_pow_pos _)).2 hku
        _ = 2^256 := e
    have hu1split := lo_eq_toNat256 hu1s.1
    have hv1split := lo_eq_toNat256 hv1s.1
    have hv1Hi : (v.Lsh n').Hi.toNat = v.toNat * 2^n' / 2^128 := by
      rw [hv1split.2, hv1exact]
    have hv1Hi127 : 2^127 ≤ (v.Lsh n').Hi.toNat := by
      rw [hv1Hi]
      have e1 : (2:ℕ)^(k-1) * 2^n' = 2^255 := by
        rw [← pow_add]
        congr 1
        omega
      have e2 : (2:ℕ)^255 ≤ v.toNat * 2^n' := by
        calc (2:ℕ)^255 = 2^(k-1) * 2^n' := e1.symm
          _ ≤ v.toNat * 2^n' := Nat.mul_le_mul_right _ hkl
      have e3 : (2:ℕ)^255 = 2^127 * 2^128 := by norm_num
      rw [Nat.le_div_iff_mul_le (by positivity)]
      omega
    have hu1Hi : (u.Rsh 1).Hi.toNat < 2^127 := by
      rw [hu1split.2, hu1s.2, divPow_div]
      rw [Nat.div_lt_iff_lt_mul (by positivity)]
      calc u.toNat < 2^256 := hU
        _ ≤ 2^127 * 2^(1+128) := by norm_num
    have hDC := divCore_spec128 hu1s.1.2 hu1s.1.1 hv1s.1.2
      (by omega) (by omega)
    have hsum : (u.Rsh 1).Hi.toNat * 2^128 + (u.Rsh 1).Lo.toNat
        = (u.Rsh 1).toNat := rfl
    have htq0v : (uint128.divCore (u.Rsh 1).Hi (u.Rsh 1).Lo
        (v.Lsh n').Hi).1.1.toNat
        = (u.toNat / 2^1) / (v.toNat * 2^n' / 2^128) := by
      rw [hDC.2.2.1, hsum, hu1s.2, hv1Hi]
    have hTq1Wf := (Uint128.Rsh_spec (127 - n') hDC.1).1
    have htq1 : ((uint128.divCore (u.Rsh 1).Hi (u.Rsh 1).Lo
        (v.Lsh n').Hi).1.1.Rsh (127 - n')).toNat
        = u.toNat / (2^(128-n') * (v.toNat / 2^(128-n'))) := by
      rw [(Uint128.Rsh_spec (127 - n') hDC.1).2, htq0v,
        mulPow_div _ (show n' ≤ 128 by omega), Nat.div_div_eq_div_mul,
        Nat.div_div_eq_div_mul]
      congr 1
      rw [show (2:ℕ)^(128-n') = 2^1 * 2^(127-n') from by
        rw [← pow_add]; congr 1; omega]
      ring
    obtain ⟨hT1, hT2⟩ := hTQ
    by_cases hz : ((uint128.divCore (u.Rsh 1).Hi (u.Rsh 1).Lo
        (v.Lsh n').Hi).1.1.Rsh (127 - n')).IsZero = false
    · rw [if_pos hz]
      have hnz : ((uint128.divCore (u.Rsh 1).Hi (u.Rsh 1).Lo
          (v.Lsh n').Hi).1.1.Rsh (127 - n')).toNat ≠ 0 := fun h0 => by
        rw [Uint128.isZero_iff.2 h0] at hz
        exact absurd hz (by simp)
      have hS := Uint128.Sub64_spec hTq1Wf (v := 1) (by norm_num)
      have hT1lt := Uint128.toNat_lt hTq1Wf
      have hSval : (((uint128.divCore (u.Rsh 1).Hi (u.Rsh 1).Lo
          (v.Lsh n').Hi).1.1.Rsh (127 - n')).Sub64 1).toNat
          = ((uint128.divCore (u.Rsh 1).Hi (u.Rsh 1).Lo
          (v.Lsh n').Hi).1.1.Rsh (127 - n')).toNat - 1 := by
        rw [hS.2]
        omega
      refine quoRemStep256 hu hv hVpos hV128 hS.1 ?_ ?_
      · rw [hSval, htq1]
        rw [Nat.sub_le_iff_le_add]
        exact hT2
      · rw [hSval, htq1]
        rw [Nat.sub_add_cancel]
        · exact hT1
        · rw [htq1] at hnz
          exact Nat.one_le_iff_ne_zero.2 hnz
    · rw [if_neg hz]
      have hz0 : ((uint128.divCore (u.Rsh 1).Hi (u.Rsh 1).Lo
          (v.Lsh n').Hi).1.1.Rsh (127 - n')).toNat = 0 := by
        rcases hb : ((uint128.divCore (u.Rsh 1).Hi (u.Rsh 1).Lo
            (v.Lsh n').Hi).1.1.Rsh (127 - n')).IsZero with _ | _
        · exact absurd hb hz
        · exact Uint128.isZero_iff.1 hb
      refine quoRemStep256 hu hv hVpos hV128 hTq1Wf ?_ ?_
      · rw [hz0]
        exact Nat.zero_le _
      · rw [htq1]
        exact Nat.le_succ_of_le hT1

end Uint256

/-- The concrete correction loop of `uint256.Div` computes the abstract
correction loop on values (with digit base `2^128`), including the
iteration count. -/
theorem divLoop_bridge256 (yHi yLo uDig : Uint128) (hyHi : yHi.Wf)
    (hyLo : yLo.Wf) (huDig : uDig.Wf) :
    ∀ fuel (q1 r1 : Uint256), q1.Wf → r1.Hi.toNat = 0 → r1.Lo.Wf →
      (uint256.divLoop yHi yLo uDig fuel q1 r1).1.Wf ∧
      (uint256.divLoop yHi yLo uDig fuel q1 r1).1.toNat
        = (knuthLoop (2^128) yHi.toNat yLo.toNat uDig.toNat fuel
            q1.toNat r1.Lo.toNat).1 ∧
      (uint256.divLoop yHi yLo uDig fuel q1 r1).2.1.toNat
        = (knuthLoop (2^128) yHi.toNat yLo.toNat uDig.toNat fuel
            q1.toNat r1.Lo.toNat).2.1 ∧
      (uint256.divLoop yHi yLo uDig fuel q1 r1).2.2
        = (knuthLoop (2^128) yHi.toNat yLo.toNat uDig.toNat fuel
            q1.toNat r1.Lo.toNat).2.2 := by
  have hyHilt := Uint128.toNat_lt hyHi
  have hyLolt := Uint128.toNat_lt hyLo
  have huDiglt := Uint128.toNat_lt huDig
  intro fuel
  induction fuel with
  | zero =>
    intro q1 r1 hq hr1 hr2
    simp only [uint256.divLoop, knuthLoop]
    refine ⟨hq, trivial, ?_, trivial⟩
    simp [Uint256.toNat, hr1]
  | succ n ih =>
    intro q1 r1 hq hr1 hr2
    have hZeroWf : Uint128.Zero.Wf := Uint128.wf_From64 (by norm_num)
    have hwrHi : r1.Hi.Wf := by
      constructor
      · have := Uint128.toNat_eq_zero_iff.1 hr1
        simp only [this.1]
        norm_num
      · have := Uint128.toNat_eq_zero_iff.1 hr1
        simp only [this.2]
        norm_num
    have hwr : r1.Wf := ⟨hr2, hwrHi⟩
    have hrval : r1.toNat = r1.Lo.toNat := by
      simp only [Uint256.toNat]
      omega
    have hr2lt := Uint128.toNat_lt hr2
    have hqlt := Uint256.toNat_lt256 hq
    have hqLolt := Uint128.toNat_lt hq.1
    have hqHi : q1.Hi.IsZero = false ↔ 2^128 ≤ q1.toNat := by
      constructor
      · intro h
        have h0 : q1.Hi.toNat ≠ 0 := fun hz => by
          rw [Uint128.isZero_iff.2 hz] at h
          exact absurd h (by simp)
        simp only [Uint256.toNat]
        have h1 : 1 ≤ q1.Hi.toNat := Nat.pos_of_ne_zero h0
        have h2 := Nat.mul_le_mul_right (2^128) h1
        omega
      · intro h
        have h0 : q1.Hi.toNat ≠ 0 := by
          intro hz
          simp only [Uint256.toNat, hz] at h
          omega
        rcases hb : q1.Hi.IsZero with _ | _
        · rfl
        · exact absurd (Uint128.isZero_iff.1 hb) h0
    have hDWf : (Uint256.mk uDig r1.Lo).Wf := ⟨huDig, hr2⟩
    have hDval : (Uint256.mk uDig r1.Lo).toNat
        = r1.Lo.toNat * 2^128 + uDig.toNat := rfl
    have hcnd : (q1.Hi.IsZero = false ∨ 0 < (q1.Mul128 yLo).Cmp ⟨uDig, r1.Lo⟩)
        ↔ (2^128 ≤ q1.toNat
            ∨ r1.Lo.toNat * 2^128 + uDig.toNat < q1.toNat * yLo.toNat) := by
      by_cases hHi : q1.Hi.IsZero = false
      · constructor
        · intro _
          exact Or.inl (hqHi.1 hHi)
        · intro _
          exact Or.inl hHi
      · have hqs : q1.toNat < 2^128 := by
          by_contra hcon
          push_neg at hcon
          exact hHi (hqHi.2 hcon)
        have hprod : q1.toNat * yLo.toNat < 2^256 := by
          calc q1.toNat * yLo.toNat ≤ (2^128-1) * (2^128-1) :=
                Nat.mul_le_mul (by omega) (by omega)
            _ < 2^256 := by norm_num
        have hMe := Uint256.Mul128_exact hq hyLo hprod
        have hMwf := (Uint256.Mul128_spec hq hyLo).1
        have hCmp := Uint256.Cmp_pos_iff256 hMwf hDWf
        rw [hMe, hDval] at hCmp
        constructor
        · intro h
          rcases h with h | h
          · exact absurd h hHi
          · exact Or.inr (hCmp.1 h)
        · intro h
          rcases h with h | h
          · exact absurd h (by omega)
          · exact Or.inr (hCmp.2 h)
    simp only [uint256.divLoop, knuthLoop]
    by_cases hc : q1.Hi.IsZero = false ∨ 0 < (q1.Mul128 yLo).Cmp ⟨uDig, r1.Lo⟩
    · rw [if_pos hc, if_pos (hcnd.1 hc)]
      have hq1 : 1 ≤ q1.toNat := by
        rcases hcnd.1 hc with h | h
        · omega
        · by_contra hz
          push_neg at hz
          have hz0 : q1.toNat = 0 := by omega
          rw [hz0, Nat.zero_mul] at h
          omega
      have hOneWf : Uint128.One.Wf := Uint128.wf_From64 (by norm_num)
      have hSub := Uint256.Sub128_spec hq hOneWf
      have hOnev : Uint128.One.toNat = 1 := rfl
      have hq2 : (q1.Sub128 Uint128.One).toNat = q1.toNat - 1 := by
        rw [hSub.2, hOnev]
        omega
      have hAdd := Uint256.Add128_spec hwr hyHi
      have hr2v : (r1.Add128 yHi).toNat = r1.Lo.toNat + yHi.toNat := by
        rw [hAdd.2, hrval]
        omega
      have hsplit := Uint256.lo_eq_toNat256 hAdd.1
      have hr2Hi : (r1.Add128 yHi).Hi.toNat
          = (r1.Lo.toNat + yHi.toNat) / 2^128 := by
        rw [hsplit.2, hr2v]
      have hr2Lo : (r1.Add128 yHi).Lo.toNat
          = (r1.Lo.toNat + yHi.toNat) % 2^128 := by
        rw [hsplit.1, hr2v]
      by_cases hbr : (r1.Add128 yHi).Hi.IsZero = false
      · rw [if_pos hbr]
        have hbrNe : (r1.Add128 yHi).Hi.toNat ≠ 0 := fun hz => by
          rw [Uint128.isZero_iff.2 hz] at hbr
          exact absurd hbr (by simp)
        have habs : 2^128 ≤ r1.Lo.toNat + yHi.toNat := by
          rw [hr2Hi] at hbrNe
          omega
        rw [if_pos habs]
        exact ⟨hSub.1, hq2, hr2v, rfl⟩
      · rw [if_neg hbr]
        have hbr0 : (r1.Add128 yHi).Hi.toNat = 0 := by
          rcases hb : (r1.Add128 yHi).Hi.IsZero with _ | _
          · exact absurd hb hbr
          · exact Uint128.isZero_iff.1 hb
        have hlt : r1.Lo.toNat + yHi.toNat < 2^128 := by
          rw [hr2Hi] at hbr0
          omega
        rw [if_neg (by omega : ¬ 2^128 ≤ r1.Lo.toNat + yHi.toNat)]
        have hLoe : (r1.Add128 yHi).Lo.toNat = r1.Lo.toNat + yHi.toNat := by
          rw [hr2Lo]
          omega
        have hrec := ih (q1.Sub128 Uint128.One) (r1.Add128 yHi) hSub.1
          hbr0 hAdd.1.1
        rw [hq2, hLoe] at hrec
        exact ⟨hrec.1, hrec.2.1, hrec.2.2.1, by rw [hrec.2.2.2]⟩
    · rw [if_neg hc, if_neg (fun h => hc (hcnd.2 h))]
      refine ⟨hq, rfl, by rw [hrval], rfl⟩

/-- One Knuth digit step of `uint256.Div`: the trial division by the top
limb followed by the 4-fuel correction loop produces exactly the next
128-bit quotient digit, in at most two corrections. -/
theorem digitStep256 (yn u : Uint256) (dig : Uint128) (hyn : yn.Wf)
    (hu : u.Wf) (hnorm : 2^255 ≤ yn.toNat) (hlt : u.toNat < yn.toNat)
    (hdig : dig.Wf) :
    (uint256.divLoop yn.Hi yn.Lo dig 4 (u.QuoRem128 yn.Hi).1
      (Uint256.From128 (u.QuoRem128 yn.Hi).2)).1.Wf ∧
    (uint256.divLoop yn.Hi yn.Lo dig 4 (u.QuoRem128 yn.Hi).1
      (Uint256.From128 (u.QuoRem128 yn.Hi).2)).1.toNat
      = (u.toNat * 2^128 + dig.toNat) / yn.toNat ∧
    (u.toNat * 2^128 + dig.toNat) / yn.toNat < 2^128 ∧
    (uint256.divLoop yn.Hi yn.Lo dig 4 (u.QuoRem128 yn.Hi).1
      (Uint256.From128 (u.QuoRem128 yn.Hi).2)).2.2 ≤ 2 := by
  have hv0lt := Uint128.toNat_lt hyn.1
  have hv1lt := Uint128.toNat_lt hyn.2
  have hdiglt := Uint128.toNat_lt hdig
  have hyval : yn.toNat = yn.Hi.toNat * 2^128 + yn.Lo.toNat := rfl
  have hv1pos : 2^127 ≤ yn.Hi.toNat := by
    by_contra hcon
    push_neg at hcon
    have h1 : yn.Hi.toNat * 2^128 ≤ (2^127 - 1) * 2^128 :=
      Nat.mul_le_mul_right _ (by omega)
    omega
  have hnorm' : 2^128 ≤ 2 * yn.Hi.toNat := by omega
  have hP := Uint256.QuoRem128_spec hu hyn.2 (by omega)
  have hqT := knuthInit_close (2^128) yn.Hi.toNat yn.Lo.toNat dig.toNat
    u.toNat hnorm' (by omega) hv0lt hdiglt (by omega)
  obtain ⟨qT, hqTdef⟩ :
      ∃ t, (u.toNat * 2^128 + dig.toNat)
        / (yn.Hi.toNat * 2^128 + yn.Lo.toNat) = t := ⟨_, rfl⟩
  obtain ⟨q0v, hq0def⟩ : ∃ t, u.toNat / yn.Hi.toNat = t := ⟨_, rfl⟩
  obtain ⟨r0v, hr0def⟩ : ∃ t, u.toNat % yn.Hi.toNat = t := ⟨_, rfl⟩
  rw [hqTdef, hq0def] at hqT
  have hdm := Nat.div_add_mod u.toNat yn.Hi.toNat
  rw [hq0def, hr0def] at hdm
  have hr0lt : r0v < yn.Hi.toNat := by
    rw [← hr0def]
    exact Nat.mod_lt _ (by omega)
  have hinv : q0v * yn.Hi.toNat + r0v = u.toNat := by
    rw [Nat.mul_comm]
    omega
  have hKL := knuthLoop_spec (2^128) yn.Hi.toNat yn.Lo.toNat dig.toNat
    u.toNat (by omega) hv0lt hdiglt (by omega) 4 q0v r0v hinv (by omega)
    (by omega)
  rw [hqTdef] at hKL
  have hFrHiZ : ∀ x : Uint128, (Uint256.From128 x).Hi = Uint128.Zero :=
    fun x => rfl
  have hZv : Uint128.Zero.toNat = 0 := Uint128.toNat_From64 0
  have hFrHi : (Uint256.From128 (u.QuoRem128 yn.Hi).2).Hi.toNat = 0 := by
    rw [hFrHiZ, hZv]
  have hFrLoE : ∀ x : Uint128, (Uint256.From128 x).Lo = x := fun x => rfl
  have hFrLo := hFrLoE (u.QuoRem128 yn.Hi).2
  have hBR := divLoop_bridge256 yn.Hi yn.Lo dig
    hyn.2 hyn.1 hdig 4 (u.QuoRem128 yn.Hi).1
    (Uint256.From128 (u.QuoRem128 yn.Hi).2) hP.1 hFrHi
    (by rw [hFrLo]; exact hP.2.1)
  have hLoF : (Uint256.From128 (u.QuoRem128 yn.Hi).2).Lo.toNat = r0v := by
    rw [hFrLo, hP.2.2.2, hr0def]
  have hq1N : (u.QuoRem128 yn.Hi).1.toNat = q0v := by
    rw [hP.2.2.1, hq0def]
  rw [hLoF, hq1N, hKL] at hBR
  have hqTb : qT < 2^128 := by
    rw [← hqTdef]
    have hpos : 0 < yn.Hi.toNat * 2^128 + yn.Lo.toNat := by omega
    rw [Nat.div_lt_iff_lt_mul hpos]
    calc u.toNat * 2^128 + dig.toNat < (u.toNat + 1) * 2^128 := by omega
      _ ≤ (yn.Hi.toNat * 2^128 + yn.Lo.toNat) * 2^128 := by
          apply Nat.mul_le_mul_right
          rw [hyval] at hlt
          omega
      _ = 2^128 * (yn.Hi.toNat * 2^128 + yn.Lo.toNat) := by ring
  have hval : (uint256.divLoop yn.Hi yn.Lo dig 4 (u.QuoRem128 yn.Hi).1
      (Uint256.From128 (u.QuoRem128 yn.Hi).2)).1.toNat = qT := hBR.2.1
  have hcnt : (uint256.divLoop yn.Hi yn.Lo dig 4 (u.QuoRem128 yn.Hi).1
      (Uint256.From128 (u.QuoRem128 yn.Hi).2)).2.2 = q0v - qT := hBR.2.2.2
  rw [hyval, hqTdef]
  exact ⟨hBR.1, hval, hqTb, by omega⟩

/-- Full correctness of the body of `uint256.Div`: exact quotient and
remainder of the 512-bit dividend, with both correction loops executing
at most two iterations. -/
theorem divCore_spec256 {hi lo y : Uint256} (hhi : hi.Wf) (hlo : lo.Wf)
    (hy : y.Wf) (hy0 : y.toNat ≠ 0) (hlt : hi.toNat < y.toNat) :
    (uint256.divCore hi lo y).1.1.Wf ∧
    (uint256.divCore hi lo y).1.2.Wf ∧
    (uint256.divCore hi lo y).1.1.toNat
      = (hi.toNat * 2^256 + lo.toNat) / y.toNat ∧
    (uint256.divCore hi lo y).1.2.toNat
      = (hi.toNat * 2^256 + lo.toNat) % y.toNat ∧
    (uint256.divCore hi lo y).2.1 ≤ 2 ∧
    (uint256.divCore hi lo y).2.2 ≤ 2 := by
  obtain ⟨k, hk1, hk2, hkLZ, hkl, hku⟩ := Uint256.LeadingZeros_spec256 hy hy0
  have hsplit : (2:ℕ)^k * 2^(256-k) = 2^256 := by
    rw [← pow_add]
    congr 1
    omega
  have hSpos : (0:ℕ) < 2^(256-k) := by positivity
  have hKpos : (0:ℕ) < 2^k := by positivity
  have hhiv := Uint256.toNat_lt256 hhi
  have hlov := Uint256.toNat_lt256 hlo
  have hyvlt := Uint256.toNat_lt256 hy
  simp only [uint256.divCore]
  rw [hkLZ, show 256 - (256 - k) = k from by omega]
  -- opaque names for the pipeline stages
  obtain ⟨yn, hyndef⟩ : ∃ t, y.Lsh (256 - k) = t := ⟨_, rfl⟩
  rw [hyndef]
  obtain ⟨u32, hu32def⟩ : ∃ t, (hi.Lsh (256 - k)).Or (lo.Rsh k) = t :=
    ⟨_, rfl⟩
  rw [hu32def]
  obtain ⟨u10, hu10def⟩ : ∃ t, lo.Lsh (256 - k) = t := ⟨_, rfl⟩
  rw [hu10def]
  -- the normalized divisor
  have hynS := Uint256.Lsh_spec256 (256 - k) hy
  rw [hyndef] at hynS
  have hynWf : yn.Wf := hynS.1
  have hynv : yn.toNat = y.toNat * 2^(256-k) := by
    rw [hynS.2, Nat.mod_eq_of_lt]
    calc y.toNat * 2^(256-k) < 2^k * 2^(256-k) :=
          (Nat.mul_lt_mul_right hSpos).2 hku
      _ = 2^256 := hsplit
  have hynlo : 2^255 ≤ yn.toNat := by
    rw [hynv]
    calc (2:ℕ)^255 = 2^(k-1) * 2^(256-k) := by
          rw [← pow_add]
          congr 1
          omega
      _ ≤ y.toNat * 2^(256-k) := Nat.mul_le_mul_right _ hkl
  have hynpos : 0 < yn.toNat := by omega
  have hynlt := Uint256.toNat_lt256 hynWf
  -- the shifted dividend pieces
  have hhiLS := Uint256.Lsh_spec256 (256 - k) hhi
  have hhiLv : (hi.Lsh (256-k)).toNat = hi.toNat * 2^(256-k) := by
    rw [hhiLS.2, Nat.mod_eq_of_lt]
    calc hi.toNat * 2^(256-k) < 2^k * 2^(256-k) :=
          (Nat.mul_lt_mul_right hSpos).2 (by omega)
      _ = 2^256 := hsplit
  obtain ⟨lq, hlq⟩ : ∃ t, lo.toNat / 2^k = t := ⟨_, rfl⟩
  have hloRS := Uint256.Rsh_spec256 k hlo
  have hloRv : (lo.Rsh k).toNat = lq := by
    rw [hloRS.2, hlq]
  have hloRlt : (lo.Rsh k).toNat < 2^(256-k) := by
    rw [hloRS.2, Nat.div_lt_iff_lt_mul hKpos]
    calc lo.toNat < 2^256 := hlov
      _ = 2^k * 2^(256-k) := hsplit.symm
      _ = 2^(256-k) * 2^k := by ring
  have hOr := Uint256.Or_disjoint256 (k := 256 - k) hhiLS.1 hloRS.1
    (by omega) (by rw [hhiLv]; exact Nat.mul_mod_left _ _) hloRlt
  rw [hu32def] at hOr
  have hu32Wf : u32.Wf := hOr.1
  have hu32v : u32.toNat = hi.toNat * 2^(256-k) + lq := by
    rw [hOr.2, hhiLv, hloRv]
  have hu32lt' := Uint256.toNat_lt256 hu32Wf
  have hu10S := Uint256.Lsh_spec256 (256 - k) hlo
  rw [hu10def] at hu10S
  have hu10Wf : u10.Wf := hu10S.1
  have hu10v : u10.toNat = lo.toNat * 2^(256-k) % 2^256 := hu10S.2
  have hu10val : u10.toNat = u10.Hi.toNat * 2^128 + u10.Lo.toNat := rfl
  have ha1lt : u10.Hi.toNat < 2^128 := Uint128.toNat_lt hu10Wf.2
  have ha0lt : u10.Lo.toNat < 2^128 := Uint128.toNat_lt hu10Wf.1
  -- decomposition of the normalized dividend
  have hdivls : lo.toNat * 2^(256-k) / 2^256 = lq := by
    rw [← hsplit, Nat.mul_div_mul_right _ _ hSpos, hlq]
  have hdm10 := Nat.div_add_mod (lo.toNat * 2^(256-k)) (2^256)
  rw [hdivls] at hdm10
  have hN' : (hi.toNat * 2^256 + lo.toNat) * 2^(256-k)
      = (hi.toNat * 2^(256-k) + lq) * 2^256
        + lo.toNat * 2^(256-k) % 2^256 := by
    have e1 : (hi.toNat * 2^256 + lo.toNat) * 2^(256-k)
        = hi.toNat * 2^(256-k) * 2^256 + lo.toNat * 2^(256-k) := by ring
    have e2 : (hi.toNat * 2^(256-k) + lq) * 2^256
        = hi.toNat * 2^(256-k) * 2^256 + 2^256 * lq := by ring
    omega
  -- the top chunk is below the normalized divisor
  have hu32lt : u32.toNat < yn.toNat := by
    rw [hu32v, hynv]
    have h1 : hi.toNat * 2^256 + lo.toNat < y.toNat * 2^256 := by
      have h2 : (hi.toNat + 1) * 2^256 ≤ y.toNat * 2^256 :=
        Nat.mul_le_mul_right _ (by omega)
      have h3 : (hi.toNat + 1) * 2^256 = hi.toNat * 2^256 + 2^256 := by ring
      omega
    have h5 : (hi.toNat * 2^256 + lo.toNat) * 2^(256-k)
        < (y.toNat * 2^256) * 2^(256-k) :=
      (Nat.mul_lt_mul_right hSpos).2 h1
    have h6 : (y.toNat * 2^256) * 2^(256-k)
        = y.toNat * 2^(256-k) * 2^256 := by ring
    by_contra hcon
    push_neg at hcon
    have h7 : y.toNat * 2^(256-k) * 2^256
        ≤ (hi.toNat * 2^(256-k) + lq) * 2^256 :=
      Nat.mul_le_mul_right _ hcon
    have h8 : (hi.toNat * 2^(256-k) + lq) * 2^256
        = hi.toNat * 2^(256-k) * 2^256 + lq * 2^256 := by ring
    omega
  -- first quotient digit
  have hD1 := digitStep256 yn u32 u10.Hi hynWf hu32Wf hynlo hu32lt
    hu10Wf.2
  obtain ⟨t1, ht1def⟩ : ∃ t, uint256.divLoop yn.Hi yn.Lo u10.Hi 4
      (u32.QuoRem128 yn.Hi).1
      (Uint256.From128 (u32.QuoRem128 yn.Hi).2) = t := ⟨_, rfl⟩
  rw [ht1def] at hD1 ⊢
  obtain ⟨qT1, hqT1⟩ :
      ∃ t, (u32.toNat * 2^128 + u10.Hi.toNat) / yn.toNat = t := ⟨_, rfl⟩
  rw [hqT1] at hD1
  have hdmD1 := Nat.div_add_mod (u32.toNat * 2^128 + u10.Hi.toNat) yn.toNat
  obtain ⟨R1, hR1⟩ :
      ∃ t, (u32.toNat * 2^128 + u10.Hi.toNat) % yn.toNat = t := ⟨_, rfl⟩
  rw [hqT1, hR1] at hdmD1
  have hR1lt : R1 < yn.toNat := by
    rw [← hR1]
    exact Nat.mod_lt _ hynpos
  -- the middle remainder chunk
  have hSub1 := Uint256.Sub_spec256 (u := Uint256.mk u10.Hi u32.Lo)
    ⟨hu10Wf.2, hu32Wf.1⟩ (Uint256.Mul_spec256 hD1.1 hynWf).1
  obtain ⟨u21, hu21def⟩ :
      ∃ t, (Uint256.mk u10.Hi u32.Lo).Sub (t1.1.Mul yn) = t := ⟨_, rfl⟩
  rw [hu21def] at hSub1 ⊢
  have hu21v : u21.toNat = R1 := by
    have hMul1v : (t1.1.Mul yn).toNat = qT1 * yn.toNat % 2^256 := by
      rw [(Uint256.Mul_spec256 hD1.1 hynWf).2, hD1.2.1]
    have hval := hSub1.2
    rw [hMul1v] at hval
    have hHv : (Uint256.mk u10.Hi u32.Lo).toNat
        = u32.Lo.toNat * 2^128 + u10.Hi.toNat := rfl
    rw [hHv] at hval
    have hc1 : yn.toNat * qT1 = qT1 * yn.toNat := Nat.mul_comm _ _
    have hLo32 := (Uint256.lo_eq_toNat256 hu32Wf).1
    omega
  -- second quotient digit
  have hD0 := digitStep256 yn u21 u10.Lo hynWf hSub1.1 hynlo
    (by rw [hu21v]; exact hR1lt) hu10Wf.1
  obtain ⟨t0, ht0def⟩ : ∃ t, uint256.divLoop yn.Hi yn.Lo u10.Lo 4
      (u21.QuoRem128 yn.Hi).1
      (Uint256.From128 (u21.QuoRem128 yn.Hi).2) = t := ⟨_, rfl⟩
  rw [ht0def] at hD0 ⊢
  obtain ⟨qT0, hqT0⟩ :
      ∃ t, (u21.toNat * 2^128 + u10.Lo.toNat) / yn.toNat = t := ⟨_, rfl⟩
  rw [hqT0] at hD0
  have hdmD0 := Nat.div_add_mod (u21.toNat * 2^128 + u10.Lo.toNat) yn.toNat
  obtain ⟨R0, hR0⟩ :
      ∃ t, (u21.toNat * 2^128 + u10.Lo.toNat) % yn.toNat = t := ⟨_, rfl⟩
  rw [hqT0, hR0] at hdmD0
  have hR0lt : R0 < yn.toNat := by
    rw [← hR0]
    exact Nat.mod_lt _ hynpos
  rw [hu21v] at hdmD0
  -- the low remainder chunk
  have hSub0 := Uint256.Sub_spec256 (u := Uint256.mk u10.Lo u21.Lo)
    ⟨hu10Wf.1, hSub1.1.1⟩ (Uint256.Mul_spec256 hD0.1 hynWf).1
  obtain ⟨remi, hremidef⟩ :
      ∃ t, (Uint256.mk u10.Lo u21.Lo).Sub (t0.1.Mul yn) = t := ⟨_, rfl⟩
  rw [hremidef] at hSub0 ⊢
  have hremv : remi.toNat = R0 := by
    have hMul0v : (t0.1.Mul yn).toNat = qT0 * yn.toNat % 2^256 := by
      rw [(Uint256.Mul_spec256 hD0.1 hynWf).2, hD0.2.1]
    have hval := hSub0.2
    rw [hMul0v] at hval
    have hHv : (Uint256.mk u10.Lo u21.Lo).toNat
        = u21.Lo.toNat * 2^128 + u10.Lo.toNat := rfl
    rw [hHv] at hval
    have hc0 : yn.toNat * qT0 = qT0 * yn.toNat := Nat.mul_comm _ _
    have hLo21 := (Uint256.lo_eq_toNat256 hSub1.1).1
    have hu21lt := Uint256.toNat_lt256 hSub1.1
    omega
  -- global quotient/remainder identity for the normalized pair
  have hGlob : (hi.toNat * 2^256 + lo.toNat) * 2^(256-k)
      = yn.toNat * (qT1 * 2^128 + qT0) + R0 := by
    have e1 : yn.toNat * (qT1 * 2^128 + qT0)
        = yn.toNat * qT1 * 2^128 + yn.toNat * qT0 := by ring
    omega
  obtain ⟨hQdiv, hQmod⟩ := divmod_unique hynpos hGlob hR0lt
  have hdivfin : (hi.toNat * 2^256 + lo.toNat) * 2^(256-k) / yn.toNat
      = (hi.toNat * 2^256 + lo.toNat) / y.toNat := by
    rw [hynv]
    exact Nat.mul_div_mul_right _ _ hSpos
  have hmodfin : (hi.toNat * 2^256 + lo.toNat) * 2^(256-k) % yn.toNat
      = (hi.toNat * 2^256 + lo.toNat) % y.toNat * 2^(256-k) := by
    rw [hynv]
    exact Nat.mul_mod_mul_right _ _ _
  have hQ : qT1 * 2^128 + qT0
      = (hi.toNat * 2^256 + lo.toNat) / y.toNat := by
    rw [← hdivfin, hQdiv]
  have hRfin : R0
      = (hi.toNat * 2^256 + lo.toNat) % y.toNat * 2^(256-k) := by
    rw [← hmodfin, hQmod]
  -- assemble the six conclusions
  have hq1Lo : t1.1.Lo.toNat = qT1 := by
    have h := (Uint256.lo_eq_toNat256 hD1.1).1
    rw [hD1.2.1, Nat.mod_eq_of_lt hD1.2.2.1] at h
    exact h
  have hq0Lo : t0.1.Lo.toNat = qT0 := by
    have h := (Uint256.lo_eq_toNat256 hD0.1).1
    rw [hD0.2.1, Nat.mod_eq_of_lt hD0.2.2.1] at h
    exact h
  have hRsh := Uint256.Rsh_spec256 (256 - k) hSub0.1
  refine ⟨⟨?_, ?_⟩, hRsh.1, ?_, ?_, hD1.2.2.2, hD0.2.2.2⟩
  · exact hD0.1.1
  · exact hD1.1.1
  · show t1.1.Lo.toNat * 2^128 + t0.1.Lo.toNat = _
    rw [hq1Lo, hq0Lo, hQ]
  · rw [hRsh.2, hremv, hRfin, Nat.mul_div_cancel _ hSpos]

/-! ### Error paths of the division entry points -/

/-- `uint128.Div` panics with divide-by-zero on a zero divisor. -/
theorem div128_zero (hi lo : Uint128) {y : Uint128} (h : y.toNat = 0) :
    uint128.Div hi lo y = .error .divideByZero := by
  obtain ⟨h1, h2⟩ := Uint128.toNat_eq_zero_iff.1 h
  simp [uint128.Div, Uint128.IsZero, h1, h2]

/-- `uint128.Div` panics with overflow when the divisor is nonzero but
not greater than the high half. -/
theorem div128_overflow {hi y : Uint128} (lo : Uint128) (hhi : hi.Wf)
    (hy : y.Wf) (h0 : y.toNat ≠ 0) (hle : y.toNat ≤ hi.toNat) :
    uint128.Div hi lo y = .error .overflow := by
  have hz : y.IsZero = false := by
    rcases hb : y.IsZero with _ | _
    · rfl
    · exact absurd (Uint128.isZero_iff.1 hb) h0
  have hc : y.Cmp hi ≤ 0 := (Uint128.Cmp_le_zero_iff hy hhi).2 hle
  simp [uint128.Div, hz, hc]

/-- `uint256.Div` panics with divide-by-zero on a zero divisor. -/
theorem div256_zero (hi lo : Uint256) {y : Uint256} (h : y.toNat = 0) :
    uint256.Div hi lo y = .error .divideByZero := by
  have hLo : y.Lo.toNat = 0 ∧ y.Hi.toNat = 0 := by
    simp only [Uint256.toNat] at h
    omega
  have hz : y.IsZero = true := by
    simp [Uint256.IsZero, Uint128.isZero_iff, hLo.1, hLo.2]
  simp [uint256.Div, hz]

/-- `uint256.Div` panics with overflow when the divisor is nonzero but
not greater than the high half. -/
theorem div256_overflow {hi y : Uint256} (lo : Uint256) (hhi : hi.Wf)
    (hy : y.Wf) (h0 : y.toNat ≠ 0) (hle : y.toNat ≤ hi.toNat) :
    uint256.Div hi lo y = .error .overflow := by
  have hz : y.IsZero = false := by
    rcases hb : y.IsZero with _ | _
    · rfl
    · exact absurd (Uint256.isZero_iff256.1 hb) h0
  have hc : y.Cmp hi ≤ 0 := (Uint256.Cmp_le_zero_iff256 hy hhi).2 hle
  simp [uint256.Div, hz, hc]

/-- `Uint128.QuoRem64` reaches the `bits.Div64` divide-by-zero panic on a
zero divisor. -/
theorem quoRem64E_zero (u : Uint128) :
    u.QuoRem64E 0 = .error .divideByZero := by
  simp only [Uint128.QuoRem64E, div64E]
  rw [if_neg (Nat.not_lt_zero u.Hi)]
  rw [if_pos trivial]
  rfl

/-- `Uint128.QuoRem` reaches the `bits.Div64` divide-by-zero panic on a
zero divisor. -/
theorem quoRemE128_zero (u : Uint128) {v : Uint128} (h : v.toNat = 0) :
    u.QuoRemE v = .error .divideByZero := by
  obtain ⟨h1, h2⟩ := Uint128.toNat_eq_zero_iff.1 h
  simp only [Uint128.QuoRemE]
  rw [if_pos h2, h1, quoRem64E_zero u]
  rfl

/-- `Uint256.QuoRem128` propagates the divide-by-zero panic of
`uint128.Div` on a zero divisor. -/
theorem quoRem128E_zero (u : Uint256) {v : Uint128} (h : v.toNat = 0) :
    u.QuoRem128E v = .error .divideByZero := by
  simp only [Uint256.QuoRem128E]
  split_ifs with hc
  · rw [div128_zero _ _ h]
    rfl
  · rw [div128_zero _ _ h]
    rfl

/-- `Uint256.QuoRem` propagates the divide-by-zero panic on a zero
divisor. -/
theorem quoRemE256_zero (u : Uint256) {v : Uint256} (h : v.toNat = 0) :
    u.QuoRemE v = .error .divideByZero := by
  have hLo : v.Lo.toNat = 0 ∧ v.Hi.toNat = 0 := by
    simp only [Uint256.toNat] at h
    omega
  have hz : v.Hi.IsZero = true := Uint128.isZero_iff.2 hLo.2
  simp only [Uint256.QuoRemE]
  rw [if_pos hz, quoRem128E_zero u hLo.1]
  rfl

/-! ### The claims -/

/-- C1: for every 128-bit value x and nonzero 128-bit y, `QuoRem` returns
q and r with x = q*y + r and r < y; likewise the mixed-width
`Uint128.QuoRem64` and the 256-bit `Uint256.QuoRem`. -/
theorem C1_division_correct :
    (∀ x y : Uint128, x.Wf → y.Wf → y.toNat ≠ 0 →
      x.toNat = (x.QuoRem y).1.toNat * y.toNat + (x.QuoRem y).2.toNat ∧
      (x.QuoRem y).2.toNat < y.toNat) ∧
    (∀ (x : Uint128) (v : Nat), x.Wf → v < 2^64 → v ≠ 0 →
      x.toNat = (x.QuoRem64 v).1.toNat * v + (x.QuoRem64 v).2 ∧
      (x.QuoRem64 v).2 < v) ∧
    (∀ x y : Uint256, x.Wf → y.Wf → y.toNat ≠ 0 →
      x.toNat = (x.QuoRem y).1.toNat * y.toNat + (x.QuoRem y).2.toNat ∧
      (x.QuoRem y).2.toNat < y.toNat) := by
  refine ⟨?_, ?_, ?_⟩
  · intro x y hx hy hy0
    obtain ⟨-, -, hq, hr⟩ := Uint128.QuoRem_spec hx hy hy0
    have hdm := Nat.div_add_mod x.toNat y.toNat
    have hc : x.toNat / y.toNat * y.toNat
        = y.toNat * (x.toNat / y.toNat) := Nat.mul_comm _ _
    rw [hq, hr]
    exact ⟨by omega, Nat.mod_lt _ (Nat.pos_of_ne_zero hy0)⟩
  · intro x v hx hvlt hv0
    obtain ⟨-, hq, hr, hb⟩ := Uint128.QuoRem64_spec hx
      (Nat.pos_of_ne_zero hv0) hvlt
    have hdm := Nat.div_add_mod x.toNat v
    have hc : x.toNat / v * v = v * (x.toNat / v) := Nat.mul_comm _ _
    rw [hq, hr]
    exact ⟨by omega, Nat.mod_lt _ (Nat.pos_of_ne_zero hv0)⟩
  · intro x y hx hy hy0
    obtain ⟨-, -, hq, hr⟩ := Uint256.QuoRem_spec256 hx hy hy0
    have hdm := Nat.div_add_mod x.toNat y.toNat
    have hc : x.toNat / y.toNat * y.toNat
        = y.toNat * (x.toNat / y.toNat) := Nat.mul_comm _ _
    rw [hq, hr]
    exact ⟨by omega, Nat.mod_lt _ (Nat.pos_of_ne_zero hy0)⟩

/-- Witness for C1 at x = 7, y = 3 (128-bit). -/
theorem C1_division_correct_witness :
    (Uint128.From64 7).toNat
      = ((Uint128.From64 7).QuoRem (Uint128.From64 3)).1.toNat
          * (Uint128.From64 3).toNat
        + ((Uint128.From64 7).QuoRem (Uint128.From64 3)).2.toNat ∧
    ((Uint128.From64 7).QuoRem (Uint128.From64 3)).2.toNat
      < (Uint128.From64 3).toNat :=
  C1_division_correct.1 (Uint128.From64 7) (Uint128.From64 3)
    (by decide) (by decide) (by decide)

set_option maxRecDepth 8000 in
/-- C2: the Add, Sub and Mul methods compute the mathematical result
reduced modulo 2^N at both widths, and Max+1 = 0, 0-1 = Max,
Max*Max = 1. -/
theorem C2_wraparound :
    (∀ u v : Uint128, u.Wf → v.Wf →
      (u.Add v).toNat = (u.toNat + v.toNat) % 2^128 ∧
      ((u.Sub v).toNat : Int) = ((u.toNat : Int) - v.toNat) % 2^128 ∧
      (u.Mul v).toNat = u.toNat * v.toNat % 2^128) ∧
    (∀ u v : Uint256, u.Wf → v.Wf →
      (u.Add v).toNat = (u.toNat + v.toNat) % 2^256 ∧
      ((u.Sub v).toNat : Int) = ((u.toNat : Int) - v.toNat) % 2^256 ∧
      (u.Mul v).toNat = u.toNat * v.toNat % 2^256) ∧
    Uint128.Max.Add Uint128.One = Uint128.Zero ∧
    Uint128.Zero.Sub Uint128.One = Uint128.Max ∧
    Uint128.Max.Mul Uint128.Max = Uint128.One ∧
    Uint256.Max.Add Uint256.One = Uint256.Zero ∧
    Uint256.Zero.Sub Uint256.One = Uint256.Max ∧
    Uint256.Max.Mul Uint256.Max = Uint256.One := by
  refine ⟨?_, ?_, by decide, by decide, by decide, by decide, by decide,
    by decide⟩
  · intro u v hu hv
    have ha := Uint128.Add_spec hu hv
    have hs := Uint128.Sub_spec hu hv
    have hm := Uint128.Mul_spec hu hv
    have hult := Uint128.toNat_lt hu
    have hvlt := Uint128.toNat_lt hv
    exact ⟨ha.2, by rw [hs.2]; omega, hm.2⟩
  · intro u v hu hv
    have ha := Uint256.Add_spec256 hu hv
    have hs := Uint256.Sub_spec256 hu hv
    have hm := Uint256.Mul_spec256 hu hv
    have hult := Uint256.toNat_lt256 hu
    have hvlt := Uint256.toNat_lt256 hv
    exact ⟨ha.2, by rw [hs.2]; omega, hm.2⟩

/-- Witness for C2 at u = 2, v = 3 (128-bit). -/
theorem C2_wraparound_witness :
    ((Uint128.From64 2).Add (Uint128.From64 3)).toNat
      = ((Uint128.From64 2).toNat + (Uint128.From64 3).toNat) % 2^128 ∧
    (((Uint128.From64 2).Sub (Uint128.From64 3)).toNat : Int)
      = (((Uint128.From64 2).toNat : Int) - (Uint128.From64 3).toNat)
          % 2^128 ∧
    ((Uint128.From64 2).Mul (Uint128.From64 3)).toNat
      = (Uint128.From64 2).toNat * (Uint128.From64 3).toNat % 2^128 :=
  C2_wraparound.1 (Uint128.From64 2) (Uint128.From64 3)
    (by decide) (by decide)

/-- C3 counterexample: with hi = lo = y = 0 the divisor satisfies
y ≤ hi, yet `Div` fails with DivideByZero, not Overflow — at both
widths. -/
theorem C3_overflow_counterexample :
    Uint128.Zero.toNat ≤ Uint128.Zero.toNat ∧
    uint128.Div Uint128.Zero Uint128.Zero Uint128.Zero
      = .error .divideByZero ∧
    Uint256.Zero.toNat ≤ Uint256.Zero.toNat ∧
    uint256.Div Uint256.Zero Uint256.Zero Uint256.Zero
      = .error .divideByZero ∧
    DivError.divideByZero ≠ DivError.overflow :=
  ⟨Nat.le_refl _, rfl, Nat.le_refl _, rfl, by decide⟩

/-- C3 (amended): for a NONZERO divisor y with y ≤ hi, the free function
`Div` fails with Overflow (distinguishable from DivideByZero) at both
widths; a zero divisor instead fails with DivideByZero. -/
theorem C3_overflow_amended :
    (∀ hi lo y : Uint128, hi.Wf → y.Wf → y.toNat ≠ 0 →
      y.toNat ≤ hi.toNat → uint128.Div hi lo y = .error .overflow) ∧
    (∀ hi lo y : Uint256, hi.Wf → y.Wf → y.toNat ≠ 0 →
      y.toNat ≤ hi.toNat → uint256.Div hi lo y = .error .overflow) ∧
    DivError.overflow ≠ DivError.divideByZero :=
  ⟨fun _ lo _ h1 h2 h3 h4 => div128_overflow lo h1 h2 h3 h4,
   fun _ lo _ h1 h2 h3 h4 => div256_overflow lo h1 h2 h3 h4,
   by decide⟩

/-- Witness for the amended C3 at hi = 5, y = 3 (128-bit). -/
theorem C3_overflow_witness :
    ((Uint128.From64 5).Wf ∧ (Uint128.From64 3).Wf ∧
      (Uint128.From64 3).toNat ≠ 0 ∧
      (Uint128.From64 3).toNat ≤ (Uint128.From64 5).toNat) ∧
    uint128.Div (Uint128.From64 5) Uint128.Zero (Uint128.From64 3)
      = .error .overflow :=
  ⟨⟨by decide, by decide, by decide, by decide⟩,
   C3_overflow_amended.1 (Uint128.From64 5) Uint128.Zero (Uint128.From64 3)
     (by decide) (by decide) (by decide) (by decide)⟩

/-- C4: every division entry point (the QuoRem methods at both widths and
the free `Div` functions) fails with DivideByZero on a zero divisor, for
every dividend including zero. -/
theorem C4_divide_by_zero :
    (∀ u v : Uint128, v.toNat = 0 →
      u.QuoRemE v = .error .divideByZero) ∧
    (∀ u v : Uint256, v.toNat = 0 →
      u.QuoRemE v = .error .divideByZero) ∧
    (∀ hi lo y : Uint128, y.toNat = 0 →
      uint128.Div hi lo y = .error .divideByZero) ∧
    (∀ hi lo y : Uint256, y.toNat = 0 →
      uint256.Div hi lo y = .error .divideByZero) :=
  ⟨fun u _ h => quoRemE128_zero u h,
   fun u _ h => quoRemE256_zero u h,
   fun hi lo _ h => div128_zero hi lo h,
   fun hi lo _ h => div256_zero hi lo h⟩

/-- Witness for C4 at u = 9, v = 0 (128-bit QuoRem). -/
theorem C4_divide_by_zero_witness :
    Uint128.Zero.toNat = 0 ∧
    (Uint128.From64 9).QuoRemE Uint128.Zero = .error .divideByZero :=
  ⟨rfl, C4_divide_by_zero.1 (Uint128.From64 9) Uint128.Zero rfl⟩

/-- C5: the free function `Mul` returns the exact double-width product:
hi*2^128 + lo = x*y at 128 bits and hi*2^256 + lo = x*y at 256 bits. -/
theorem C5_full_product :
    (∀ x y : Uint128, x.Wf → y.Wf →
      (uint128.Mul x y).1.toNat * 2^128 + (uint128.Mul x y).2.toNat
        = x.toNat * y.toNat) ∧
    (∀ x y : Uint256, x.Wf → y.Wf →
      (uint256.Mul x y).1.toNat * 2^256 + (uint256.Mul x y).2.toNat
        = x.toNat * y.toNat) :=
  ⟨fun _ _ hx hy => (Uint128.mulFull_spec hx hy).2.2,
   fun _ _ hx hy => (Uint256.mulFull_spec256 hx hy).2.2⟩

/-- Witness for C5 at x = 6, y = 7 (128-bit). -/
theorem C5_full_product_witness :
    (uint128.Mul (Uint128.From64 6) (Uint128.From64 7)).1.toNat * 2^128
      + (uint128.Mul (Uint128.From64 6) (Uint128.From64 7)).2.toNat
      = (Uint128.From64 6).toNat * (Uint128.From64 7).toNat :=
  C5_full_product.1 (Uint128.From64 6) (Uint128.From64 7)
    (by decide) (by decide)

/-- C6: Lsh is multiplication by 2^n truncated to the width, Rsh is
floor division by 2^n, any shift amount ≥ N yields zero, and
{Lo: 0xFFFFFFFFFFFFFFFF, Hi: 0} << 64 = {Lo: 0, Hi: 0xFFFFFFFFFFFFFFFF}. -/
theorem C6_shifts :
    (∀ (u : Uint128) (n : Nat), u.Wf →
      (u.Lsh n).toNat = u.toNat * 2^n % 2^128 ∧
      (u.Rsh n).toNat = u.toNat / 2^n) ∧
    (∀ (u : Uint256) (n : Nat), u.Wf →
      (u.Lsh n).toNat = u.toNat * 2^n % 2^256 ∧
      (u.Rsh n).toNat = u.toNat / 2^n) ∧
    (∀ (u : Uint128) (n : Nat), u.Wf → 128 ≤ n →
      (u.Lsh n).toNat = 0 ∧ (u.Rsh n).toNat = 0) ∧
    (∀ (u : Uint256) (n : Nat), u.Wf → 256 ≤ n →
      (u.Lsh n).toNat = 0 ∧ (u.Rsh n).toNat = 0) ∧
    (Uint128.mk 0xFFFFFFFFFFFFFFFF 0).Lsh 64
      = Uint128.mk 0 0xFFFFFFFFFFFFFFFF := by
  refine ⟨?_, ?_, ?_, ?_, by decide⟩
  · intro u n hu
    exact ⟨(Uint128.Lsh_spec n hu).2, (Uint128.Rsh_spec n hu).2⟩
  · intro u n hu
    exact ⟨(Uint256.Lsh_spec256 n hu).2, (Uint256.Rsh_spec256 n hu).2⟩
  · intro u n hu hn
    constructor
    · rw [(Uint128.Lsh_spec n hu).2]
      have e : (2:ℕ)^n = 2^(n-128) * 2^128 := by
        rw [← pow_add]
        congr 1
        omega
      rw [e, ← Nat.mul_assoc]
      exact Nat.mul_mod_left _ _
    · rw [(Uint128.Rsh_spec n hu).2]
      apply Nat.div_eq_of_lt
      calc u.toNat < 2^128 := Uint128.toNat_lt hu
        _ ≤ 2^n := Nat.pow_le_pow_right (by norm_num) hn
  · intro u n hu hn
    constructor
    · rw [(Uint256.Lsh_spec256 n hu).2]
      have e : (2:ℕ)^n = 2^(n-256) * 2^256 := by
        rw [← pow_add]
        congr 1
        omega
      rw [e, ← Nat.mul_assoc]
      exact Nat.mul_mod_left _ _
    · rw [(Uint256.Rsh_spec256 n hu).2]
      apply Nat.div_eq_of_lt
      calc u.toNat < 2^256 := Uint256.toNat_lt256 hu
        _ ≤ 2^n := Nat.pow_le_pow_right (by norm_num) hn

/-- Witness for C6 at u = 5, n = 2 (128-bit). -/
theorem C6_shifts_witness :
    ((Uint128.From64 5).Lsh 2).toNat
      = (Uint128.From64 5).toNat * 2^2 % 2^128 ∧
    ((Uint128.From64 5).Rsh 2).toNat = (Uint128.From64 5).toNat / 2^2 :=
  C6_shifts.1 (Uint128.From64 5) 2 (by decide)

/-- C7: under the preconditions of the free `Div` (nonzero divisor
strictly above the high half), each of the two correction loops runs at
most 2 iterations, at both widths. -/
theorem C7_correction_bound :
    (∀ hi lo y : Uint128, hi.Wf → lo.Wf → y.Wf → y.toNat ≠ 0 →
      hi.toNat < y.toNat →
      (uint128.divCore hi lo y).2.1 ≤ 2 ∧
      (uint128.divCore hi lo y).2.2 ≤ 2) ∧
    (∀ hi lo y : Uint256, hi.Wf → lo.Wf → y.Wf → y.toNat ≠ 0 →
      hi.toNat < y.toNat →
      (uint256.divCore hi lo y).2.1 ≤ 2 ∧
      (uint256.divCore hi lo y).2.2 ≤ 2) :=
  ⟨fun _ _ _ h1 h2 h3 h4 h5 =>
    ⟨(divCore_spec128 h1 h2 h3 h4 h5).2.2.2.2.1,
     (divCore_spec128 h1 h2 h3 h4 h5).2.2.2.2.2⟩,
   fun _ _ _ h1 h2 h3 h4 h5 =>
    ⟨(divCore_spec256 h1 h2 h3 h4 h5).2.2.2.2.1,
     (divCore_spec256 h1 h2 h3 h4 h5).2.2.2.2.2⟩⟩

/-- Witness for C7 at hi = 1, lo = 5, y = 3 (128-bit). -/
theorem C7_correction_bound_witness :
    (uint128.divCore (Uint128.From64 1) (Uint128.From64 5)
      (Uint128.From64 3)).2.1 ≤ 2 ∧
    (uint128.divCore (Uint128.From64 1) (Uint128.From64 5)
      (Uint128.From64 3)).2.2 ≤ 2 :=
  C7_correction_bound.1 (Uint128.From64 1) (Uint128.From64 5)
    (Uint128.From64 3) (by decide) (by decide) (by decide) (by decide)
    (by decide)

/-- C8: rotateLeft(x, k) = rotateRight(x, N - k mod N) for every integer
k, rotateLeft(x, 0) = x and rotateLeft(x, N) = x, at both widths. -/
theorem C8_rotate :
    (∀ (u : Uint128) (k : Int),
      u.RotateLeft k = u.RotateRight (128 - k % 128) ∧
      u.RotateLeft 0 = u ∧ u.RotateLeft 128 = u) ∧
    (∀ (u : Uint256) (k : Int),
      u.RotateLeft k = u.RotateRight (256 - k % 256) ∧
      u.RotateLeft 0 = u ∧ u.RotateLeft 256 = u) := by
  constructor
  · intro u k
    refine ⟨?_, rfl, rfl⟩
    simp only [Uint128.RotateLeft, Uint128.RotateRight]
    rw [show -(128 - k % 128) % 128 = k % 128 from by omega]
  · intro u k
    refine ⟨?_, rfl, rfl⟩
    simp only [Uint256.RotateLeft, Uint256.RotateRight]
    rw [show -(256 - k % 256) % 256 = k % 256 from by omega]

set_option maxRecDepth 8000 in
/-- C9: FromBigX saturates: a negative input gives (Zero, false), an
input of more than N bits gives (Max, false), anything else converts
exactly with flag true; FromBig is FromBigX with the flag dropped. -/
theorem C9_frombig_saturation :
    (∀ i : Int,
      (i < 0 → uint128.FromBigX (some i) = (Uint128.Zero, false)) ∧
      (0 ≤ i → 2^128 ≤ i →
        uint128.FromBigX (some i) = (Uint128.Max, false)) ∧
      (0 ≤ i → i < 2^128 →
        ((uint128.FromBigX (some i)).1.toNat : Int) = i ∧
        (uint128.FromBigX (some i)).2 = true)) ∧
    (∀ i : Int,
      (i < 0 → uint256.FromBigX (some i) = (Uint256.Zero, false)) ∧
      (0 ≤ i → 2^256 ≤ i →
        uint256.FromBigX (some i) = (Uint256.Max, false)) ∧
      (0 ≤ i → i < 2^256 →
        ((uint256.FromBigX (some i)).1.toNat : Int) = i ∧
        (uint256.FromBigX (some i)).2 = true)) ∧
    (∀ o : Option Int, uint128.FromBig o = (uint128.FromBigX o).1) ∧
    (∀ o : Option Int, uint256.FromBig o = (uint256.FromBigX o).1) := by
  refine ⟨?_, ?_, fun o => rfl, fun o => rfl⟩
  · intro i
    refine ⟨?_, ?_, ?_⟩
    · intro h
      simp only [uint128.FromBigX]
      rw [if_pos h]
    · intro h0 hge
      have ht : (i.toNat : Int) = i := Int.toNat_of_nonneg h0
      have hsz : 128 < Nat.size i.toNat := by
        rw [Nat.lt_size]
        omega
      simp only [uint128.FromBigX]
      rw [if_neg (by omega : ¬ i < 0), if_pos hsz]
    · intro h0 hlt
      have ht : (i.toNat : Int) = i := Int.toNat_of_nonneg h0
      have hlt' : i.toNat < 2^128 := by omega
      have hsz : ¬ 128 < Nat.size i.toNat := by
        rw [not_lt, Nat.size_le]
        exact hlt'
      simp only [uint128.FromBigX]
      rw [if_neg (by omega : ¬ i < 0), if_neg hsz]
      refine ⟨?_, rfl⟩
      show ((Uint128.mk (i.toNat % 2^64) (i.toNat / 2^64 % 2^64)).toNat
        : Int) = i
      simp only [Uint128.toNat]
      rw [show i.toNat / 2^64 % 2^64 * 2^64 + i.toNat % 2^64 = i.toNat
        from by omega, ht]
  · intro i
    refine ⟨?_, ?_, ?_⟩
    · intro h
      simp only [uint256.FromBigX]
      rw [if_pos h]
    · intro h0 hge
      have ht : (i.toNat : Int) = i := Int.toNat_of_nonneg h0
      have hsz : 256 < Nat.size i.toNat := by
        rw [Nat.lt_size]
        omega
      simp only [uint256.FromBigX]
      rw [if_neg (by omega : ¬ i < 0), if_pos hsz]
    · intro h0 hlt
      have ht : (i.toNat : Int) = i := Int.toNat_of_nonneg h0
      have hlt' : i.toNat < 2^256 := by omega
      have hsz : ¬ 256 < Nat.size i.toNat := by
        rw [not_lt, Nat.size_le]
        exact hlt'
      simp only [uint256.FromBigX]
      rw [if_neg (by omega : ¬ i < 0), if_neg hsz]
      refine ⟨?_, rfl⟩
      show ((Uint256.mk
        (Uint128.mk (i.toNat % 2^64) (i.toNat / 2^64 % 2^64))
        (Uint128.mk (i.toNat / 2^128 % 2^64)
          (i.toNat / 2^192 % 2^64))).toNat : Int) = i
      simp only [Uint256.toNat, Uint128.toNat]
      rw [show (i.toNat / 2^192 % 2^64 * 2^64 + i.toNat / 2^128 % 2^64)
          * 2^128 + (i.toNat / 2^64 % 2^64 * 2^64 + i.toNat % 2^64)
          = i.toNat from by omega, ht]

/-- Witness for C9: the exact-conversion branch at i = 5 (128-bit). -/
theorem C9_frombig_saturation_witness :
    0 ≤ (5:Int) ∧ (5:Int) < 2^128 ∧
    (((uint128.FromBigX (some 5)).1.toNat : Int) = 5 ∧
      (uint128.FromBigX (some 5)).2 = true) :=
  ⟨by norm_num, by norm_num,
   (C9_frombig_saturation.1 5).2.2 (by norm_num) (by norm_num)⟩

/-- C10: a nil big-integer input converts to (Zero, true): exact zero
with the success flag set, at both widths, and FromBig(nil) is Zero. -/
theorem C10_frombig_nil :
    uint128.FromBigX none = (Uint128.Zero, true) ∧
    uint128.FromBig none = Uint128.Zero ∧
    uint256.FromBigX none = (Uint256.Zero, true) ∧
    uint256.FromBig none = Uint256.Zero :=
  ⟨rfl, rfl, rfl, rfl⟩
